import Mathlib

/-!
# ass2.c: chapter store and game-graph classifier

A shallow embedding of the chapter store (`Map`, `insertChapterIntoMap`,
`getChapterFromMap`, `areEqual`) and of the graph analysis (`resetGraphState`,
`traverseGraph`, `visitGraphChilds`, `visitRemainingChilds`, `evaluateGraphNode`,
`getGraphClass`) of `src/ass2.c`.

Memory model.  A `Chapter *` is an index into a heap (`List Chapter`); the null
pointer is `none`.  An access through a null pointer, through an index that is not
in the heap, to a cell outside an allocated block or to a cell that was never
written is a `Fault`.  Recursion that C runs on the call stack carries a fuel
argument; running out of fuel is the fault `outOfFuel`.
-/

namespace Ass2

/-! ## Constants -/

def OPTION_COUNT : Nat := 2
def MAP_MALLOC_INTERVALL : Nat := 64
def ERR_INVALID_ARGUMENTS : Nat := 1
def ERR_OUT_OF_MEMORY : Nat := 2
def ERR_IO : Nat := 3

/-! ## Data model -/

/-- Ways in which a run of the C code has no defined result. -/
inductive Fault where
  | nullDeref
  | badPointer
  | outOfBlock
  | uninitialised
  | outOfFuel
  deriving DecidableEq, Repr

/-- The enum `GraphNodeStatus` (`DEAD_END = -1`, `UNVISITED = 0`, `PROCESSING = 1`,
`LEADS_TO_END = 2`). -/
inductive GraphNodeStatus where
  | DEAD_END
  | UNVISITED
  | PROCESSING
  | LEADS_TO_END
  deriving DecidableEq, Repr

/-- The enum `GraphClass` (`POSSIBLE = 1`, `HAS_MAZE = 2`, `NO_END = 0`). -/
inductive GraphClass where
  | POSSIBLE
  | HAS_MAZE
  | NO_END
  deriving DecidableEq, Repr

/-- The struct `Chapter`.  `title_` and `text_` point into one block (the raw chapter
text in which the first three line feeds were overwritten by terminators): `title_` is
modelled by the bytes of that block from `title_` to the end of the block, and `text_`
by its offset from `title_`.  `options_` holds the two choice slots. -/
structure Chapter where
  title_ : List Nat
  text_ : Nat
  options_ : Option Nat × Option Nat
  graph_analyze_state_ : GraphNodeStatus
  deriving DecidableEq, Repr

/-- The chapters that are currently allocated; a `Chapter *` is an index. -/
abbrev Heap := List Chapter

/-- The struct `MapEntry`; `key_` is the content of the string the key points to. -/
structure MapEntry where
  key_ : List Nat
  value_ : Option Nat
  deriving DecidableEq, Repr

/-- The struct `Map`.  `start_entry_` is null or a block of cells; a cell that was never
written is `none`.  The length of the block is what was really allocated, `length_` is
what the program recorded. -/
structure Map where
  length_ : Nat
  count_ : Nat
  start_entry_ : Option (List (Option MapEntry))
  deriving DecidableEq, Repr

/-- The cells of the block of a map (none for a null `start_entry_`). -/
def Map.block (map : Map) : List (Option MapEntry) :=
  map.start_entry_.getD []

/-- What the loops `for (entry = start_entry_; entry < start_entry_ + count_; entry++)`
range over: for each of the first `count_` positions the entry read there, or `none`
where the read is outside the block or of a cell never written. -/
def Map.entries (map : Map) : List (Option MapEntry) :=
  (List.range map.count_).map (fun i => (map.block[i]?).join)

/-! ## Heap access -/

def getState (h : Heap) (p : Nat) : Except Fault GraphNodeStatus :=
  match h[p]? with
  | some c => .ok c.graph_analyze_state_
  | none => .error .badPointer

/-- The assignment `p->graph_analyze_state_ = s`. -/
def setState (h : Heap) (p : Nat) (s : GraphNodeStatus) : Heap :=
  match h[p]? with
  | some c => h.set p { c with graph_analyze_state_ := s }
  | none => h

/-! ## Graph analysis -/

/-- The function `evaluateGraphNode`: the loop over the two choice slots, unrolled.  Reading the
state of a null child is a fault. -/
def evaluateGraphNode (h : Heap) (root : Nat) : Except Fault GraphNodeStatus :=
  match h[root]? with
  | none => .error .badPointer
  | some r =>
    match r.options_.1 with
    | none => .error .nullDeref
    | some child0 =>
      match h[child0]? with
      | none => .error .badPointer
      | some c0 =>
        if c0.graph_analyze_state_ = .LEADS_TO_END then .ok .LEADS_TO_END
        else
          match r.options_.2 with
          | none => .error .nullDeref
          | some child1 =>
            match h[child1]? with
            | none => .error .badPointer
            | some c1 =>
              if c1.graph_analyze_state_ = .LEADS_TO_END then .ok .LEADS_TO_END
              else .ok .DEAD_END

/-- The function `visitGraphChilds`, with the recursive call `traverseGraph` passed as `trav`.
The loop over the two choice slots is unrolled; each slot is read from the heap
as it is when the loop reaches it. -/
def visitGraphChilds (trav : Heap → Nat → Except Fault Heap) (h : Heap) (root : Nat) :
    Except Fault Heap :=
  match h[root]? with
  | none => .error .badPointer
  | some r =>
    match r.options_.1 with
    | none => .ok (setState h root .LEADS_TO_END)
    | some child0 =>
      match trav h child0 with
      | .error e => .error e
      | .ok h1 =>
        match h1[root]? with
        | none => .error .badPointer
        | some r1 =>
          match r1.options_.2 with
          | none => .ok (setState h1 root .LEADS_TO_END)
          | some child1 =>
            match trav h1 child1 with
            | .error e => .error e
            | .ok h2 =>
              match evaluateGraphNode h2 root with
              | .error e => .error e
              | .ok s => .ok (setState h2 root s)

/-- The function `visitRemainingChilds`, with the recursive call `traverseGraph` passed as `trav`.
The loop runs for `current_path = OPTION_COUNT - 1` down to `1`, that is once, for
slot 1. -/
def visitRemainingChilds (trav : Heap → Nat → Except Fault Heap) (h : Heap) (root : Nat) :
    Except Fault Heap :=
  match h[root]? with
  | none => .error .badPointer
  | some r =>
    match r.options_.2 with
    | none => .ok (setState h root .LEADS_TO_END)
    | some child =>
      match h[child]? with
      | none => .error .badPointer
      | some c =>
        if c.graph_analyze_state_ = .LEADS_TO_END then
          .ok (setState h root .LEADS_TO_END)
        else
          match (if c.graph_analyze_state_ = .UNVISITED then trav h child else .ok h) with
          | .error e => .error e
          | .ok h1 =>
            match evaluateGraphNode h1 root with
            | .error e => .error e
            | .ok s => .ok (setState h1 root s)

/-- The function `traverseGraph`; `fuel` bounds the depth of nested calls. -/
def traverseGraph : Nat → Heap → Nat → Except Fault Heap
  | 0, _, _ => .error .outOfFuel
  | fuel + 1, h, root =>
    match h[root]? with
    | none => .error .badPointer
    | some r =>
      match r.graph_analyze_state_ with
      | .LEADS_TO_END => .ok h
      | .DEAD_END => .ok h
      | .PROCESSING => visitRemainingChilds (traverseGraph fuel) h root
      | .UNVISITED =>
        visitGraphChilds (traverseGraph fuel) (setState h root .PROCESSING) root

/-- The body of the loop of `resetGraphState` over the entries. -/
def resetGraphStateLoop : List (Option MapEntry) → Heap → Except Fault Heap
  | [], h => .ok h
  | none :: _, _ => .error .uninitialised
  | some entry :: rest, h =>
    match entry.value_ with
    | none => .error .nullDeref
    | some p =>
      match h[p]? with
      | none => .error .badPointer
      | some _ => resetGraphStateLoop rest (setState h p .UNVISITED)

def resetGraphState (map : Map) (h : Heap) : Except Fault Heap :=
  resetGraphStateLoop map.entries h

/-- The read `map->start_entry_->value_`. -/
def rootOf (map : Map) : Except Fault (Option Nat) :=
  match map.start_entry_ with
  | none => .error .nullDeref
  | some block =>
    match block[0]? with
    | none => .error .outOfBlock
    | some none => .error .uninitialised
    | some (some entry) => .ok entry.value_

/-- The loop of `getGraphClass` over the entries. -/
def getGraphClassLoop : List (Option MapEntry) → Heap → Except Fault GraphClass
  | [], _ => .ok .POSSIBLE
  | none :: _, _ => .error .uninitialised
  | some entry :: rest, h =>
    match entry.value_ with
    | none => .error .nullDeref
    | some p =>
      match h[p]? with
      | none => .error .badPointer
      | some c =>
        if c.graph_analyze_state_ ≠ .LEADS_TO_END then .ok .HAS_MAZE
        else getGraphClassLoop rest h

def getGraphClass (map : Map) (h : Heap) : Except Fault GraphClass :=
  match rootOf map with
  | .error e => .error e
  | .ok none => .error .nullDeref
  | .ok (some root) =>
    match h[root]? with
    | none => .error .badPointer
    | some r =>
      if r.graph_analyze_state_ ≠ .LEADS_TO_END then .ok .NO_END
      else getGraphClassLoop map.entries h

/-- The analysis pass of `analyzeGameGraph`: `resetGraphState`, `traverseGraph` on the
value of the first entry, `getGraphClass`.  The result is the heap after the pass and
the class that selects the message. -/
def analysisPass (fuel : Nat) (map : Map) (h : Heap) : Except Fault (Heap × GraphClass) :=
  match resetGraphState map h with
  | .error e => .error e
  | .ok h0 =>
    match rootOf map with
    | .error e => .error e
    | .ok none => .error .nullDeref
    | .ok (some root) =>
      match traverseGraph fuel h0 root with
      | .error e => .error e
      | .ok h1 =>
        match getGraphClass map h1 with
        | .error e => .error e
        | .ok result => .ok (h1, result)

/-- The function `analyzeGameGraph`: nothing happens when the error flag is set. -/
def analyzeGameGraph (fuel : Nat) (map : Map) (h : Heap) (error : Nat) :
    Except Fault (Heap × Option GraphClass) :=
  if error ≠ 0 then .ok (h, none)
  else
    match analysisPass fuel map h with
    | .error e => .error e
    | .ok (h1, result) => .ok (h1, some result)

/-! ## The chapter store -/

/-- The function `strlen` on the bytes from a pointer to the end of its block: the number of bytes
before the first terminator.  A block without terminator is read past its end. -/
def strlenFrom : List Nat → Except Fault Nat
  | [] => .error .outOfBlock
  | b :: rest =>
    if b = 0 then .ok 0
    else
      match strlenFrom rest with
      | .error e => .error e
      | .ok n => .ok (n + 1)

/-- The call `strlen(p + off)` for a pointer `p` to the bytes `mem`. -/
def strlen (mem : List Nat) (off : Nat) : Except Fault Nat :=
  strlenFrom (mem.drop off)

/-- The function `strcmp` on the contents of two strings; only whether the result is zero is used. -/
def strcmp (a b : List Nat) : Nat := if a = b then 0 else 1

/-- The function `memcmp` on the first `n` bytes; only whether the result is zero is used. -/
def memcmp (a b : List Nat) (n : Nat) : Nat := if a.take n = b.take n then 0 else 1

/-- The function `min` of the source. -/
def min (first second : Nat) : Nat := if first < second then first else second

/-- Reading through a `Chapter *`. -/
def deref (h : Heap) (p : Option Nat) : Except Fault Chapter :=
  match p with
  | none => .error .nullDeref
  | some q =>
    match h[q]? with
    | none => .error .badPointer
    | some c => .ok c

/-- The function `areEqual` on two chapters that were read through their pointers. -/
def areEqualChapters (chapter_a chapter_b : Chapter) : Except Fault Nat :=
  match strlen chapter_a.title_ chapter_a.text_ with
  | .error e => .error e
  | .ok length_a =>
    match strlen chapter_b.title_ chapter_b.text_ with
    | .error e => .error e
    | .ok length_b =>
      .ok (if length_a = length_b ∧
          memcmp chapter_a.title_ chapter_b.title_
            (min (chapter_a.text_ + length_a) (chapter_b.text_ + length_b)) = 0
        then 1 else 0)

/-- The function `areEqual`: 1 if the chapters are equal, else 0. -/
def areEqual (h : Heap) (chapter_a chapter_b : Option Nat) : Except Fault Nat :=
  match deref h chapter_a with
  | .error e => .error e
  | .ok a =>
    match deref h chapter_b with
    | .error e => .error e
    | .ok b => areEqualChapters a b

/-- The loop of `getChapterFromMap` over the entries. -/
def getChapterFromMapLoop (filename : List Nat) :
    List (Option MapEntry) → Except Fault (Option Nat)
  | [] => .ok none
  | none :: _ => .error .uninitialised
  | some entry :: rest =>
    if strcmp entry.key_ filename = 0 then .ok entry.value_
    else getChapterFromMapLoop filename rest

def getChapterFromMap (map : Map) (filename : List Nat) : Except Fault (Option Nat) :=
  getChapterFromMapLoop filename map.entries

/-- The loop of `getEqualChapter` over the entries. -/
def getEqualChapterLoop (h : Heap) (chapter : Option Nat) :
    List (Option MapEntry) → Except Fault (Option Nat)
  | [] => .ok none
  | none :: _ => .error .uninitialised
  | some entry :: rest =>
    match areEqual h entry.value_ chapter with
    | .error e => .error e
    | .ok r =>
      if r ≠ 0 then .ok entry.value_
      else getEqualChapterLoop h chapter rest

def getEqualChapter (h : Heap) (map : Map) (chapter : Option Nat) :
    Except Fault (Option Nat) :=
  getEqualChapterLoop h chapter map.entries

/-- The block `realloc` returns when it succeeds: the old cells up to the new size,
then cells never written. -/
def realloc (block : List (Option MapEntry)) (n : Nat) : List (Option MapEntry) :=
  block.take n ++ List.replicate (n - block.length) none

/-- The loop of `resizeMap`.  `alloc n` tells whether a request for `n` cells succeeds.
The result is the returned size, the map and the error flag. -/
def resizeMapLoop (alloc : Nat → Bool) (map : Map) (error : Nat) :
    Nat → Nat → Except Fault (Nat × Map × Nat)
  | 0, _ => .error .outOfFuel
  | fuel + 1, size =>
    if alloc (map.length_ + size) then
      .ok (size, { map with start_entry_ := some (realloc map.block (map.length_ + size)) },
        error)
    else if size = 1 then .ok (0, map, ERR_OUT_OF_MEMORY)
    else resizeMapLoop alloc map error fuel (size / 2)

/-- The function `resizeMap`; the loop halves `size`, so `size + 1` rounds are more than it can run
for a `size` that is not zero. -/
def resizeMap (alloc : Nat → Bool) (map : Map) (size : Nat) (error : Nat) :
    Except Fault (Nat × Map × Nat) :=
  resizeMapLoop alloc map error (size + 1) size

/-- The loop of `createMapEntryArray`: the returned size, the array and the error flag. -/
def createMapEntryArrayLoop (alloc : Nat → Bool) (error : Nat) :
    Nat → Nat → Except Fault (Nat × Option (List (Option MapEntry)) × Nat)
  | 0, _ => .error .outOfFuel
  | fuel + 1, size =>
    if alloc size then .ok (size, some (List.replicate size none), error)
    else if size = 1 then .ok (0, none, ERR_OUT_OF_MEMORY)
    else createMapEntryArrayLoop alloc error fuel (size / 2)

def createMapEntryArray (alloc : Nat → Bool) (size : Nat) (error : Nat) :
    Except Fault (Nat × Option (List (Option MapEntry)) × Nat) :=
  createMapEntryArrayLoop alloc error (size + 1) size

/-- The function `initializeMap`: the map and the error flag. -/
def initializeMap (alloc : Nat → Bool) (map : Map) (error : Nat) : Except Fault (Map × Nat) :=
  match createMapEntryArray alloc MAP_MALLOC_INTERVALL error with
  | .error e => .error e
  | .ok (size, map_entry, error1) =>
    .ok ({ map with start_entry_ := map_entry, length_ := size }, error1)

/-- The part of `insertChapterIntoMap` after the map was grown: the search for an equal
chapter and the write of the new entry.  The result is the returned pointer, the map
and the error flag. -/
def insertChapterIntoMapEntry (h : Heap) (map : Map) (filename : List Nat)
    (chapter : Option Nat) (error : Nat) : Except Fault (Option Nat × Map × Nat) :=
  match getEqualChapter h map chapter with
  | .error e => .error e
  | .ok duplicate_chapter =>
    match map.start_entry_ with
    | none => .error .nullDeref
    | some block =>
      if map.count_ < block.length then
        let value : Option Nat :=
          match duplicate_chapter with
          | some d => some d
          | none => chapter
        .ok (value,
          { map with
            count_ := map.count_ + 1
            start_entry_ := some (block.set map.count_ (some ⟨filename, value⟩)) },
          error)
      else .error .outOfBlock

/-- The function `insertChapterIntoMap`: the returned pointer, the map and the error flag. -/
def insertChapterIntoMap (alloc : Nat → Bool) (h : Heap) (map : Map) (filename : List Nat)
    (chapter : Option Nat) (error : Nat) : Except Fault (Option Nat × Map × Nat) :=
  if error ≠ 0 then .ok (none, map, error)
  else if map.count_ ≥ map.length_ then
    match resizeMap alloc map MAP_MALLOC_INTERVALL error with
    | .error e => .error e
    | .ok (size, map1, error1) =>
      if size = 0 then .ok (none, map1, error1)
      else insertChapterIntoMapEntry h map1 filename chapter error1
  else insertChapterIntoMapEntry h map filename chapter error

/-! ## Example graphs -/

/-- A chapter of an example graph: only the choice slots matter. -/
def node (o : Option Nat × Option Nat) : Chapter :=
  { title_ := [0], text_ := 0, options_ := o, graph_analyze_state_ := .UNVISITED }

/-- A store holding the records `0 .. n-1` in this order under the keys `[0] .. [n-1]`,
in a block of `MAP_MALLOC_INTERVALL` cells. -/
def storeOf (n : Nat) : Map :=
  { length_ := MAP_MALLOC_INTERVALL
    count_ := n
    start_entry_ := some ((List.range n).map (fun i => some ⟨[i], some i⟩) ++
      List.replicate (MAP_MALLOC_INTERVALL - n) none) }

/-- The two-node cycle `A = (B, B)`, `B = (A, A)`. -/
def twoCycle : Heap := [node (some 1, some 1), node (some 0, some 0)]

/-- The graph `A = (B, C)`, `B = (A, A)`, `C` terminal. -/
def cycleWithExit : Heap := [node (some 1, some 2), node (some 0, some 0), node (none, none)]

/-- The graph `A = (B, C)`, `B = (B, B)`, `C` terminal. -/
def mazeGraph : Heap := [node (some 1, some 2), node (some 1, some 1), node (none, none)]

/-- The graph `A = (A, B)`, `B = (C, D)`, `C` terminal, `D = (A, A)`. -/
def staleGraph : Heap :=
  [node (some 0, some 1), node (some 2, some 3), node (none, none), node (some 0, some 0)]

/-- The graph `A = (B, B)`, `B` terminal. -/
def chainGraph : Heap := [node (some 1, some 1), node (none, none)]

/-- A heap with the choice slots of `h` and every tag `LEADS_TO_END`. -/
def allLeads (h : Heap) : Heap :=
  h.map (fun c => { c with graph_analyze_state_ := .LEADS_TO_END })

/-- A chapter with the given block and text offset. -/
def chapterOf (mem : List Nat) (text : Nat) : Chapter :=
  { title_ := mem, text_ := text, options_ := (none, none),
    graph_analyze_state_ := .UNVISITED }

/-- Three chapters: two with the same raw text, one with another. -/
def dupHeap : Heap :=
  [chapterOf [65, 0, 45, 0, 45, 0, 120, 0] 6, chapterOf [65, 0, 45, 0, 45, 0, 120, 0] 6,
    chapterOf [66, 0, 45, 0, 45, 0, 121, 0] 6]

/-- A store with the given entries in a block of `MAP_MALLOC_INTERVALL` cells. -/
def storeWith (es : List MapEntry) : Map :=
  { length_ := MAP_MALLOC_INTERVALL
    count_ := es.length
    start_entry_ := some (es.map some ++ List.replicate (MAP_MALLOC_INTERVALL - es.length) none) }

/-- An allocator that grants every request. -/
def allocAlways : Nat → Bool := fun _ => true

/-! ## The graph of a heap, and what the claims speak about -/

/-- The choice slots of the nodes of a graph, by node. -/
abbrev Graph := Nat → Option (Option Nat × Option Nat)

/-- The choice slots of the chapter at `p`. -/
def opts (h : Heap) : Graph := fun p => (h[p]?).map (fun c => c.options_)

/-- The analysis tag of the chapter at `p`. -/
def tag (h : Heap) (p : Nat) : Option GraphNodeStatus :=
  (h[p]?).map (fun c => c.graph_analyze_state_)

/-- The heap with every tag set to `UNVISITED`. -/
def shape (h : Heap) : Heap :=
  h.map (fun c => { c with graph_analyze_state_ := .UNVISITED })

/-- One of the two choice slots of `a` is `b`. -/
def Step (g : Graph) (a b : Nat) : Prop :=
  ∃ o, g a = some o ∧ (o.1 = some b ∨ o.2 = some b)

/-- Both choice slots of `a` are terminal. -/
def Terminal (g : Graph) (a : Nat) : Prop := g a = some (none, none)

/-- Some node with terminal choices is reachable from `a` (`a` included). -/
def CanEnd (g : Graph) (a : Nat) : Prop :=
  ∃ b, Relation.ReflTransGen (Step g) a b ∧ Terminal g b

/-- No node lies on a cycle. -/
def Acyclic (g : Graph) : Prop := ∀ a, ¬ Relation.TransGen (Step g) a a

/-- Every choice slot that is not terminal points to a chapter of the heap. -/
def ValidPtrs (h : Heap) : Prop :=
  ∀ c ∈ h, (∀ q ∈ c.options_.1, q < h.length) ∧ (∀ q ∈ c.options_.2, q < h.length)

/-- Every chapter has both choice slots terminal or both non-terminal. -/
def BothOrNone (h : Heap) : Prop :=
  ∀ c ∈ h, (c.options_.1 = none ↔ c.options_.2 = none)

/-- A well-formed chapter graph. -/
def WellFormed (h : Heap) : Prop := ValidPtrs h ∧ BothOrNone h

/-- Every tag is `UNVISITED`. -/
def AllUnvisited (h : Heap) : Prop := ∀ c ∈ h, c.graph_analyze_state_ = .UNVISITED

/-- The entry can be read and its value is a chapter of a heap of `n` chapters. -/
def entryOK (n : Nat) : Option MapEntry → Bool
  | some entry =>
    match entry.value_ with
    | some p => decide (p < n)
    | none => false
  | none => false

/-- The records the entries of the store point to. -/
def storedPtrs (map : Map) : List Nat :=
  map.entries.filterMap (fun e => e.bind (fun entry => entry.value_))

/-- The store is not empty and each of its entries holds a chapter of the heap. -/
def StoreOK (map : Map) (h : Heap) : Prop :=
  0 < map.count_ ∧ ∀ e ∈ map.entries, entryOK h.length e = true

/-- The chapters of the heap are exactly the records of the store. -/
def AllStored (map : Map) (h : Heap) : Prop :=
  ∀ p ∈ List.range h.length, p ∈ storedPtrs map

instance (h : Heap) : Decidable (ValidPtrs h) := by
  unfold ValidPtrs; infer_instance

instance (h : Heap) : Decidable (BothOrNone h) := by
  unfold BothOrNone; infer_instance

instance (h : Heap) : Decidable (WellFormed h) := by
  unfold WellFormed; infer_instance

instance (h : Heap) : Decidable (AllUnvisited h) := by
  unfold AllUnvisited; infer_instance

instance (map : Map) (h : Heap) : Decidable (StoreOK map h) := by
  unfold StoreOK; infer_instance

instance (map : Map) (h : Heap) : Decidable (AllStored map h) := by
  unfold AllStored; infer_instance

/-- The number of chapters tagged `UNVISITED`. -/
def unvisited (h : Heap) : Nat :=
  h.countP (fun c => decide (c.graph_analyze_state_ = .UNVISITED))

/-- Every chapter tagged `PROCESSING` has a first choice slot that is not terminal. -/
def ProcOK (h : Heap) : Prop :=
  ∀ p o, tag h p = some .PROCESSING → opts h p = some o → o.1 ≠ none

/-- The dedup invariant: two entries of the store hold the same record, or two records
for which `areEqual` is 0. -/
def Dedup (h : Heap) (map : Map) : Prop :=
  ∀ e1 ∈ map.entries, ∀ e2 ∈ map.entries, ∀ en1 en2, e1 = some en1 → e2 = some en2 →
    en1.value_ = en2.value_ ∨ areEqual h en1.value_ en2.value_ = .ok 0

/-- The records of the store have in `h2` the title and text they have in `h1`. -/
def TextStable (h1 h2 : Heap) (map : Map) : Prop :=
  ∀ p ∈ storedPtrs map, ∀ c, h1[p]? = some c →
    ∃ c2, h2[p]? = some c2 ∧ c2.title_ = c.title_ ∧ c2.text_ = c.text_

/-- The stores built from an empty store by successful calls of `insertChapterIntoMap`,
between which the heap may change in all but the title and text of the stored records. -/
inductive Built : Heap → Map → Prop
  | empty (h : Heap) (map : Map) : map.count_ = 0 → Built h map
  | heap (h1 h2 : Heap) (map : Map) : Built h1 map → TextStable h1 h2 map → Built h2 map
  | insert (alloc : Nat → Bool) (h : Heap) (map : Map) (filename : List Nat)
      (chapter : Option Nat) (error : Nat) (p : Nat) (map1 : Map) (error1 : Nat) :
      Built h map →
      insertChapterIntoMap alloc h map filename chapter error = .ok (some p, map1, error1) →
      Built h map1

/-- The entry can be read and its key is not `filename`. -/
def keyDiffers (filename : List Nat) : Option MapEntry → Bool
  | some entry => decide (strcmp entry.key_ filename ≠ 0)
  | none => false

/-- No entry of the store has the key `filename`. -/
def KeyAbsent (map : Map) (filename : List Nat) : Prop :=
  ∀ e ∈ map.entries, keyDiffers filename e = true

instance (map : Map) (filename : List Nat) : Decidable (KeyAbsent map filename) := by
  unfold KeyAbsent; infer_instance

/-- Two chapters are content-equal: their title-through-body spans have the same length
and the same bytes. -/
def ContentEqual (a b : Chapter) : Prop :=
  ∃ n, strlen a.title_ a.text_ = .ok n ∧ strlen b.title_ b.text_ = .ok n ∧
    a.text_ = b.text_ ∧ a.title_.take (a.text_ + n) = b.title_.take (b.text_ + n)

/-- Every chapter tagged `LEADS_TO_END` can reach a node with terminal choices. -/
def Sound (h : Heap) : Prop :=
  ∀ p, tag h p = some .LEADS_TO_END → CanEnd (opts h) p

/-- Every chapter tagged `LEADS_TO_END` has a terminal choice slot or a child tagged
`LEADS_TO_END`. -/
def Justified (h : Heap) : Prop :=
  ∀ p, tag h p = some .LEADS_TO_END →
    ∃ o, opts h p = some o ∧
      (o.1 = none ∨ o.2 = none ∨
        ∃ c, (o.1 = some c ∨ o.2 = some c) ∧ tag h c = some .LEADS_TO_END)

/-- The property `BothOrNone`, read off the graph. -/
def Paired (g : Graph) : Prop :=
  ∀ p o, g p = some o → (o.1 = none ↔ o.2 = none)

/-- Big-step description of a call `traverseGraph(p)`: one rule per path through
`traverseGraph`, `visitGraphChilds` and `visitRemainingChilds`. -/
inductive Trav : Heap → Nat → Heap → Prop
  | skip (h : Heap) (p : Nat) :
      (tag h p = some .LEADS_TO_END ∨ tag h p = some .DEAD_END) → Trav h p h
  | procEnd (h : Heap) (p : Nat) (o : Option Nat × Option Nat) :
      tag h p = some .PROCESSING → opts h p = some o → o.2 = none →
      Trav h p (setState h p .LEADS_TO_END)
  | procLeads (h : Heap) (p : Nat) (o : Option Nat × Option Nat) (child : Nat) :
      tag h p = some .PROCESSING → opts h p = some o → o.2 = some child →
      tag h child = some .LEADS_TO_END →
      Trav h p (setState h p .LEADS_TO_END)
  | procVisit (h : Heap) (p : Nat) (o : Option Nat × Option Nat) (child : Nat)
      (h1 : Heap) (s : GraphNodeStatus) :
      tag h p = some .PROCESSING → opts h p = some o → o.2 = some child →
      tag h child = some .UNVISITED → Trav h child h1 →
      evaluateGraphNode h1 p = .ok s →
      Trav h p (setState h1 p s)
  | procEval (h : Heap) (p : Nat) (o : Option Nat × Option Nat) (child : Nat)
      (t : GraphNodeStatus) (s : GraphNodeStatus) :
      tag h p = some .PROCESSING → opts h p = some o → o.2 = some child →
      tag h child = some t → t ≠ .LEADS_TO_END → t ≠ .UNVISITED →
      evaluateGraphNode h p = .ok s →
      Trav h p (setState h p s)
  | newEnd0 (h : Heap) (p : Nat) (o : Option Nat × Option Nat) :
      tag h p = some .UNVISITED → opts h p = some o → o.1 = none →
      Trav h p (setState (setState h p .PROCESSING) p .LEADS_TO_END)
  | newEnd1 (h : Heap) (p : Nat) (o : Option Nat × Option Nat) (child0 : Nat)
      (h1 : Heap) (o1 : Option Nat × Option Nat) :
      tag h p = some .UNVISITED → opts h p = some o → o.1 = some child0 →
      Trav (setState h p .PROCESSING) child0 h1 →
      opts h1 p = some o1 → o1.2 = none →
      Trav h p (setState h1 p .LEADS_TO_END)
  | newFull (h : Heap) (p : Nat) (o : Option Nat × Option Nat) (child0 : Nat)
      (h1 : Heap) (o1 : Option Nat × Option Nat) (child1 : Nat) (h2 : Heap)
      (s : GraphNodeStatus) :
      tag h p = some .UNVISITED → opts h p = some o → o.1 = some child0 →
      Trav (setState h p .PROCESSING) child0 h1 →
      opts h1 p = some o1 → o1.2 = some child1 →
      Trav h1 child1 h2 →
      evaluateGraphNode h2 p = .ok s →
      Trav h p (setState h2 p s)

/-! ## Validation of the choice lines -/

/-- The function `isOptionValid` on the content of the string: 1 if it is not empty. -/
def isOptionValid (option : List Nat) : Nat :=
  if option.length > 0 then 1 else 0

/-- The function `isEndOption` on the content of the string: 1 if it is `"-"`. -/
def isEndOption (option : List Nat) : Nat :=
  if option.length = 1 ∧ option[0]? = some 45 then 1 else 0

/-- The function `validateOptions` on the contents of the two strings: the error flag
afterwards.  The loop over the remaining options runs once, for option 1. -/
def validateOptions (options : List Nat × List Nat) (error : Nat) : Nat :=
  if error ≠ 0 then error
  else if isOptionValid options.1 = 0 then ERR_IO
  else if isOptionValid options.2 = 0 ∨ isEndOption options.2 ≠ isEndOption options.1 then
    ERR_IO
  else error

/-! ## Stores reached by successive inserts -/

/-- Successive calls of `insertChapterIntoMap` with error flag 0, one for each key and
candidate; a call that returns no record ends the run with `none`. -/
def insertAll (alloc : Nat → Bool) (h : Heap) :
    Map → List (List Nat × Option Nat) → Except Fault (Option Map)
  | map, [] => .ok (some map)
  | map, (filename, chapter) :: rest =>
    match insertChapterIntoMap alloc h map filename chapter 0 with
    | .error e => .error e
    | .ok (none, _, _) => .ok none
    | .ok (some _, map1, _) => insertAll alloc h map1 rest

/-- The map as `main` declares it before `initializeMap`. -/
def mainMap : Map :=
  { length_ := MAP_MALLOC_INTERVALL, count_ := 0, start_entry_ := none }

/-- A heap of `n` chapters with pairwise different titles, each with two terminal choice
lines and an empty body. -/
def distinctHeap (n : Nat) : Heap :=
  (List.range n).map (fun i => chapterOf [i + 1, 0, 45, 0, 45, 0, 0] 6)

/-- The keys `[1] .. [n]` with the chapters `0 .. n-1` as candidates. -/
def distinctItems (n : Nat) : List (List Nat × Option Nat) :=
  (List.range n).map (fun i => ([i + 1], some i))

/-- The stores reached from a store by a number of successful calls of
`insertChapterIntoMap`. -/
inductive Reached (h : Heap) (map0 : Map) : Nat → Map → Prop
  | start : Reached h map0 0 map0
  | insert (n : Nat) (alloc : Nat → Bool) (map : Map) (filename : List Nat)
      (chapter : Option Nat) (error : Nat) (p : Nat) (map1 : Map) (error1 : Nat) :
      Reached h map0 n map →
      insertChapterIntoMap alloc h map filename chapter error = .ok (some p, map1, error1) →
      Reached h map0 (n + 1) map1

/-- The entries with the keys `[1] .. [n]` and the records `0 .. n-1`. -/
def distinctEntries (n : Nat) : List (Option MapEntry) :=
  (List.range n).map (fun i => some ⟨[i + 1], some i⟩)

/-- A store with `length_` 64 whose block of `cells` cells starts with
`distinctEntries n`. -/
def distinctBlockStore (cells n : Nat) : Map :=
  { length_ := MAP_MALLOC_INTERVALL
    count_ := n
    start_entry_ := some (distinctEntries n ++ List.replicate (cells - n) none) }

/-- The store reached from `initializeMap` by inserting the first `n` chapters of
`distinctHeap` under the keys `[1] .. [n]`, for `n` up to 128: the block has 64 cells
until it is grown and 128 cells afterwards, and `length_` stays 64. -/
def distinctStore (n : Nat) : Map :=
  distinctBlockStore (if n ≤ 64 then 64 else 128) n

/-- The entry can be read and holds a record. -/
def holdsRecord : Option MapEntry → Bool
  | some entry => entry.value_.isSome
  | none => false

/-- Every entry of the store can be read and holds a record. -/
def EntriesOK (map : Map) : Prop :=
  ∀ e ∈ map.entries, holdsRecord e = true

instance (map : Map) : Decidable (EntriesOK map) := by
  unfold EntriesOK; infer_instance

/-! ## Release of the store -/

/-- The function `freeChapter`, with the release of a chapter modelled as appending its
pointer to a release log; a null pointer is not released. -/
def freeChapter (log : List Nat) (chapter : Option Nat) : List Nat :=
  match chapter with
  | none => log
  | some p => log ++ [p]

/-- The function `freeEntry`: the chapter of the entry is released. -/
def freeEntry (log : List Nat) (entry : MapEntry) : List Nat :=
  freeChapter log entry.value_

/-- The loop of `clearSameChapterPointer` over the entries after the comparison entry,
whose value is `value`: the entries as they are afterwards. -/
def clearSameChapterPointerLoop (value : Option Nat) :
    List (Option MapEntry) → Except Fault (List (Option MapEntry))
  | [] => .ok []
  | none :: _ => .error .uninitialised
  | some entry :: rest =>
    match clearSameChapterPointerLoop value rest with
    | .error e => .error e
    | .ok rest1 =>
      .ok (some (if entry.value_ = value then { entry with value_ := none } else entry)
        :: rest1)

/-- The loop of `freeMap` over the entries, of which there are at most `count`: the
release log afterwards. -/
def freeMapLoop : Nat → List (Option MapEntry) → List Nat → Except Fault (List Nat)
  | _, [], log => .ok log
  | 0, _ :: _, _ => .error .outOfFuel
  | _ + 1, none :: _, _ => .error .uninitialised
  | count + 1, some entry :: rest, log =>
    match clearSameChapterPointerLoop entry.value_ rest with
    | .error e => .error e
    | .ok rest1 => freeMapLoop count rest1 (freeEntry log entry)

/-- The function `freeMap`: the release log afterwards. -/
def freeMap (options_map : Map) (log : List Nat) : Except Fault (List Nat) :=
  match options_map.start_entry_ with
  | none => .ok log
  | some _ => freeMapLoop options_map.count_ options_map.entries log

/-- Every entry of the store can be read. -/
def Readable (map : Map) : Prop :=
  ∀ e ∈ map.entries, e.isSome = true

instance (map : Map) : Decidable (Readable map) := by
  unfold Readable; infer_instance

/-! ## The text of a chapter -/

/-- The function `strchr` on the bytes from a pointer at offset `off` to the end of its
block: the offset of the first byte `c` of the string, or null when the terminator
comes first.  A block without terminator is read past its end. -/
def strchrFrom (c : Nat) : List Nat → Nat → Except Fault (Option Nat)
  | [], _ => .error .outOfBlock
  | b :: rest, off =>
    if b = c then .ok (some off)
    else if b = 0 then .ok none
    else strchrFrom c rest (off + 1)

/-- The call `strchr(p + off, c)` for a pointer `p` to the bytes `mem`. -/
def strchr (mem : List Nat) (off : Nat) (c : Nat) : Except Fault (Option Nat) :=
  strchrFrom c (mem.drop off) off

/-- The function `findAndReplaceNewLine` on a block `mem` and a pointer `text` into it
(an offset, or null): the block, the pointer and the error flag afterwards.  The
incremented pointer is never null, so the last test of the function never fires. -/
def findAndReplaceNewLine (mem : List Nat) (text : Option Nat) (error : Nat) :
    Except Fault (List Nat × Option Nat × Nat) :=
  if error ≠ 0 then .ok (mem, text, error)
  else
    match text with
    | none => .error .nullDeref
    | some off =>
      match strchr mem off 10 with
      | .error e => .error e
      | .ok none => .ok (mem, none, ERR_IO)
      | .ok (some i) => .ok (mem.set i 0, some (i + 1), error)

/-- The function `getChapterPropertiesFromText` on the block `mem` of the raw chapter:
the block, `title`, `text`, the two `options` and the error flag afterwards.  The loop
over the two options is unrolled. -/
def getChapterPropertiesFromText (mem : List Nat) (raw_chapter : Option Nat)
    (title text : Option Nat) (options : Option Nat × Option Nat) (error : Nat) :
    Except Fault (List Nat × Option Nat × Option Nat × (Option Nat × Option Nat) × Nat) :=
  if error ≠ 0 then .ok (mem, title, text, options, error)
  else
    match findAndReplaceNewLine mem raw_chapter error with
    | .error e => .error e
    | .ok (mem1, next1, error1) =>
      if error1 ≠ 0 then .ok (mem1, raw_chapter, next1, options, error1)
      else
        match findAndReplaceNewLine mem1 next1 error1 with
        | .error e => .error e
        | .ok (mem2, next2, error2) =>
          if error2 ≠ 0 then .ok (mem2, raw_chapter, next2, (next1, options.2), error2)
          else
            match findAndReplaceNewLine mem2 next2 error2 with
            | .error e => .error e
            | .ok (mem3, next3, error3) =>
              .ok (mem3, raw_chapter, next3, (next1, next2), error3)

/-- The title-through-body span of a chapter: the bytes from `title_` to the end of the
string at `text_`, terminator excluded. -/
def span (c : Chapter) : Except Fault (List Nat) :=
  match strlen c.title_ c.text_ with
  | .error e => .error e
  | .ok n => .ok (c.title_.take (c.text_ + n))

/-- An allocator that refuses every request. -/
def allocNever : Nat → Bool := fun _ => false

/-- A store with one entry in a block of one cell, recorded as full. -/
def fullStore : Map :=
  { length_ := 1, count_ := 1, start_entry_ := some [some ⟨[1], some 0⟩] }

/-! ## The trace of a traversal -/

/-- What a run of the traversal does with the tags: an assignment
`p->graph_analyze_state_ = s` or a call `evaluateGraphNode(p)`. -/
inductive Event
  | assign (p : Nat) (s : GraphNodeStatus)
  | evaluate (p : Nat)
  deriving DecidableEq, Repr

/-- The function `visitGraphChilds` as above, returning with the heap the events of the
call in order. -/
def visitGraphChildsLog (trav : Heap → Nat → Except Fault (Heap × List Event)) (h : Heap)
    (root : Nat) : Except Fault (Heap × List Event) :=
  match h[root]? with
  | none => .error .badPointer
  | some r =>
    match r.options_.1 with
    | none => .ok (setState h root .LEADS_TO_END, [.assign root .LEADS_TO_END])
    | some child0 =>
      match trav h child0 with
      | .error e => .error e
      | .ok (h1, tr0) =>
        match h1[root]? with
        | none => .error .badPointer
        | some r1 =>
          match r1.options_.2 with
          | none =>
            .ok (setState h1 root .LEADS_TO_END, tr0 ++ [.assign root .LEADS_TO_END])
          | some child1 =>
            match trav h1 child1 with
            | .error e => .error e
            | .ok (h2, tr1) =>
              match evaluateGraphNode h2 root with
              | .error e => .error e
              | .ok s =>
                .ok (setState h2 root s, tr0 ++ (tr1 ++ [.evaluate root, .assign root s]))

/-- The function `visitRemainingChilds` as above, returning with the heap the events of
the call in order. -/
def visitRemainingChildsLog (trav : Heap → Nat → Except Fault (Heap × List Event))
    (h : Heap) (root : Nat) : Except Fault (Heap × List Event) :=
  match h[root]? with
  | none => .error .badPointer
  | some r =>
    match r.options_.2 with
    | none => .ok (setState h root .LEADS_TO_END, [.assign root .LEADS_TO_END])
    | some child =>
      match h[child]? with
      | none => .error .badPointer
      | some c =>
        if c.graph_analyze_state_ = .LEADS_TO_END then
          .ok (setState h root .LEADS_TO_END, [.assign root .LEADS_TO_END])
        else
          match (if c.graph_analyze_state_ = .UNVISITED then trav h child
            else .ok (h, [])) with
          | .error e => .error e
          | .ok (h1, tr) =>
            match evaluateGraphNode h1 root with
            | .error e => .error e
            | .ok s => .ok (setState h1 root s, tr ++ [.evaluate root, .assign root s])

/-- The function `traverseGraph` as above, returning with the heap the events of the
call in order. -/
def traverseGraphLog : Nat → Heap → Nat → Except Fault (Heap × List Event)
  | 0, _, _ => .error .outOfFuel
  | fuel + 1, h, root =>
    match h[root]? with
    | none => .error .badPointer
    | some r =>
      match r.graph_analyze_state_ with
      | .LEADS_TO_END => .ok (h, [])
      | .DEAD_END => .ok (h, [])
      | .PROCESSING => visitRemainingChildsLog (traverseGraphLog fuel) h root
      | .UNVISITED =>
        match visitGraphChildsLog (traverseGraphLog fuel) (setState h root .PROCESSING)
            root with
        | .error e => .error e
        | .ok (h1, tr) => .ok (h1, .assign root .PROCESSING :: tr)

/-- The heap after an event. -/
def Event.effect (h : Heap) : Event → Heap
  | .assign p s => setState h p s
  | .evaluate _ => h

/-- The heap after the events of a list, in order. -/
def run (h : Heap) (tr : List Event) : Heap := tr.foldl Event.effect h

/-- The changes of a tag that the events of a list make from the heap `h` on: for each
assignment that gives a chapter another tag than it has, the chapter, the tag before
and the tag after. -/
def changes : Heap → List Event → List (Nat × GraphNodeStatus × GraphNodeStatus)
  | _, [] => []
  | h, .evaluate _ :: rest => changes h rest
  | h, .assign p s :: rest =>
    match tag h p with
    | some t =>
      if t = s then changes (setState h p s) rest
      else (p, t, s) :: changes (setState h p s) rest
    | none => changes (setState h p s) rest

/-- The four changes of a tag: `UNVISITED` to `PROCESSING`, `PROCESSING` to `DEAD_END`,
`PROCESSING` to `LEADS_TO_END`, `DEAD_END` to `LEADS_TO_END`. -/
def Change (before after : GraphNodeStatus) : Prop :=
  (before = .UNVISITED ∧ after = .PROCESSING) ∨
  (before = .PROCESSING ∧ after = .DEAD_END) ∨
  (before = .PROCESSING ∧ after = .LEADS_TO_END) ∨
  (before = .DEAD_END ∧ after = .LEADS_TO_END)

instance (before after : GraphNodeStatus) : Decidable (Change before after) := by
  unfold Change; infer_instance

/-- Big-step description of a call `traverseGraph(p)` with its events: the rules of
`Trav`, each with the events of its path. -/
inductive TravT : Heap → Nat → List Event → Heap → Prop
  | skip (h : Heap) (p : Nat) :
      (tag h p = some .LEADS_TO_END ∨ tag h p = some .DEAD_END) → TravT h p [] h
  | procEnd (h : Heap) (p : Nat) (o : Option Nat × Option Nat) :
      tag h p = some .PROCESSING → opts h p = some o → o.2 = none →
      TravT h p [.assign p .LEADS_TO_END] (setState h p .LEADS_TO_END)
  | procLeads (h : Heap) (p : Nat) (o : Option Nat × Option Nat) (child : Nat) :
      tag h p = some .PROCESSING → opts h p = some o → o.2 = some child →
      tag h child = some .LEADS_TO_END →
      TravT h p [.assign p .LEADS_TO_END] (setState h p .LEADS_TO_END)
  | procVisit (h : Heap) (p : Nat) (o : Option Nat × Option Nat) (child : Nat)
      (tr : List Event) (h1 : Heap) (s : GraphNodeStatus) :
      tag h p = some .PROCESSING → opts h p = some o → o.2 = some child →
      tag h child = some .UNVISITED → TravT h child tr h1 →
      evaluateGraphNode h1 p = .ok s →
      TravT h p (tr ++ [.evaluate p, .assign p s]) (setState h1 p s)
  | procEval (h : Heap) (p : Nat) (o : Option Nat × Option Nat) (child : Nat)
      (t : GraphNodeStatus) (s : GraphNodeStatus) :
      tag h p = some .PROCESSING → opts h p = some o → o.2 = some child →
      tag h child = some t → t ≠ .LEADS_TO_END → t ≠ .UNVISITED →
      evaluateGraphNode h p = .ok s →
      TravT h p [.evaluate p, .assign p s] (setState h p s)
  | newEnd0 (h : Heap) (p : Nat) (o : Option Nat × Option Nat) :
      tag h p = some .UNVISITED → opts h p = some o → o.1 = none →
      TravT h p [.assign p .PROCESSING, .assign p .LEADS_TO_END]
        (setState (setState h p .PROCESSING) p .LEADS_TO_END)
  | newEnd1 (h : Heap) (p : Nat) (o : Option Nat × Option Nat) (child0 : Nat)
      (tr0 : List Event) (h1 : Heap) (o1 : Option Nat × Option Nat) :
      tag h p = some .UNVISITED → opts h p = some o → o.1 = some child0 →
      TravT (setState h p .PROCESSING) child0 tr0 h1 →
      opts h1 p = some o1 → o1.2 = none →
      TravT h p (.assign p .PROCESSING :: (tr0 ++ [.assign p .LEADS_TO_END]))
        (setState h1 p .LEADS_TO_END)
  | newFull (h : Heap) (p : Nat) (o : Option Nat × Option Nat) (child0 : Nat)
      (tr0 : List Event) (h1 : Heap) (o1 : Option Nat × Option Nat) (child1 : Nat)
      (tr1 : List Event) (h2 : Heap) (s : GraphNodeStatus) :
      tag h p = some .UNVISITED → opts h p = some o → o.1 = some child0 →
      TravT (setState h p .PROCESSING) child0 tr0 h1 →
      opts h1 p = some o1 → o1.2 = some child1 →
      TravT h1 child1 tr1 h2 →
      evaluateGraphNode h2 p = .ok s →
      TravT h p (.assign p .PROCESSING :: (tr0 ++ (tr1 ++ [.evaluate p, .assign p s])))
        (setState h2 p s)

/-! ## Two graphs that differ in the order of one pair of choices -/

/-- The graph `A = (B, Y)`, `B = (X, T)`, `X = (A, A)`, `Y = (B, B)`, `T` terminal, with
the chapters in the order `A`, `B`, `X`, `Y`, `T`. -/
def orderGraph : Heap :=
  [node (some 1, some 3), node (some 2, some 4), node (some 0, some 0),
    node (some 1, some 1), node (none, none)]

/-- The graph `orderGraph` with the two choices of `A` swapped: `A = (Y, B)`. -/
def swappedGraph : Heap :=
  [node (some 3, some 1), node (some 2, some 4), node (some 0, some 0),
    node (some 1, some 1), node (none, none)]

/-! ## Strings in a block -/

/-- The content of the string that a `char *` into the block `mem` points to: the bytes
from the pointer to the first terminator. -/
def stringAt (mem : List Nat) (p : Option Nat) : Except Fault (List Nat) :=
  match p with
  | none => .error .nullDeref
  | some off =>
    match strlen mem off with
    | .error e => .error e
    | .ok n => .ok ((mem.drop off).take n)

/-! ## The choice of the player -/

/-- The value `EOF` of `stdio.h`. -/
def EOF : Int := -1

def S_INVALID : Int := -3

def S_BEGIN : Int := -2

def S_CHOICE_A : Int := 0

def S_CHOICE_B : Int := 1

/-- The loop of `getChoice` on the input: the values that the successive calls of
`getchar` return; at the end of the list `getchar` returns `EOF`.  The result is the
returned value and the input that is left. -/
def getChoiceLoop (state : Int) : List Int → Int × List Int
  | [] => (EOF, [])
  | input_character :: rest =>
    if input_character < 0 then (EOF, rest)
    else if input_character = 10 then (state, rest)
    else if state = S_BEGIN then
      getChoiceLoop
        (if input_character = 65 then S_CHOICE_A
          else if input_character = 66 then S_CHOICE_B
          else S_INVALID) rest
    else getChoiceLoop S_INVALID rest

/-- The function `getChoice`. -/
def getChoice (input : List Int) : Int × List Int := getChoiceLoop S_BEGIN input

/-! ## Loading the chapters -/

/-- What the environment answers when `loadChapterText` opens and reads a file: the
content of the file, a failure of `fopen` or `fread`, or a failure of `malloc` or
`realloc`. -/
inductive FileAnswer
  | content (bytes : List Nat)
  | ioError
  | outOfMemory
  deriving DecidableEq, Repr

/-- The environment of a load: the answer for each file name, whether `malloc` grants
the chapter that is requested when `n` chapters were allocated before, whether a
request for `n` cells of the store is granted, and the content of a chapter as
`malloc` returns it. -/
structure Environment where
  files : List Nat → FileAnswer
  allocChapter : Nat → Bool
  alloc : Nat → Bool
  fresh : Chapter

/-- The state of a load: the chapters, the store, the error flag, the file names that
`loadChapterText` was called for with the error flag 0, in order, and the released
chapters. -/
structure Load where
  heap : Heap
  map : Map
  error : Nat
  loaded : List (List Nat)
  released : List Nat
  deriving DecidableEq, Repr

/-- The function `loadChapterText`, with its calls of `fopen`, `malloc`, `fread` and
`realloc` taken as one answer of the environment: the block with the content of the
file and a terminator, and the error flag.  After a failure the pointer is null or
dangling and modelled as null; it is not read again. -/
def loadChapterText (files : List Nat → FileAnswer) (filename : List Nat)
    (text : Option (List Nat)) (error : Nat) : Option (List Nat) × Nat :=
  if error ≠ 0 then (text, error)
  else
    match files filename with
    | .content bytes => (some (bytes ++ [0]), error)
    | .ioError => (none, ERR_IO)
    | .outOfMemory => (none, ERR_OUT_OF_MEMORY)

/-- The function `createChapter`: the heap, the pointer and the error flag.  A granted
chapter is a new last element of the heap. -/
def createChapter (allocChapter : Nat → Bool) (fresh : Chapter) (h : Heap)
    (chapter : Option Nat) (error : Nat) : Heap × Option Nat × Nat :=
  if error ≠ 0 then (h, chapter, error)
  else if allocChapter h.length then (h ++ [fresh], some h.length, error)
  else (h, none, ERR_OUT_OF_MEMORY)

/-- The call of `getChapterPropertiesFromText` in `loadChapterFromFile`, for a pointer
`raw_chapter` that is null or points to the start of a block. -/
def parseRawChapter (raw_chapter : Option (List Nat)) (error : Nat) :
    Except Fault (Option (List Nat) × Option Nat × Option Nat ×
      (Option Nat × Option Nat) × Nat) :=
  match raw_chapter with
  | none =>
    if error ≠ 0 then .ok (none, none, none, (none, none), error) else .error .nullDeref
  | some mem =>
    match getChapterPropertiesFromText mem (some 0) none none (none, none) error with
    | .error e => .error e
    | .ok (mem1, title, text, option_files, error1) =>
      .ok (some mem1, title, text, option_files, error1)

/-- The assignments `(*chapter)->title_ = title` and `(*chapter)->text_ = text` under
`if (*chapter)`.  A null `title` or `text` is stored as the empty block and the offset
0. -/
def assignText (h : Heap) (chapter : Option Nat) (mem : Option (List Nat))
    (title text : Option Nat) : Except Fault Heap :=
  match chapter with
  | none => .ok h
  | some p =>
    match h[p]? with
    | none => .error .badPointer
    | some c =>
      .ok (h.set p { c with
        title_ :=
          match mem, title with
          | some m, some off => m.drop off
          | _, _ => []
        text_ :=
          match title, text with
          | some a, some b => b - a
          | _, _ => 0 })

/-- The call of `validateOptions` in `loadChapterFromFile`: the strings are read in the
block only when the function reads them. -/
def validateOptionsAt (mem : Option (List Nat)) (option_files : Option Nat × Option Nat)
    (error : Nat) : Except Fault Nat :=
  if error ≠ 0 then .ok error
  else
    match mem with
    | none => .error .nullDeref
    | some m =>
      match stringAt m option_files.1 with
      | .error e => .error e
      | .ok option0 =>
        if isOptionValid option0 = 0 then .ok ERR_IO
        else
          match stringAt m option_files.2 with
          | .error e => .error e
          | .ok option1 => .ok (validateOptions (option0, option1) error)

/-- The part of `loadChapterFromFile` from `loadChapterText` to `validateOptions`: the
heap, the new chapter, the block of the raw text, the two choice strings and the error
flag. -/
def readChapter (env : Environment) (h : Heap) (filename : List Nat)
    (chapter : Option Nat) (error : Nat) :
    Except Fault (Heap × Option Nat × Option (List Nat) × (Option Nat × Option Nat) × Nat) :=
  match loadChapterText env.files filename none error with
  | (raw_chapter, error1) =>
    match createChapter env.allocChapter env.fresh h chapter error1 with
    | (h1, chapter1, error2) =>
      match parseRawChapter raw_chapter error2 with
      | .error e => .error e
      | .ok (mem, title, text, option_files, error3) =>
        match assignText h1 chapter1 mem title text with
        | .error e => .error e
        | .ok h2 =>
          match validateOptionsAt mem option_files error3 with
          | .error e => .error e
          | .ok error4 => .ok (h2, chapter1, mem, option_files, error4)

/-- The assignment `chapter->options_[option_index] = value`. -/
def setOption (h : Heap) (chapter : Option Nat) (option_index : Nat) (value : Option Nat) :
    Except Fault Heap :=
  match chapter with
  | none => .error .nullDeref
  | some p =>
    match h[p]? with
    | none => .error .badPointer
    | some c =>
      .ok (h.set p { c with
        options_ :=
          if option_index = 0 then (value, c.options_.2) else (c.options_.1, value) })

/-- One round of the loop of `loadAndAssignOptions`, with the recursive call
`loadChapterFromFile` passed as `load`. -/
def loadAndAssignOption (load : Load → List Nat → Option Nat → Except Fault (Load × Option Nat))
    (st : Load) (chapter : Option Nat) (mem : Option (List Nat)) (option_file : Option Nat)
    (option_index : Nat) : Except Fault Load :=
  if st.error ≠ 0 then .ok st
  else
    match mem with
    | none => .error .nullDeref
    | some m =>
      match stringAt m option_file with
      | .error e => .error e
      | .ok name =>
        if isEndOption name ≠ 0 then
          match setOption st.heap chapter option_index none with
          | .error e => .error e
          | .ok h1 => .ok { st with heap := h1 }
        else
          match getChapterFromMap st.map name with
          | .error e => .error e
          | .ok (some subchapter) =>
            match setOption st.heap chapter option_index (some subchapter) with
            | .error e => .error e
            | .ok h1 => .ok { st with heap := h1 }
          | .ok none =>
            match load st name none with
            | .error e => .error e
            | .ok (st1, subchapter) =>
              match setOption st1.heap chapter option_index subchapter with
              | .error e => .error e
              | .ok h1 => .ok { st1 with heap := h1 }

/-- The function `loadAndAssignOptions`: the loop runs for the two choices. -/
def loadAndAssignOptions
    (load : Load → List Nat → Option Nat → Except Fault (Load × Option Nat))
    (st : Load) (chapter : Option Nat) (mem : Option (List Nat))
    (option_files : Option Nat × Option Nat) : Except Fault Load :=
  match loadAndAssignOption load st chapter mem option_files.1 0 with
  | .error e => .error e
  | .ok st1 => loadAndAssignOption load st1 chapter mem option_files.2 1

/-- The function `loadChapterFromFile`: the state and `*chapter` afterwards; `fuel`
bounds the depth of nested calls.  The file name is `argv[1]` or a pointer into the
block of the chapter that names it, never the start of an allocated block, so
`free(filename)` in the branch for `ERR_IO` is a fault. -/
def loadChapterFromFile (env : Environment) :
    Nat → Load → List Nat → Option Nat → Except Fault (Load × Option Nat)
  | 0, _, _, _ => .error .outOfFuel
  | fuel + 1, st, filename, chapter =>
    if st.error ≠ 0 then .ok (st, chapter)
    else
      match readChapter env st.heap filename chapter st.error with
      | .error e => .error e
      | .ok (h1, chapter1, mem, option_files, error1) =>
        if error1 = ERR_IO then .error .badPointer
        else
          match insertChapterIntoMap env.alloc h1 st.map filename chapter1 error1 with
          | .error e => .error e
          | .ok (chapter_in_map, map1, error2) =>
            if chapter_in_map ≠ chapter1 then
              .ok ({ heap := h1, map := map1, error := error2,
                     loaded := st.loaded ++ [filename],
                     released := freeChapter st.released chapter1 }, chapter_in_map)
            else
              match loadAndAssignOptions (loadChapterFromFile env fuel)
                  { heap := h1, map := map1, error := error2,
                    loaded := st.loaded ++ [filename], released := st.released }
                  chapter1 mem option_files with
              | .error e => .error e
              | .ok st1 => .ok (st1, chapter1)

/-- The function `initializeWithFile`: the state and the start chapter. -/
def initializeWithFile (env : Environment) (fuel : Nat) (h : Heap) (filename : List Nat)
    (options_map : Map) (start_chapter : Option Nat) (error : Nat) :
    Except Fault (Load × Option Nat) :=
  match initializeMap env.alloc options_map error with
  | .error e => .error e
  | .ok (map1, error1) =>
    loadChapterFromFile env fuel
      { heap := h, map := map1, error := error1, loaded := [], released := [] }
      filename start_chapter

/-- An environment with the story `a`: `"T\nb\nc\nx"`, `b`: `"U\na\nc\ny"`,
`c`: `"V\n-\n-\nz"`, and the files `d`: `"W\n-"`, `e`: `"W\n\n-\nz"`,
`f`: `"W\na\n-\nz"` with invalid content, in which every request for memory is
granted. -/
def storyEnvironment : Environment :=
  { files := fun name =>
      if name = [97] then .content [84, 10, 98, 10, 99, 10, 120]
      else if name = [98] then .content [85, 10, 97, 10, 99, 10, 121]
      else if name = [99] then .content [86, 10, 45, 10, 45, 10, 122]
      else if name = [100] then .content [87, 10, 45]
      else if name = [101] then .content [87, 10, 10, 45, 10, 122]
      else if name = [102] then .content [87, 10, 97, 10, 45, 10, 122]
      else .ioError
    allocChapter := fun _ => true
    alloc := fun _ => true
    fresh := node (none, none) }

/-- No file name was logged twice, every entry of the store holds a record, and while
the error flag is 0 each logged file name is a key of the store. -/
def LoadedOnce (st : Load) : Prop :=
  st.loaded.Nodup ∧ EntriesOK st.map ∧
    (st.error = 0 → ∀ name ∈ st.loaded, ∃ p, getChapterFromMap st.map name = .ok (some p))

/-- The assignment of `value` to the choice slot `option_index` of `chapter` in the
state of a load. -/
def assignOption (st : Load) (chapter : Option Nat) (option_index : Nat)
    (value : Option Nat) : Except Fault Load :=
  match setOption st.heap chapter option_index value with
  | .error e => .error e
  | .ok h1 => .ok { st with heap := h1 }

/-- The state in which `main` starts the load: no chapter, the store of
`initializeMap`, the error flag 0. -/
def startLoad : Load :=
  { heap := [], map := storeOf 0, error := 0, loaded := [], released := [] }

/-- An environment with the story `a`: `"T\nb\nb\nx"` whose chapter `b`: `"U\n-"` has
invalid content, in which every request for memory is granted. -/
def invalidChildEnvironment : Environment :=
  { files := fun name =>
      if name = [97] then .content [84, 10, 98, 10, 98, 10, 120]
      else if name = [98] then .content [85, 10, 45]
      else .ioError
    allocChapter := fun _ => true
    alloc := fun _ => true
    fresh := node (none, none) }

/-! # Theorems -/

/-! ## Heap access lemmas -/

theorem length_setState (h : Heap) (p : Nat) (s : GraphNodeStatus) :
    (setState h p s).length = h.length := by
  unfold setState
  split <;> simp

theorem getElem?_setState (h : Heap) (p q : Nat) (s : GraphNodeStatus) :
    (setState h p s)[q]? =
      if q = p then (h[p]?).map (fun c => { c with graph_analyze_state_ := s }) else h[q]? := by
  unfold setState
  cases hp : h[p]? with
  | none =>
    by_cases hq : q = p
    · subst hq; simp [hp]
    · simp [hq]
  | some c =>
    have hlt : p < h.length := by
      rcases List.getElem?_eq_some.mp hp with ⟨hl, _⟩
      exact hl
    by_cases hq : q = p
    · subst hq; simp [List.getElem?_set, hlt]
    · have hq2 : ¬ p = q := fun e => hq e.symm
      simp [List.getElem?_set, hq, hq2]

theorem opts_setState (h : Heap) (p : Nat) (s : GraphNodeStatus) :
    opts (setState h p s) = opts h := by
  funext q
  unfold opts
  rw [getElem?_setState]
  by_cases hq : q = p
  · subst hq
    cases h[q]? <;> simp
  · simp [hq]

theorem tag_setState (h : Heap) (p q : Nat) (s : GraphNodeStatus) :
    tag (setState h p s) q = if q = p then (tag h p).map (fun _ => s) else tag h q := by
  unfold tag
  rw [getElem?_setState]
  by_cases hq : q = p
  · subst hq
    cases h[q]? <;> simp
  · simp [hq]

theorem tag_setState_self (h : Heap) (p : Nat) (s t : GraphNodeStatus)
    (hp : tag h p = some t) : tag (setState h p s) p = some s := by
  rw [tag_setState]; simp [hp]

theorem tag_setState_ne (h : Heap) (p q : Nat) (s : GraphNodeStatus) (hq : q ≠ p) :
    tag (setState h p s) q = tag h q := by
  rw [tag_setState]; simp [hq]

theorem shape_setState (h : Heap) (p : Nat) (s : GraphNodeStatus) :
    shape (setState h p s) = shape h := by
  apply List.ext_getElem?
  intro q
  unfold shape
  rw [List.getElem?_map, List.getElem?_map, getElem?_setState]
  by_cases hq : q = p
  · subst hq
    cases h[q]? <;> simp
  · simp [hq]

theorem opts_eq_of_shape {h h' : Heap} (e : shape h' = shape h) : opts h' = opts h := by
  funext q
  have := congrArg (fun l : Heap => (l[q]?).map (fun c => c.options_)) e
  simp only [shape, List.getElem?_map, Option.map_map] at this
  unfold opts
  simpa [Function.comp] using this

theorem length_eq_of_shape {h h' : Heap} (e : shape h' = shape h) : h'.length = h.length := by
  have := congrArg List.length e
  simpa [shape] using this

theorem tag_isSome_iff (h : Heap) (p : Nat) : (∃ t, tag h p = some t) ↔ p < h.length := by
  unfold tag
  constructor
  · rintro ⟨t, ht⟩
    cases hp : h[p]? with
    | none => simp [hp] at ht
    | some c =>
      rcases List.getElem?_eq_some.mp hp with ⟨hl, _⟩
      exact hl
  · intro hl
    exact ⟨h[p].graph_analyze_state_, by simp [List.getElem?_eq_getElem hl]⟩

theorem opts_isSome_iff (h : Heap) (p : Nat) : (∃ o, opts h p = some o) ↔ p < h.length := by
  unfold opts
  constructor
  · rintro ⟨t, ht⟩
    cases hp : h[p]? with
    | none => simp [hp] at ht
    | some c =>
      rcases List.getElem?_eq_some.mp hp with ⟨hl, _⟩
      exact hl
  · intro hl
    exact ⟨h[p].options_, by simp [List.getElem?_eq_getElem hl]⟩

/-- What a successful `evaluateGraphNode` has read. -/
theorem evaluateGraphNode_ok {h : Heap} {p : Nat} {s : GraphNodeStatus}
    (he : evaluateGraphNode h p = .ok s) :
    ∃ o c0 t0, opts h p = some o ∧ o.1 = some c0 ∧ tag h c0 = some t0 ∧
      ((t0 = .LEADS_TO_END ∧ s = .LEADS_TO_END) ∨
        (t0 ≠ .LEADS_TO_END ∧ ∃ c1 t1, o.2 = some c1 ∧ tag h c1 = some t1 ∧
          ((t1 = .LEADS_TO_END ∧ s = .LEADS_TO_END) ∨
            (t1 ≠ .LEADS_TO_END ∧ s = .DEAD_END)))) := by
  unfold evaluateGraphNode at he
  cases hp : h[p]? with
  | none => simp [hp] at he
  | some r =>
    simp only [hp] at he
    cases h1 : r.options_.1 with
    | none => simp [h1] at he
    | some c0 =>
      simp only [h1] at he
      cases hc0 : h[c0]? with
      | none => simp [hc0] at he
      | some x0 =>
        simp only [hc0] at he
        refine ⟨r.options_, c0, x0.graph_analyze_state_, by simp [opts, hp], h1,
          by simp [tag, hc0], ?_⟩
        by_cases hx0 : x0.graph_analyze_state_ = .LEADS_TO_END
        · simp only [hx0, if_true] at he
          left
          refine ⟨hx0, ?_⟩
          cases he; rfl
        · simp only [hx0, if_false] at he
          right
          refine ⟨hx0, ?_⟩
          cases h2 : r.options_.2 with
          | none => simp [h2] at he
          | some c1 =>
            simp only [h2] at he
            cases hc1 : h[c1]? with
            | none => simp [hc1] at he
            | some x1 =>
              simp only [hc1] at he
              refine ⟨c1, x1.graph_analyze_state_, rfl, by simp [tag, hc1], ?_⟩
              by_cases hx1 : x1.graph_analyze_state_ = .LEADS_TO_END
              · simp only [hx1, if_true] at he
                left
                refine ⟨hx1, ?_⟩
                cases he; rfl
              · simp only [hx1, if_false] at he
                right
                refine ⟨hx1, ?_⟩
                cases he; rfl

/-- When `evaluateGraphNode` succeeds. -/
theorem evaluateGraphNode_eq {h : Heap} {p : Nat} {o : Option Nat × Option Nat}
    {c0 c1 : Nat} {t0 t1 : GraphNodeStatus}
    (ho : opts h p = some o) (h0 : o.1 = some c0) (h1 : o.2 = some c1)
    (ht0 : tag h c0 = some t0) (ht1 : tag h c1 = some t1) :
    evaluateGraphNode h p =
      .ok (if t0 = .LEADS_TO_END ∨ t1 = .LEADS_TO_END then .LEADS_TO_END else .DEAD_END) := by
  unfold opts at ho
  unfold tag at ht0 ht1
  cases hp : h[p]? with
  | none => simp [hp] at ho
  | some r =>
    cases hc0 : h[c0]? with
    | none => simp [hc0] at ht0
    | some x0 =>
      cases hc1 : h[c1]? with
      | none => simp [hc1] at ht1
      | some x1 =>
        simp only [hp, Option.map_some', Option.some.injEq] at ho
        simp only [hc0, Option.map_some', Option.some.injEq] at ht0
        simp only [hc1, Option.map_some', Option.some.injEq] at ht1
        subst ho
        unfold evaluateGraphNode
        simp only [hp, h0, h1, hc0, hc1, ht0, ht1]
        by_cases a : t0 = .LEADS_TO_END
        · simp [a]
        · by_cases b : t1 = .LEADS_TO_END
          · simp [a, b]
          · simp [a, b]

/-! ## From the functions to the big-step rules -/

theorem visitRemainingChilds_Trav (trav : Heap → Nat → Except Fault Heap)
    (htrav : ∀ h p h', trav h p = .ok h' → Trav h p h')
    (h : Heap) (p : Nat) (h' : Heap) (hP : tag h p = some .PROCESSING)
    (he : visitRemainingChilds trav h p = .ok h') : Trav h p h' := by
  unfold visitRemainingChilds at he
  cases hp : h[p]? with
  | none => simp [hp] at he
  | some r =>
    simp only [hp] at he
    have ho : opts h p = some r.options_ := by simp [opts, hp]
    cases h2 : r.options_.2 with
    | none =>
      simp only [h2] at he
      cases he
      exact Trav.procEnd h p r.options_ hP ho h2
    | some child =>
      simp only [h2] at he
      cases hc : h[child]? with
      | none => simp [hc] at he
      | some c =>
        simp only [hc] at he
        have htc : tag h child = some c.graph_analyze_state_ := by simp [tag, hc]
        by_cases hL : c.graph_analyze_state_ = .LEADS_TO_END
        · simp only [hL, if_true] at he
          cases he
          exact Trav.procLeads h p r.options_ child hP ho h2 (by rw [htc, hL])
        · simp only [hL, if_false] at he
          by_cases hU : c.graph_analyze_state_ = .UNVISITED
          · simp only [hU, if_true] at he
            cases ht : trav h child with
            | error e => simp [ht] at he
            | ok h1 =>
              simp only [ht] at he
              cases hev : evaluateGraphNode h1 p with
              | error e => simp [hev] at he
              | ok s =>
                simp only [hev] at he
                cases he
                exact Trav.procVisit h p r.options_ child h1 s hP ho h2 (by rw [htc, hU])
                  (htrav _ _ _ ht) hev
          · simp only [hU, if_false] at he
            cases hev : evaluateGraphNode h p with
            | error e => simp [hev] at he
            | ok s =>
              simp only [hev] at he
              cases he
              exact Trav.procEval h p r.options_ child c.graph_analyze_state_ s hP ho h2 htc
                hL hU hev

theorem visitGraphChilds_Trav (trav : Heap → Nat → Except Fault Heap)
    (htrav : ∀ h p h', trav h p = .ok h' → Trav h p h')
    (h : Heap) (p : Nat) (h' : Heap) (hU : tag h p = some .UNVISITED)
    (he : visitGraphChilds trav (setState h p .PROCESSING) p = .ok h') : Trav h p h' := by
  unfold visitGraphChilds at he
  obtain ⟨o, ho⟩ : ∃ o, opts h p = some o :=
    (opts_isSome_iff h p).mpr ((tag_isSome_iff h p).mp ⟨_, hU⟩)
  have ho0 : opts (setState h p .PROCESSING) p = some o := by rw [opts_setState]; exact ho
  cases hp : (setState h p .PROCESSING)[p]? with
  | none => simp [opts, hp] at ho0
  | some r =>
    simp only [hp] at he
    have hr : r.options_ = o := by simpa [opts, hp] using ho0
    cases h1 : r.options_.1 with
    | none =>
      simp only [h1] at he
      cases he
      exact Trav.newEnd0 h p o hU ho (by rw [← hr]; exact h1)
    | some child0 =>
      simp only [h1] at he
      cases ht : trav (setState h p .PROCESSING) child0 with
      | error e => simp [ht] at he
      | ok h1' =>
        simp only [ht] at he
        cases hp1 : h1'[p]? with
        | none => simp [hp1] at he
        | some r1 =>
          simp only [hp1] at he
          have ho1 : opts h1' p = some r1.options_ := by simp [opts, hp1]
          cases h2 : r1.options_.2 with
          | none =>
            simp only [h2] at he
            cases he
            exact Trav.newEnd1 h p o child0 h1' r1.options_ hU ho (by rw [← hr]; exact h1)
              (htrav _ _ _ ht) ho1 h2
          | some child1 =>
            simp only [h2] at he
            cases ht2 : trav h1' child1 with
            | error e => simp [ht2] at he
            | ok h2' =>
              simp only [ht2] at he
              cases hev : evaluateGraphNode h2' p with
              | error e => simp [hev] at he
              | ok s =>
                simp only [hev] at he
                cases he
                exact Trav.newFull h p o child0 h1' r1.options_ child1 h2' s hU ho
                  (by rw [← hr]; exact h1) (htrav _ _ _ ht) ho1 h2 (htrav _ _ _ ht2) hev

/-- Every successful run of `traverseGraph` follows the big-step rules. -/
theorem traverseGraph_Trav :
    ∀ (fuel : Nat) (h : Heap) (p : Nat) (h' : Heap),
      traverseGraph fuel h p = .ok h' → Trav h p h' := by
  intro fuel
  induction fuel with
  | zero => intro h p h' he; simp [traverseGraph] at he
  | succ fuel ih =>
    intro h p h' he
    unfold traverseGraph at he
    cases hp : h[p]? with
    | none => simp [hp] at he
    | some r =>
      simp only [hp] at he
      have ht : tag h p = some r.graph_analyze_state_ := by simp [tag, hp]
      cases hs : r.graph_analyze_state_ with
      | LEADS_TO_END =>
        simp only [hs] at he
        cases he
        exact Trav.skip h p (Or.inl (by rw [ht, hs]))
      | DEAD_END =>
        simp only [hs] at he
        cases he
        exact Trav.skip h p (Or.inr (by rw [ht, hs]))
      | PROCESSING =>
        simp only [hs] at he
        exact visitRemainingChilds_Trav _ ih h p h' (by rw [ht, hs]) he
      | UNVISITED =>
        simp only [hs] at he
        exact visitGraphChilds_Trav _ ih h p h' (by rw [ht, hs]) he

/-! ## More fuel does not change a result -/

theorem visitRemainingChilds_mono (trav trav' : Heap → Nat → Except Fault Heap)
    (hm : ∀ h p h', trav h p = .ok h' → trav' h p = .ok h')
    (h : Heap) (p : Nat) (h' : Heap)
    (he : visitRemainingChilds trav h p = .ok h') :
    visitRemainingChilds trav' h p = .ok h' := by
  unfold visitRemainingChilds at he ⊢
  cases hp : h[p]? with
  | none => simp [hp] at he
  | some r =>
    simp only [hp] at he ⊢
    cases h2 : r.options_.2 with
    | none => simpa [h2] using he
    | some child =>
      simp only [h2] at he ⊢
      cases hc : h[child]? with
      | none => simp [hc] at he
      | some c =>
        simp only [hc] at he ⊢
        by_cases hL : c.graph_analyze_state_ = .LEADS_TO_END
        · simpa [hL] using he
        · simp only [hL, if_false] at he ⊢
          by_cases hU : c.graph_analyze_state_ = .UNVISITED
          · simp only [hU, if_true] at he ⊢
            cases ht : trav h child with
            | error e => simp [ht] at he
            | ok h1 =>
              rw [hm _ _ _ ht]
              simpa [ht] using he
          · simpa [hU] using he

theorem visitGraphChilds_mono (trav trav' : Heap → Nat → Except Fault Heap)
    (hm : ∀ h p h', trav h p = .ok h' → trav' h p = .ok h')
    (h : Heap) (p : Nat) (h' : Heap)
    (he : visitGraphChilds trav h p = .ok h') :
    visitGraphChilds trav' h p = .ok h' := by
  unfold visitGraphChilds at he ⊢
  cases hp : h[p]? with
  | none => simp [hp] at he
  | some r =>
    simp only [hp] at he ⊢
    cases h1 : r.options_.1 with
    | none => simpa [h1] using he
    | some child0 =>
      simp only [h1] at he ⊢
      cases ht : trav h child0 with
      | error e => simp [ht] at he
      | ok h1' =>
        rw [hm _ _ _ ht]
        simp only [ht] at he ⊢
        cases hp1 : h1'[p]? with
        | none => simp [hp1] at he
        | some r1 =>
          simp only [hp1] at he ⊢
          cases h2 : r1.options_.2 with
          | none => simpa [h2] using he
          | some child1 =>
            simp only [h2] at he ⊢
            cases ht2 : trav h1' child1 with
            | error e => simp [ht2] at he
            | ok h2' =>
              rw [hm _ _ _ ht2]
              simpa [ht2] using he

theorem traverseGraph_succ :
    ∀ (fuel : Nat) (h : Heap) (p : Nat) (h' : Heap),
      traverseGraph fuel h p = .ok h' → traverseGraph (fuel + 1) h p = .ok h' := by
  intro fuel
  induction fuel with
  | zero => intro h p h' he; simp [traverseGraph] at he
  | succ fuel ih =>
    intro h p h' he
    unfold traverseGraph at he ⊢
    cases hp : h[p]? with
    | none => simp [hp] at he
    | some r =>
      simp only [hp] at he ⊢
      cases hs : r.graph_analyze_state_ with
      | LEADS_TO_END => simpa [hs] using he
      | DEAD_END => simpa [hs] using he
      | PROCESSING =>
        simp only [hs] at he ⊢
        exact visitRemainingChilds_mono _ _ ih h p h' he
      | UNVISITED =>
        simp only [hs] at he ⊢
        exact visitGraphChilds_mono _ _ ih _ p h' he

theorem traverseGraph_mono {fuel fuel' : Nat} (hle : fuel ≤ fuel') {h : Heap} {p : Nat}
    {h' : Heap} (he : traverseGraph fuel h p = .ok h') :
    traverseGraph fuel' h p = .ok h' := by
  induction hle with
  | refl => exact he
  | step _ ih => exact traverseGraph_succ _ _ _ _ ih

/-! ## Properties kept by every assignment of a tag -/

/-- A relation between heaps that holds across each single assignment made by the
traversal holds across a whole call. -/
theorem Trav.rel (R : Heap → Heap → Prop) (hrefl : ∀ h, R h h)
    (htrans : ∀ a b c, R a b → R b c → R a c)
    (hP : ∀ h p, tag h p = some .UNVISITED → R h (setState h p .PROCESSING))
    (hN : ∀ h p o, opts h p = some o → (o.1 = none ∨ o.2 = none) →
      R h (setState h p .LEADS_TO_END))
    (hC : ∀ h p o c, opts h p = some o → o.2 = some c → tag h c = some .LEADS_TO_END →
      R h (setState h p .LEADS_TO_END))
    (hE : ∀ h p s, evaluateGraphNode h p = .ok s → R h (setState h p s))
    {h : Heap} {p : Nat} {h' : Heap} (ht : Trav h p h') : R h h' := by
  induction ht with
  | skip h p _ => exact hrefl h
  | procEnd h p o _ ho h2 => exact hN h p o ho (Or.inr h2)
  | procLeads h p o child _ ho h2 hc => exact hC h p o child ho h2 hc
  | procVisit h p o child h1 s _ _ _ _ _ hev ih =>
    exact htrans _ _ _ ih (hE _ _ _ hev)
  | procEval h p o child t s _ _ _ _ _ _ hev => exact hE _ _ _ hev
  | newEnd0 h p o hU ho h1 =>
    refine htrans _ _ _ (hP h p hU) (hN _ p o ?_ (Or.inl h1))
    rw [opts_setState]; exact ho
  | newEnd1 h p o child0 h1 o1 hU _ _ _ ho1 h2 ih =>
    exact htrans _ _ _ (hP h p hU) (htrans _ _ _ ih (hN _ p o1 ho1 (Or.inr h2)))
  | newFull h p o child0 h1 o1 child1 h2 s hU _ _ _ _ _ _ hev ih1 ih2 =>
    exact htrans _ _ _ (hP h p hU) (htrans _ _ _ ih1 (htrans _ _ _ ih2 (hE _ _ _ hev)))

theorem evaluateGraphNode_ne_UNVISITED {h : Heap} {p : Nat} {s : GraphNodeStatus}
    (he : evaluateGraphNode h p = .ok s) : s ≠ .UNVISITED ∧ s ≠ .PROCESSING := by
  obtain ⟨o, c0, t0, _, _, _, hcase⟩ := evaluateGraphNode_ok he
  rcases hcase with ⟨_, hs⟩ | ⟨_, c1, t1, _, _, ⟨_, hs⟩ | ⟨_, hs⟩⟩ <;> subst hs <;> simp

/-- A call of `traverseGraph` changes nothing but tags. -/
theorem Trav.shape_eq {h : Heap} {p : Nat} {h' : Heap} (ht : Trav h p h') :
    shape h' = shape h := by
  refine Trav.rel (fun a b => shape b = shape a) (fun _ => rfl)
    (fun a b c hab hbc => hbc.trans hab) ?_ ?_ ?_ ?_ ht
  · intro h p _; exact shape_setState h p _
  · intro h p o _ _; exact shape_setState h p _
  · intro h p o c _ _ _; exact shape_setState h p _
  · intro h p s _; exact shape_setState h p _

theorem Trav.opts_eq {h : Heap} {p : Nat} {h' : Heap} (ht : Trav h p h') :
    opts h' = opts h := opts_eq_of_shape ht.shape_eq

theorem Trav.length_eq {h : Heap} {p : Nat} {h' : Heap} (ht : Trav h p h') :
    h'.length = h.length := length_eq_of_shape ht.shape_eq

/-- No tag goes back to `UNVISITED`. -/
theorem Trav.unvisited_of {h : Heap} {p : Nat} {h' : Heap} (ht : Trav h p h') :
    ∀ m, tag h' m = some .UNVISITED → tag h m = some .UNVISITED := by
  have key : ∀ (h : Heap) (p : Nat) (s : GraphNodeStatus), s ≠ .UNVISITED →
      ∀ m, tag (setState h p s) m = some .UNVISITED → tag h m = some .UNVISITED := by
    intro h p s hs m hm
    rw [tag_setState] at hm
    by_cases e : m = p
    · simp only [e, if_true] at hm
      cases hx : tag h p with
      | none => simp [hx] at hm
      | some t =>
        simp only [hx, Option.map_some', Option.some.injEq] at hm
        exact absurd hm hs
    · simpa [e] using hm
  refine Trav.rel (fun a b => ∀ m, tag b m = some .UNVISITED → tag a m = some .UNVISITED)
    (fun _ _ hm => hm) (fun a b c hab hbc m hm => hab m (hbc m hm)) ?_ ?_ ?_ ?_ ht
  · intro h p _; exact key h p _ (by simp)
  · intro h p o _ _; exact key h p _ (by simp)
  · intro h p o c _ _ _; exact key h p _ (by simp)
  · intro h p s hev; exact key h p _ (evaluateGraphNode_ne_UNVISITED hev).1

theorem unvisited_setState_le (h : Heap) (p : Nat) (s : GraphNodeStatus)
    (hs : s ≠ .UNVISITED) : unvisited (setState h p s) ≤ unvisited h := by
  unfold setState
  cases hp : h[p]? with
  | none => simp
  | some c =>
    rcases List.getElem?_eq_some.mp hp with ⟨hl, _⟩
    simp only [unvisited]
    rw [List.countP_set _ _ _ _ hl]
    simp [hs]

theorem unvisited_setState_lt (h : Heap) (p : Nat) (s : GraphNodeStatus)
    (hs : s ≠ .UNVISITED) (hp : tag h p = some .UNVISITED) :
    unvisited (setState h p s) + 1 = unvisited h := by
  unfold setState
  unfold tag at hp
  cases hc : h[p]? with
  | none => simp [hc] at hp
  | some c =>
    rcases List.getElem?_eq_some.mp hc with ⟨hl, hget⟩
    simp only [hc, Option.map_some', Option.some.injEq] at hp
    have hpos : 0 < unvisited h := by
      unfold unvisited
      rw [List.countP_pos_iff]
      exact ⟨c, List.mem_iff_getElem?.mpr ⟨p, hc⟩, by simp [hp]⟩
    simp only [unvisited] at hpos ⊢
    rw [List.countP_set _ _ _ _ hl]
    simp only [hget, hp, hs, decide_True, decide_False, if_true]
    simp
    omega

theorem Trav.unvisited_le {h : Heap} {p : Nat} {h' : Heap} (ht : Trav h p h') :
    unvisited h' ≤ unvisited h := by
  refine Trav.rel (fun a b => unvisited b ≤ unvisited a) (fun _ => le_refl _)
    (fun a b c hab hbc => le_trans hbc hab) ?_ ?_ ?_ ?_ ht
  · intro h p _; exact unvisited_setState_le h p _ (by simp)
  · intro h p o _ _; exact unvisited_setState_le h p _ (by simp)
  · intro h p o c _ _ _; exact unvisited_setState_le h p _ (by simp)
  · intro h p s hev; exact unvisited_setState_le h p _ (evaluateGraphNode_ne_UNVISITED hev).1

/-! ## Termination -/

theorem tag_setState_inv {h : Heap} {p m : Nat} {s t : GraphNodeStatus}
    (hm : tag (setState h p s) m = some t) (hne : t ≠ s) : m ≠ p ∧ tag h m = some t := by
  rw [tag_setState] at hm
  by_cases e : m = p
  · simp only [e, if_true] at hm
    cases hx : tag h p with
    | none => simp [hx] at hm
    | some t' =>
      simp only [hx, Option.map_some', Option.some.injEq] at hm
      exact absurd hm.symm hne
  · exact ⟨e, by simpa [e] using hm⟩

theorem tag_setState_self_ne (h : Heap) (p : Nat) (s t : GraphNodeStatus) (hne : t ≠ s) :
    tag (setState h p s) p ≠ some t := by
  intro hc
  exact (tag_setState_inv hc hne).1 rfl

/-- A tag that is `PROCESSING` after a call was `PROCESSING` before it. -/
theorem Trav.processing_of {h : Heap} {p : Nat} {h' : Heap} (ht : Trav h p h') :
    ∀ m, tag h' m = some .PROCESSING → tag h m = some .PROCESSING := by
  induction ht with
  | skip h p _ => intro m hm; exact hm
  | procEnd h p o _ ho h2 => intro m hm; exact (tag_setState_inv hm (by simp)).2
  | procLeads h p o child _ ho h2 hc => intro m hm; exact (tag_setState_inv hm (by simp)).2
  | procVisit h p o child h1 s _ _ _ _ _ hev ih =>
    intro m hm
    exact ih m (tag_setState_inv hm (evaluateGraphNode_ne_UNVISITED hev).2.symm).2
  | procEval h p o child t s _ _ _ _ _ _ hev =>
    intro m hm
    exact (tag_setState_inv hm (evaluateGraphNode_ne_UNVISITED hev).2.symm).2
  | newEnd0 h p o hU ho h1 =>
    intro m hm
    obtain ⟨hne, hm1⟩ := tag_setState_inv hm (by simp)
    rw [tag_setState_ne _ _ _ _ hne] at hm1
    exact hm1
  | newEnd1 h p o child0 h1 o1 hU _ _ _ ho1 h2 ih =>
    intro m hm
    obtain ⟨hne, hm1⟩ := tag_setState_inv hm (by simp)
    have := ih m hm1
    rw [tag_setState_ne _ _ _ _ hne] at this
    exact this
  | newFull h p o child0 h1 o1 child1 h2 s hU _ _ _ _ _ _ hev ih1 ih2 =>
    intro m hm
    obtain ⟨hne, hm1⟩ := tag_setState_inv hm (evaluateGraphNode_ne_UNVISITED hev).2.symm
    have := ih1 m (ih2 m hm1)
    rw [tag_setState_ne _ _ _ _ hne] at this
    exact this

/-- The node a call was made on is not `UNVISITED` when the call returns. -/
theorem Trav.visited {h : Heap} {p : Nat} {h' : Heap} (ht : Trav h p h') :
    tag h' p ≠ some .UNVISITED := by
  cases ht with
  | skip _ _ hs => rcases hs with hs | hs <;> simp [hs]
  | procEnd => exact tag_setState_self_ne _ _ _ _ (by simp)
  | procLeads => exact tag_setState_self_ne _ _ _ _ (by simp)
  | procVisit _ _ _ _ _ _ _ _ _ _ _ hev =>
    exact tag_setState_self_ne _ _ _ _ (evaluateGraphNode_ne_UNVISITED hev).1.symm
  | procEval _ _ _ _ _ _ _ _ _ _ _ _ hev =>
    exact tag_setState_self_ne _ _ _ _ (evaluateGraphNode_ne_UNVISITED hev).1.symm
  | newEnd0 => exact tag_setState_self_ne _ _ _ _ (by simp)
  | newEnd1 => exact tag_setState_self_ne _ _ _ _ (by simp)
  | newFull _ _ _ _ _ _ _ _ _ _ _ _ _ _ _ _ hev =>
    exact tag_setState_self_ne _ _ _ _ (evaluateGraphNode_ne_UNVISITED hev).1.symm

theorem ProcOK_setState {h : Heap} (hp : ProcOK h) (p : Nat) (s : GraphNodeStatus)
    (hs : s ≠ .PROCESSING) : ProcOK (setState h p s) := by
  intro m o hm ho
  rw [opts_setState] at ho
  exact hp m o (tag_setState_inv hm (Ne.symm hs)).2 ho

theorem ProcOK_setState_PROCESSING {h : Heap} (hp : ProcOK h) (p : Nat)
    (o : Option Nat × Option Nat) (ho : opts h p = some o) (h1 : o.1 ≠ none) :
    ProcOK (setState h p .PROCESSING) := by
  intro m o' hm ho'
  rw [opts_setState] at ho'
  by_cases e : m = p
  · subst e
    rw [ho] at ho'
    cases ho'
    exact h1
  · rw [tag_setState_ne _ _ _ _ e] at hm
    exact hp m o' hm ho'

/-- The property `ProcOK` holds again when a call returns. -/
theorem Trav.procOK {h : Heap} {p : Nat} {h' : Heap} (ht : Trav h p h') :
    ProcOK h → ProcOK h' := by
  induction ht with
  | skip h p _ => exact id
  | procEnd h p o _ ho h2 => intro hp; exact ProcOK_setState hp _ _ (by simp)
  | procLeads h p o child _ ho h2 hc => intro hp; exact ProcOK_setState hp _ _ (by simp)
  | procVisit h p o child h1 s _ _ _ _ _ hev ih =>
    intro hp
    exact ProcOK_setState (ih hp) _ _ (evaluateGraphNode_ne_UNVISITED hev).2
  | procEval h p o child t s _ _ _ _ _ _ hev =>
    intro hp
    exact ProcOK_setState hp _ _ (evaluateGraphNode_ne_UNVISITED hev).2
  | newEnd0 h p o hU ho h1 =>
    intro hp m o' hm ho'
    obtain ⟨hne, hm1⟩ := tag_setState_inv hm (by simp)
    rw [tag_setState_ne _ _ _ _ hne] at hm1
    rw [opts_setState, opts_setState] at ho'
    exact hp m o' hm1 ho'
  | newEnd1 h p o child0 h1 o1 hU ho hc0 _ ho1 h2 ih =>
    intro hp
    exact ProcOK_setState
      (ih (ProcOK_setState_PROCESSING hp p o ho (by rw [hc0]; simp))) _ _ (by simp)
  | newFull h p o child0 h1 o1 child1 h2 s hU ho hc0 _ _ _ _ hev ih1 ih2 =>
    intro hp
    exact ProcOK_setState
      (ih2 (ih1 (ProcOK_setState_PROCESSING hp p o ho (by rw [hc0]; simp)))) _ _
      (evaluateGraphNode_ne_UNVISITED hev).2

theorem evaluateGraphNode_total {h : Heap} {p : Nat} {o : Option Nat × Option Nat}
    {c0 c1 : Nat} (ho : opts h p = some o) (h0 : o.1 = some c0) (h1 : o.2 = some c1)
    (hv0 : c0 < h.length) (hv1 : c1 < h.length) :
    ∃ s, evaluateGraphNode h p = .ok s := by
  obtain ⟨t0, ht0⟩ := (tag_isSome_iff h c0).mpr hv0
  obtain ⟨t1, ht1⟩ := (tag_isSome_iff h c1).mpr hv1
  exact ⟨_, evaluateGraphNode_eq ho h0 h1 ht0 ht1⟩

/-- With fuel for two nested calls per unvisited chapter and one more, `traverseGraph`
returns a heap. -/
theorem traverseGraph_total :
    ∀ (fuel : Nat) (h : Heap) (p : Nat),
      (∀ a b, Step (opts h) a b → b < h.length) → p < h.length → ProcOK h →
      (2 * unvisited h + 1 ≤ fuel ∨ (tag h p = some .UNVISITED ∧ 2 * unvisited h ≤ fuel)) →
      ∃ h', traverseGraph fuel h p = .ok h' := by
  intro fuel
  induction fuel with
  | zero =>
    intro h p _ hp _ hb
    exfalso
    rcases hb with hb | ⟨hU, hb⟩
    · omega
    · have := unvisited_setState_lt h p .PROCESSING (by simp) hU
      omega
  | succ fuel ih =>
    intro h p hv hp hok hb
    obtain ⟨t, ht⟩ := (tag_isSome_iff h p).mpr hp
    obtain ⟨o, ho⟩ := (opts_isSome_iff h p).mpr hp
    cases hc : h[p]? with
    | none => simp [tag, hc] at ht
    | some c =>
      have hct : c.graph_analyze_state_ = t := by simpa [tag, hc] using ht
      have hco : c.options_ = o := by simpa [opts, hc] using ho
      unfold traverseGraph
      simp only [hc]
      cases t with
      | LEADS_TO_END => simp [hct]
      | DEAD_END => simp [hct]
      | PROCESSING =>
        simp only [hct]
        unfold visitRemainingChilds
        simp only [hc, hco]
        cases h2 : o.2 with
        | none => simp
        | some child =>
          simp only []
          have hcv : child < h.length := hv p child ⟨o, ho, Or.inr h2⟩
          obtain ⟨tc, htc⟩ := (tag_isSome_iff h child).mpr hcv
          cases hcc : h[child]? with
          | none => simp [tag, hcc] at htc
          | some cc =>
            have hcct : cc.graph_analyze_state_ = tc := by simpa [tag, hcc] using htc
            simp only [hcct]
            obtain ⟨c0, h0⟩ : ∃ c0, o.1 = some c0 := by
              cases h01 : o.1 with
              | none => exact absurd h01 (hok p o ht ho)
              | some c0 => exact ⟨c0, rfl⟩
            have hc0v : c0 < h.length := hv p c0 ⟨o, ho, Or.inl h0⟩
            by_cases hL : tc = .LEADS_TO_END
            · simp [hL]
            · simp only [hL, if_false]
              by_cases hU : tc = .UNVISITED
              · simp only [hU, if_true]
                have hb' : 2 * unvisited h + 1 ≤ fuel ∨
                    (tag h child = some .UNVISITED ∧ 2 * unvisited h ≤ fuel) := by
                  right
                  refine ⟨by rw [htc, hU], ?_⟩
                  rcases hb with hb | ⟨hU', _⟩
                  · omega
                  · rw [ht] at hU'; cases hU'
                obtain ⟨h1, hh1⟩ := ih h child hv hcv hok hb'
                have hT := traverseGraph_Trav _ _ _ _ hh1
                obtain ⟨s, hs⟩ := evaluateGraphNode_total (h := h1) (p := p)
                  (by rw [hT.opts_eq]; exact ho) h0 h2
                  (by rw [hT.length_eq]; exact hc0v) (by rw [hT.length_eq]; exact hcv)
                simp [hh1, hs]
              · simp only [hU, if_false]
                obtain ⟨s, hs⟩ := evaluateGraphNode_total ho h0 h2 hc0v hcv
                simp [hs]
      | UNVISITED =>
        simp only [hct]
        have hlt := unvisited_setState_lt h p .PROCESSING (by simp) ht
        have hlen0 : (setState h p .PROCESSING).length = h.length := length_setState _ _ _
        have hv0 : ∀ a b, Step (opts (setState h p .PROCESSING)) a b →
            b < (setState h p .PROCESSING).length := by
          intro a b hs
          rw [opts_setState] at hs
          rw [hlen0]
          exact hv a b hs
        have ho0 : opts (setState h p .PROCESSING) p = some o := by
          rw [opts_setState]; exact ho
        unfold visitGraphChilds
        cases hc0 : (setState h p .PROCESSING)[p]? with
        | none => simp [opts, hc0] at ho0
        | some r =>
          have hro : r.options_ = o := by simpa [opts, hc0] using ho0
          simp only [hro]
          cases h1 : o.1 with
          | none => simp
          | some child0 =>
            simp only []
            have hc0v : child0 < h.length := hv p child0 ⟨o, ho, Or.inl h1⟩
            have hok0 : ProcOK (setState h p .PROCESSING) :=
              ProcOK_setState_PROCESSING hok p o ho (by rw [h1]; simp)
            obtain ⟨h1', hh1⟩ := ih (setState h p .PROCESSING) child0 hv0
              (by rw [hlen0]; exact hc0v) hok0 (Or.inl (by omega))
            have hT1 := traverseGraph_Trav _ _ _ _ hh1
            simp only [hh1]
            have ho1 : opts h1' p = some o := by rw [hT1.opts_eq]; exact ho0
            have hlen1 : h1'.length = h.length := by rw [hT1.length_eq]; exact hlen0
            cases hc1 : h1'[p]? with
            | none => simp [opts, hc1] at ho1
            | some r1 =>
              have hr1o : r1.options_ = o := by simpa [opts, hc1] using ho1
              simp only [hr1o]
              cases h2 : o.2 with
              | none => simp
              | some child1 =>
                simp only []
                have hc1v : child1 < h.length := hv p child1 ⟨o, ho, Or.inr h2⟩
                have hv1 : ∀ a b, Step (opts h1') a b → b < h1'.length := by
                  intro a b hs
                  rw [hT1.opts_eq] at hs
                  rw [hT1.length_eq]
                  exact hv0 a b hs
                have hle := hT1.unvisited_le
                obtain ⟨h2', hh2⟩ := ih h1' child1 hv1 (by rw [hlen1]; exact hc1v)
                  (hT1.procOK hok0) (Or.inl (by omega))
                have hT2 := traverseGraph_Trav _ _ _ _ hh2
                simp only [hh2]
                obtain ⟨s, hs⟩ := evaluateGraphNode_total (h := h2') (p := p)
                  (by rw [hT2.opts_eq]; exact ho1) h1 h2
                  (by rw [hT2.length_eq, hlen1]; exact hc0v)
                  (by rw [hT2.length_eq, hlen1]; exact hc1v)
                simp [hs]

/-! ## What a tag `LEADS_TO_END` means -/

theorem tag_setState_valid {h : Heap} {p : Nat} (s : GraphNodeStatus) (hp : p < h.length) :
    tag (setState h p s) p = some s := by
  obtain ⟨t, ht⟩ := (tag_isSome_iff h p).mpr hp
  exact tag_setState_self h p s t ht

theorem CanEnd_of_Terminal {g : Graph} {p : Nat} (ht : Terminal g p) : CanEnd g p :=
  ⟨p, Relation.ReflTransGen.refl, ht⟩

theorem CanEnd_of_Step {g : Graph} {p c : Nat} (hs : Step g p c) (hc : CanEnd g c) :
    CanEnd g p := by
  obtain ⟨b, hb, hT⟩ := hc
  exact ⟨b, Relation.ReflTransGen.head hs hb, hT⟩

theorem Sound_setState {h : Heap} (hs : Sound h) (p : Nat) (s : GraphNodeStatus)
    (hp : s = .LEADS_TO_END → CanEnd (opts h) p) : Sound (setState h p s) := by
  intro m hm
  rw [opts_setState]
  by_cases e : m = p
  · subst e
    rw [tag_setState] at hm
    simp only [if_true] at hm
    cases hx : tag h m with
    | none => simp [hx] at hm
    | some t =>
      simp only [hx, Option.map_some', Option.some.injEq] at hm
      exact hp hm
  · rw [tag_setState_ne _ _ _ _ e] at hm
    exact hs m hm

/-- A call of `traverseGraph` tags `LEADS_TO_END` only chapters that can reach an end. -/
theorem Trav.sound {h : Heap} {p : Nat} {h' : Heap} (ht : Trav h p h') :
    Paired (opts h) → Sound h → Sound h' := by
  have main := Trav.rel
    (fun a b => opts b = opts a ∧ (Paired (opts a) → Sound a → Sound b))
    (fun _ => ⟨rfl, fun _ hs => hs⟩)
    (fun a b c hab hbc => ⟨hbc.1.trans hab.1, fun hB hs =>
      hbc.2 (by rw [hab.1]; exact hB) (hab.2 hB hs)⟩) ?_ ?_ ?_ ?_ ht
  · exact main.2
  · intro h p _
    exact ⟨opts_setState _ _ _, fun _ hs => Sound_setState hs p _ (by simp)⟩
  · intro h p o ho hn
    refine ⟨opts_setState _ _ _, fun hB hs => Sound_setState hs p _ (fun _ => ?_)⟩
    have hboth : o.1 = none ∧ o.2 = none := by
      rcases hn with hn | hn
      · exact ⟨hn, (hB p o ho).mp hn⟩
      · exact ⟨(hB p o ho).mpr hn, hn⟩
    apply CanEnd_of_Terminal
    unfold Terminal
    rw [ho]
    obtain ⟨a, b⟩ := o
    simp only at hboth
    rw [hboth.1, hboth.2]
  · intro h p o c ho h2 hc
    refine ⟨opts_setState _ _ _, fun _ hs => Sound_setState hs p _ (fun _ => ?_)⟩
    exact CanEnd_of_Step ⟨o, ho, Or.inr h2⟩ (hs c hc)
  · intro h p s hev
    refine ⟨opts_setState _ _ _, fun _ hs => Sound_setState hs p _ (fun hsL => ?_)⟩
    obtain ⟨o, c0, t0, ho, h0, ht0, hcase⟩ := evaluateGraphNode_ok hev
    rcases hcase with ⟨hL, _⟩ | ⟨_, c1, t1, h1, ht1, ⟨hL, _⟩ | ⟨_, hD⟩⟩
    · exact CanEnd_of_Step ⟨o, ho, Or.inl h0⟩ (hs c0 (by rw [ht0, hL]))
    · exact CanEnd_of_Step ⟨o, ho, Or.inr h1⟩ (hs c1 (by rw [ht1, hL]))
    · rw [hD] at hsL; cases hsL

theorem Justified_setState_LEADS {h : Heap} (hj : Justified h) (p : Nat)
    (o : Option Nat × Option Nat) (ho : opts h p = some o)
    (hp : o.1 = none ∨ o.2 = none ∨
        ∃ c, (o.1 = some c ∨ o.2 = some c) ∧ tag h c = some .LEADS_TO_END) :
    Justified (setState h p .LEADS_TO_END) ∧
      ∀ m, tag h m = some .LEADS_TO_END → tag (setState h p .LEADS_TO_END) m = some .LEADS_TO_END := by
  have hpv : p < h.length := (opts_isSome_iff h p).mp ⟨o, ho⟩
  have mono : ∀ m, tag h m = some .LEADS_TO_END →
      tag (setState h p .LEADS_TO_END) m = some .LEADS_TO_END := by
    intro m hm
    by_cases e : m = p
    · subst e; exact tag_setState_valid _ hpv
    · rw [tag_setState_ne _ _ _ _ e]; exact hm
  refine ⟨?_, mono⟩
  intro m hm
  rw [opts_setState]
  by_cases e : m = p
  · subst e
    refine ⟨o, ho, ?_⟩
    rcases hp with h1 | h2 | ⟨c, hc, hcL⟩
    · exact Or.inl h1
    · exact Or.inr (Or.inl h2)
    · exact Or.inr (Or.inr ⟨c, hc, mono c hcL⟩)
  · rw [tag_setState_ne _ _ _ _ e] at hm
    obtain ⟨o', ho', hj'⟩ := hj m hm
    refine ⟨o', ho', ?_⟩
    rcases hj' with h1 | h2 | ⟨c, hc, hcL⟩
    · exact Or.inl h1
    · exact Or.inr (Or.inl h2)
    · exact Or.inr (Or.inr ⟨c, hc, mono c hcL⟩)

theorem Justified_setState_other {h : Heap} (hj : Justified h) (p : Nat)
    (s : GraphNodeStatus) (hs : s ≠ .LEADS_TO_END) (hp : tag h p ≠ some .LEADS_TO_END) :
    Justified (setState h p s) ∧
      ∀ m, tag h m = some .LEADS_TO_END → tag (setState h p s) m = some .LEADS_TO_END := by
  have mono : ∀ m, tag h m = some .LEADS_TO_END →
      tag (setState h p s) m = some .LEADS_TO_END := by
    intro m hm
    have e : m ≠ p := by
      intro e; subst e; exact hp hm
    rw [tag_setState_ne _ _ _ _ e]; exact hm
  refine ⟨?_, mono⟩
  intro m hm
  rw [opts_setState]
  obtain ⟨e, hm'⟩ := tag_setState_inv hm (Ne.symm hs)
  obtain ⟨o', ho', hj'⟩ := hj m hm'
  refine ⟨o', ho', ?_⟩
  rcases hj' with h1 | h2 | ⟨c, hc, hcL⟩
  · exact Or.inl h1
  · exact Or.inr (Or.inl h2)
  · exact Or.inr (Or.inr ⟨c, hc, mono c hcL⟩)

/-- During a call no tag `LEADS_TO_END` is taken back, and `Justified` is kept. -/
theorem Trav.justified {h : Heap} {p : Nat} {h' : Heap} (ht : Trav h p h') :
    Justified h →
      Justified h' ∧ ∀ m, tag h m = some .LEADS_TO_END → tag h' m = some .LEADS_TO_END := by
  refine Trav.rel
    (fun a b => Justified a →
      Justified b ∧ ∀ m, tag a m = some .LEADS_TO_END → tag b m = some .LEADS_TO_END)
    (fun _ hj => ⟨hj, fun _ hm => hm⟩)
    (fun a b c hab hbc hj => ⟨(hbc (hab hj).1).1, fun m hm =>
      (hbc (hab hj).1).2 m ((hab hj).2 m hm)⟩) ?_ ?_ ?_ ?_ ht
  · intro h p hU hj
    exact Justified_setState_other hj p _ (by simp) (by rw [hU]; simp)
  · intro h p o ho hn hj
    refine Justified_setState_LEADS hj p o ho ?_
    rcases hn with hn | hn
    · exact Or.inl hn
    · exact Or.inr (Or.inl hn)
  · intro h p o c ho h2 hc hj
    exact Justified_setState_LEADS hj p o ho (Or.inr (Or.inr ⟨c, Or.inr h2, hc⟩))
  · intro h p s hev hj
    obtain ⟨o, c0, t0, ho, h0, ht0, hcase⟩ := evaluateGraphNode_ok hev
    rcases hcase with ⟨hL, hs⟩ | ⟨hn0, c1, t1, h1, ht1, ⟨hL, hs⟩ | ⟨hn1, hD⟩⟩
    · subst hs
      exact Justified_setState_LEADS hj p o ho
        (Or.inr (Or.inr ⟨c0, Or.inl h0, by rw [ht0, hL]⟩))
    · subst hs
      exact Justified_setState_LEADS hj p o ho
        (Or.inr (Or.inr ⟨c1, Or.inr h1, by rw [ht1, hL]⟩))
    · subst hD
      refine Justified_setState_other hj p _ (by simp) ?_
      intro hpL
      obtain ⟨o', ho', hj'⟩ := hj p hpL
      rw [ho] at ho'
      cases ho'
      rcases hj' with e | e | ⟨c, hc, hcL⟩
      · rw [h0] at e; cases e
      · rw [h1] at e; cases e
      · rcases hc with hc | hc
        · rw [h0] at hc; cases hc
          rw [ht0] at hcL; cases hcL; exact hn0 rfl
        · rw [h1] at hc; cases hc
          rw [ht1] at hcL; cases hcL; exact hn1 rfl

/-! ## What a call has visited when it returns -/

theorem tag_setState_ne_UNVISITED {h : Heap} {p c : Nat} {s : GraphNodeStatus}
    (hs : s ≠ .UNVISITED) (hc : tag h c ≠ some .UNVISITED) :
    tag (setState h p s) c ≠ some .UNVISITED := by
  intro hx
  exact hc (tag_setState_inv hx (Ne.symm hs)).2

/-- In a graph whose chapters have both slots terminal or both not, a chapter that a
call has taken out of `UNVISITED` has no `UNVISITED` child when the call returns. -/
theorem Trav.closed {h : Heap} {p : Nat} {h' : Heap} (ht : Trav h p h') :
    Paired (opts h) → ∀ m c, tag h m = some .UNVISITED → tag h' m ≠ some .UNVISITED →
      Step (opts h) m c → tag h' c ≠ some .UNVISITED := by
  induction ht with
  | skip h p _ => intro _ m c hm hm'; exact absurd hm hm'
  | procEnd h p o hP ho h2 =>
    intro _ m c hm hm' _
    have e : m ≠ p := by intro e; subst e; rw [hP] at hm; cases hm
    rw [tag_setState_ne _ _ _ _ e] at hm'
    exact absurd hm hm'
  | procLeads h p o child hP ho h2 hc =>
    intro _ m c hm hm' _
    have e : m ≠ p := by intro e; subst e; rw [hP] at hm; cases hm
    rw [tag_setState_ne _ _ _ _ e] at hm'
    exact absurd hm hm'
  | procVisit h p o child h1 s hP _ _ _ _ hev ih =>
    intro hB m c hm hm' hs
    have e : m ≠ p := by intro e; subst e; rw [hP] at hm; cases hm
    rw [tag_setState_ne _ _ _ _ e] at hm'
    exact tag_setState_ne_UNVISITED (evaluateGraphNode_ne_UNVISITED hev).1 (ih hB m c hm hm' hs)
  | procEval h p o child t s hP _ _ _ _ _ hev =>
    intro _ m c hm hm' _
    have e : m ≠ p := by intro e; subst e; rw [hP] at hm; cases hm
    rw [tag_setState_ne _ _ _ _ e] at hm'
    exact absurd hm hm'
  | newEnd0 h p o hU ho h1 =>
    intro hB m c hm hm' hs
    by_cases e : m = p
    · subst e
      obtain ⟨o', ho', hc⟩ := hs
      rw [ho] at ho'
      cases ho'
      have h2 := (hB m o ho).mp h1
      rcases hc with hc | hc
      · rw [h1] at hc; cases hc
      · rw [h2] at hc; cases hc
    · rw [tag_setState_ne _ _ _ _ e, tag_setState_ne _ _ _ _ e] at hm'
      exact absurd hm hm'
  | newEnd1 h p o child0 h1 o1 hU ho hc0 hT ho1 h2 ih =>
    intro hB
    exfalso
    rw [hT.opts_eq, opts_setState, ho] at ho1
    cases ho1
    have := (hB p o ho).mpr h2
    rw [hc0] at this
    cases this
  | newFull h p o child0 h1 o1 child1 h2 s hU ho hc0 hT1 ho1 hc1 hT2 hev ih1 ih2 =>
    intro hB m c hm hm' hs
    have hsU := (evaluateGraphNode_ne_UNVISITED hev).1
    have ho1' : o1 = o := by
      rw [hT1.opts_eq, opts_setState, ho] at ho1
      cases ho1; rfl
    subst ho1'
    apply tag_setState_ne_UNVISITED hsU
    by_cases e : m = p
    · subst e
      obtain ⟨o', ho', hc⟩ := hs
      rw [ho] at ho'
      cases ho'
      rcases hc with hc | hc
      · rw [hc0] at hc
        cases hc
        intro hx
        exact hT1.visited (hT2.unvisited_of _ hx)
      · rw [hc1] at hc
        cases hc
        exact hT2.visited
    · have hm2 : tag h2 m ≠ some .UNVISITED := by
        intro hx
        apply hm'
        rw [tag_setState_ne _ _ _ _ e]
        exact hx
      have hB0 : Paired (opts (setState h p .PROCESSING)) := by
        rw [opts_setState]; exact hB
      have hB1 : Paired (opts h1) := by rw [hT1.opts_eq]; exact hB0
      by_cases hm1 : tag h1 m = some .UNVISITED
      · exact ih2 hB1 m c hm1 hm2 (by rw [hT1.opts_eq, opts_setState]; exact hs)
      · intro hx
        refine ih1 hB0 m c (by rw [tag_setState_ne _ _ _ _ e]; exact hm) hm1
          (by rw [opts_setState]; exact hs) (hT2.unvisited_of _ hx)

/-- A chapter with two terminal choice slots is never tagged `DEAD_END`. -/
theorem Trav.terminal_not_dead {h : Heap} {p : Nat} {h' : Heap} (ht : Trav h p h') :
    (∀ m, Terminal (opts h) m → tag h m ≠ some .DEAD_END) →
      ∀ m, Terminal (opts h) m → tag h' m ≠ some .DEAD_END := by
  have main := Trav.rel
    (fun a b => opts b = opts a ∧ ((∀ m, Terminal (opts a) m → tag a m ≠ some .DEAD_END) →
      ∀ m, Terminal (opts a) m → tag b m ≠ some .DEAD_END))
    (fun _ => ⟨rfl, fun hs => hs⟩)
    (fun a b c hab hbc => ⟨hbc.1.trans hab.1, fun hs m hm =>
      hbc.2 (fun m' hm' => hab.2 hs m' (by rw [← hab.1]; exact hm')) m
        (by rw [hab.1]; exact hm)⟩) ?_ ?_ ?_ ?_ ht
  · exact main.2
  · intro h p _
    refine ⟨opts_setState _ _ _, fun hs m hm hx => ?_⟩
    exact hs m hm (tag_setState_inv hx (by simp)).2
  · intro h p o _ _
    refine ⟨opts_setState _ _ _, fun hs m hm hx => ?_⟩
    exact hs m hm (tag_setState_inv hx (by simp)).2
  · intro h p o c _ _ _
    refine ⟨opts_setState _ _ _, fun hs m hm hx => ?_⟩
    exact hs m hm (tag_setState_inv hx (by simp)).2
  · intro h p s hev
    refine ⟨opts_setState _ _ _, fun hs m hm hx => ?_⟩
    obtain ⟨o, c0, t0, ho, h0, _⟩ := evaluateGraphNode_ok hev
    by_cases e : m = p
    · subst e
      unfold Terminal at hm
      rw [ho] at hm
      cases hm
      cases h0
    · rw [tag_setState_ne _ _ _ _ e] at hx
      exact hs m hm hx

/-- A call that tags some chapter `LEADS_TO_END` leaves the chapter it was made on
tagged `LEADS_TO_END`. -/
theorem Trav.leads_up {h : Heap} {p : Nat} {h' : Heap} (ht : Trav h p h') :
    Justified h → ∀ m, tag h m ≠ some .LEADS_TO_END → tag h' m = some .LEADS_TO_END →
      tag h' p = some .LEADS_TO_END := by
  induction ht with
  | skip h p _ => intro _ m hm hm'; exact absurd hm' hm
  | procEnd h p o hP ho h2 =>
    intro _ _ _ _
    exact tag_setState_valid _ ((tag_isSome_iff h p).mp ⟨_, hP⟩)
  | procLeads h p o child hP ho h2 hc =>
    intro _ _ _ _
    exact tag_setState_valid _ ((tag_isSome_iff h p).mp ⟨_, hP⟩)
  | procVisit h p o child h1 s hP ho h2 hcU hT hev ih =>
    intro hj m hm hm'
    have hpv : p < h1.length := by
      rw [hT.length_eq]; exact (tag_isSome_iff h p).mp ⟨_, hP⟩
    obtain ⟨o', c0, t0, ho', h0, ht0, hcase⟩ := evaluateGraphNode_ok hev
    rw [hT.opts_eq, ho] at ho'
    cases ho'
    rcases hcase with ⟨_, hs⟩ | ⟨_, c1, t1, h1', ht1, ⟨_, hs⟩ | ⟨hn1, hD⟩⟩
    · subst hs; exact tag_setState_valid _ hpv
    · subst hs; exact tag_setState_valid _ hpv
    · subst hD
      exfalso
      rw [h2] at h1'
      cases h1'
      have hm1 := (tag_setState_inv hm' (by simp)).2
      have := ih hj m hm hm1
      rw [ht1] at this
      cases this
      exact hn1 rfl
  | procEval h p o child t s hP ho h2 _ _ _ hev =>
    intro _ m hm hm'
    by_cases e : m = p
    · subst e; exact hm'
    · rw [tag_setState_ne _ _ _ _ e] at hm'
      exact absurd hm' hm
  | newEnd0 h p o hU ho h1 =>
    intro _ _ _ _
    apply tag_setState_valid
    rw [length_setState]
    exact (tag_isSome_iff h p).mp ⟨_, hU⟩
  | newEnd1 h p o child0 h1 o1 hU ho hc0 hT ho1 h2 ih =>
    intro _ _ _ _
    apply tag_setState_valid
    rw [hT.length_eq, length_setState]
    exact (tag_isSome_iff h p).mp ⟨_, hU⟩
  | newFull h p o child0 h1 o1 child1 h2 s hU ho hc0 hT1 ho1 hc1 hT2 hev ih1 ih2 =>
    intro hj m hm hm'
    have hpv : p < h2.length := by
      rw [hT2.length_eq, hT1.length_eq, length_setState]
      exact (tag_isSome_iff h p).mp ⟨_, hU⟩
    have ho1' : o1 = o := by
      rw [hT1.opts_eq, opts_setState, ho] at ho1
      cases ho1; rfl
    subst ho1'
    obtain ⟨o', c0, t0, ho', h0, ht0, hcase⟩ := evaluateGraphNode_ok hev
    rw [hT2.opts_eq, hT1.opts_eq, opts_setState, ho] at ho'
    cases ho'
    rcases hcase with ⟨_, hs⟩ | ⟨hn0, c1, t1, h1', ht1, ⟨_, hs⟩ | ⟨hn1, hD⟩⟩
    · subst hs; exact tag_setState_valid _ hpv
    · subst hs; exact tag_setState_valid _ hpv
    · subst hD
      exfalso
      rw [hc0] at h0; cases h0
      rw [hc1] at h1'; cases h1'
      obtain ⟨e, hm2⟩ := tag_setState_inv hm' (by simp)
      have hj0 : Justified (setState h p .PROCESSING) :=
        (Justified_setState_other hj p _ (by simp) (by rw [hU]; simp)).1
      have hj1 := hT1.justified hj0
      have hm0 : tag (setState h p .PROCESSING) m ≠ some .LEADS_TO_END := by
        rw [tag_setState_ne _ _ _ _ e]; exact hm
      by_cases hm1 : tag h1 m = some .LEADS_TO_END
      · have hc0L := ih1 hj0 m hm0 hm1
        have := (hT2.justified hj1.1).2 _ hc0L
        rw [ht0] at this
        cases this
        exact hn0 rfl
      · have := ih2 hj1.1 m hm1 hm2
        rw [ht1] at this
        cases this
        exact hn1 rfl

/-- In a graph without cycles a call made below every chapter that is `PROCESSING`
leaves its chapter `LEADS_TO_END`, tags nothing `DEAD_END`, and leaves the chapters
that are `PROCESSING` as they are. -/
theorem Trav.acyclic {h : Heap} {p : Nat} {h' : Heap} (ht : Trav h p h') :
    Acyclic (opts h) → Paired (opts h) → (∀ m, tag h m ≠ some .DEAD_END) →
      (∀ m, tag h m = some .PROCESSING → Relation.TransGen (Step (opts h)) m p) →
      (∀ m, tag h' m ≠ some .DEAD_END) ∧ tag h' p = some .LEADS_TO_END ∧
        (∀ m, tag h m = some .PROCESSING → tag h' m = some .PROCESSING) := by
  induction ht with
  | skip h p hs =>
    intro _ _ hD _
    rcases hs with hs | hs
    · exact ⟨hD, hs, fun _ hm => hm⟩
    · exact absurd hs (hD p)
  | procEnd h p o hP ho h2 => intro hA _ _ hanc; exact absurd (hanc p hP) (hA p)
  | procLeads h p o child hP ho h2 hc => intro hA _ _ hanc; exact absurd (hanc p hP) (hA p)
  | procVisit h p o child h1 s hP _ _ _ _ hev ih =>
    intro hA _ _ hanc; exact absurd (hanc p hP) (hA p)
  | procEval h p o child t s hP _ _ _ _ _ hev =>
    intro hA _ _ hanc; exact absurd (hanc p hP) (hA p)
  | newEnd0 h p o hU ho h1 =>
    intro _ _ hD _
    have hpv : p < h.length := (tag_isSome_iff h p).mp ⟨_, hU⟩
    refine ⟨?_, ?_, ?_⟩
    · intro m hm
      obtain ⟨e, hm1⟩ := tag_setState_inv hm (by simp)
      rw [tag_setState_ne _ _ _ _ e] at hm1
      exact hD m hm1
    · apply tag_setState_valid
      rw [length_setState]; exact hpv
    · intro m hm
      have e : m ≠ p := by intro e; subst e; rw [hU] at hm; cases hm
      rw [tag_setState_ne _ _ _ _ e, tag_setState_ne _ _ _ _ e]
      exact hm
  | newEnd1 h p o child0 h1 o1 hU ho hc0 hT ho1 h2 ih =>
    intro _ hB
    exfalso
    rw [hT.opts_eq, opts_setState, ho] at ho1
    cases ho1
    have := (hB p o ho).mpr h2
    rw [hc0] at this
    cases this
  | newFull h p o child0 h1 o1 child1 h2 s hU ho hc0 hT1 ho1 hc1 hT2 hev ih1 ih2 =>
    intro hA hB hD hanc
    have hpv : p < h.length := (tag_isSome_iff h p).mp ⟨_, hU⟩
    have ho1' : o = o1 := by
      rw [hT1.opts_eq, opts_setState, ho] at ho1
      cases ho1; rfl
    subst ho1'
    have hopt0 : opts (setState h p .PROCESSING) = opts h := opts_setState _ _ _
    have hopt1 : opts h1 = opts h := hT1.opts_eq.trans hopt0
    have hopt2 : opts h2 = opts h := hT2.opts_eq.trans hopt1
    have hD0 : ∀ m, tag (setState h p .PROCESSING) m ≠ some .DEAD_END := by
      intro m hm
      exact hD m (tag_setState_inv hm (by simp)).2
    have hanc0 : ∀ c, Step (opts h) p c → ∀ m,
        tag (setState h p .PROCESSING) m = some .PROCESSING →
        Relation.TransGen (Step (opts h)) m c := by
      intro c hs m hm
      by_cases e : m = p
      · subst e; exact Relation.TransGen.single hs
      · rw [tag_setState_ne _ _ _ _ e] at hm
        exact Relation.TransGen.tail (hanc m hm) hs
    obtain ⟨hD1, hL0, hP1⟩ := ih1 (by rw [hopt0]; exact hA) (by rw [hopt0]; exact hB) hD0
      (by rw [hopt0]; exact hanc0 child0 ⟨o, ho, Or.inl hc0⟩)
    obtain ⟨hD2, hL1, hP2⟩ := ih2 (by rw [hopt1]; exact hA) (by rw [hopt1]; exact hB) hD1
      (by
        rw [hopt1]
        intro m hm
        exact hanc0 child1 ⟨o, ho, Or.inr hc1⟩ m (hT1.processing_of m hm))
    have hs : s = .LEADS_TO_END := by
      obtain ⟨o', c0, t0, ho', h0, ht0, hcase⟩ := evaluateGraphNode_ok hev
      rw [hopt2, ho] at ho'
      cases ho'
      rcases hcase with ⟨_, hs⟩ | ⟨hn0, c1, t1, h1', ht1, ⟨_, hs⟩ | ⟨hn1, _⟩⟩
      · exact hs
      · exact hs
      · exfalso
        rw [hc1] at h1'; cases h1'
        rw [ht1] at hL1; cases hL1
        exact hn1 rfl
    subst hs
    refine ⟨?_, ?_, ?_⟩
    · intro m hm
      exact hD2 m (tag_setState_inv hm (by simp)).2
    · apply tag_setState_valid
      rw [hT2.length_eq, hT1.length_eq, length_setState]; exact hpv
    · intro m hm
      have e : m ≠ p := by intro e; subst e; rw [hU] at hm; cases hm
      rw [tag_setState_ne _ _ _ _ e]
      exact hP2 m (hP1 m (by rw [tag_setState_ne _ _ _ _ e]; exact hm))

/-! ## The loops over the store -/

theorem AllUnvisited_iff_tag (h : Heap) :
    AllUnvisited h ↔ ∀ q, q < h.length → tag h q = some .UNVISITED := by
  unfold AllUnvisited tag
  constructor
  · intro hall q hq
    rw [List.getElem?_eq_getElem hq]
    simp [hall _ (List.getElem_mem hq)]
  · intro hall c hc
    obtain ⟨q, hq⟩ := List.mem_iff_getElem?.mp hc
    have hl : q < h.length := by
      rcases List.getElem?_eq_some.mp hq with ⟨hl, _⟩
      exact hl
    have := hall q hl
    simpa [hq] using this

theorem shape_of_AllUnvisited {h : Heap} (hall : AllUnvisited h) : shape h = h := by
  unfold shape
  conv_rhs => rw [← List.map_id h]
  apply List.map_congr_left
  intro c hc
  have := hall c hc
  cases c
  simp only at this
  simp [this]

theorem AllUnvisited_shape (h : Heap) : AllUnvisited (shape h) := by
  intro c hc
  unfold shape at hc
  obtain ⟨c', _, rfl⟩ := List.mem_map.mp hc
  rfl

theorem shape_shape (h : Heap) : shape (shape h) = shape h :=
  shape_of_AllUnvisited (AllUnvisited_shape h)

/-- What a successful run of the loop of `resetGraphState` has done. -/
theorem resetGraphStateLoop_ok :
    ∀ (es : List (Option MapEntry)) (h h0 : Heap),
      resetGraphStateLoop es h = .ok h0 →
      shape h0 = shape h ∧ (∀ e ∈ es, entryOK h.length e = true) ∧
      (∀ q, tag h q = some .UNVISITED → tag h0 q = some .UNVISITED) ∧
      (∀ q ∈ es.filterMap (fun e => e.bind (fun entry => entry.value_)),
        tag h0 q = some .UNVISITED) := by
  intro es
  induction es with
  | nil =>
    intro h h0 he
    simp only [resetGraphStateLoop] at he
    cases he
    simp
  | cons e es ih =>
    intro h h0 he
    cases e with
    | none => simp [resetGraphStateLoop] at he
    | some entry =>
      simp only [resetGraphStateLoop] at he
      cases hv : entry.value_ with
      | none => simp [hv] at he
      | some p =>
        simp only [hv] at he
        cases hp : h[p]? with
        | none => simp [hp] at he
        | some c =>
          simp only [hp] at he
          have hpl : p < h.length := by
            rcases List.getElem?_eq_some.mp hp with ⟨hl, _⟩
            exact hl
          obtain ⟨hs, hok, hU, hptr⟩ := ih _ _ he
          rw [length_setState] at hok
          refine ⟨hs.trans (shape_setState _ _ _), ?_, ?_, ?_⟩
          · intro e he'
            rcases List.mem_cons.mp he' with rfl | he'
            · simp [entryOK, hv, hpl]
            · exact hok e he'
          · intro q hq
            apply hU
            by_cases e : q = p
            · subst e; exact tag_setState_valid _ hpl
            · rw [tag_setState_ne _ _ _ _ e]; exact hq
          · intro q hq
            simp only [List.filterMap_cons, Option.some_bind, hv] at hq
            rcases List.mem_cons.mp hq with rfl | hq
            · exact hU _ (tag_setState_valid _ hpl)
            · exact hptr q hq

/-- The loop of `resetGraphState` succeeds on a store whose entries hold chapters. -/
theorem resetGraphStateLoop_total :
    ∀ (es : List (Option MapEntry)) (h : Heap),
      (∀ e ∈ es, entryOK h.length e = true) → ∃ h0, resetGraphStateLoop es h = .ok h0 := by
  intro es
  induction es with
  | nil => intro h _; exact ⟨h, rfl⟩
  | cons e es ih =>
    intro h hok
    have he := hok e (List.mem_cons_self _ _)
    cases e with
    | none => simp [entryOK] at he
    | some entry =>
      cases hv : entry.value_ with
      | none => simp [entryOK, hv] at he
      | some p =>
        have hpl : p < h.length := by simpa [entryOK, hv] using he
        simp only [resetGraphStateLoop, hv, List.getElem?_eq_getElem hpl]
        apply ih
        intro e' he'
        rw [length_setState]
        exact hok e' (List.mem_cons_of_mem _ he')

/-- On a store that holds every chapter, a successful `resetGraphState` returns the
heap with every tag `UNVISITED`. -/
theorem resetGraphState_eq_shape {map : Map} {h h0 : Heap} (hall : AllStored map h)
    (he : resetGraphState map h = .ok h0) : h0 = shape h := by
  obtain ⟨hs, _, _, hptr⟩ := resetGraphStateLoop_ok _ _ _ he
  have hlen : h0.length = h.length := length_eq_of_shape hs
  have hU : AllUnvisited h0 := by
    rw [AllUnvisited_iff_tag]
    intro q hq
    apply hptr
    exact hall q (List.mem_range.mpr (by rw [← hlen]; exact hq))
  rw [← hs, shape_of_AllUnvisited hU]

theorem storedPtrs_lt {map : Map} {h : Heap} (hok : ∀ e ∈ map.entries, entryOK h.length e = true)
    {q : Nat} (hq : q ∈ storedPtrs map) : q < h.length := by
  unfold storedPtrs at hq
  obtain ⟨e, he, hb⟩ := List.mem_filterMap.mp hq
  have := hok e he
  cases e with
  | none => simp at hb
  | some entry =>
    simp only [Option.some_bind] at hb
    simpa [entryOK, hb] using this

/-- The first entry of a store that is not empty can be read. -/
theorem rootOf_of_StoreOK {map : Map} {h : Heap} (hok : StoreOK map h) :
    ∃ root, rootOf map = .ok (some root) ∧ root < h.length := by
  obtain ⟨hpos, hall⟩ := hok
  have hmem : (map.block[0]?).join ∈ map.entries := by
    unfold Map.entries
    exact List.mem_map.mpr ⟨0, List.mem_range.mpr hpos, rfl⟩
  have h0 := hall _ hmem
  unfold rootOf
  unfold Map.block at h0
  cases hs : map.start_entry_ with
  | none => simp [hs, entryOK] at h0
  | some block =>
    simp only [hs, Option.getD_some] at h0
    cases hb : block[0]? with
    | none => simp [hb, entryOK] at h0
    | some cell =>
      cases cell with
      | none => simp [hb, entryOK] at h0
      | some entry =>
        cases hv : entry.value_ with
        | none => simp [hb, entryOK, hv] at h0
        | some p =>
          refine ⟨p, by simp [hb, hv], ?_⟩
          simpa [hb, entryOK, hv] using h0

/-- What a successful run of the loop of `getGraphClass` has found. -/
theorem getGraphClassLoop_ok :
    ∀ (es : List (Option MapEntry)) (h : Heap) (v : GraphClass),
      getGraphClassLoop es h = .ok v →
      v ≠ .NO_END ∧
      (v = .POSSIBLE ↔ ∀ q ∈ es.filterMap (fun e => e.bind (fun entry => entry.value_)),
        tag h q = some .LEADS_TO_END) := by
  intro es
  induction es with
  | nil =>
    intro h v he
    simp only [getGraphClassLoop] at he
    cases he
    simp
  | cons e es ih =>
    intro h v he
    cases e with
    | none => simp [getGraphClassLoop] at he
    | some entry =>
      simp only [getGraphClassLoop] at he
      cases hv : entry.value_ with
      | none => simp [hv] at he
      | some p =>
        simp only [hv] at he
        cases hp : h[p]? with
        | none => simp [hp] at he
        | some c =>
          simp only [hp] at he
          have htag : tag h p = some c.graph_analyze_state_ := by simp [tag, hp]
          by_cases hL : c.graph_analyze_state_ = .LEADS_TO_END
          · simp only [hL, ne_eq, not_true_eq_false, if_false] at he
            obtain ⟨hne, hiff⟩ := ih _ _ he
            refine ⟨hne, ?_⟩
            rw [hiff]
            simp only [List.filterMap_cons, Option.some_bind, hv, List.mem_cons,
              forall_eq_or_imp]
            rw [htag, hL]
            simp
          · simp only [ne_eq, hL, not_false_eq_true, if_true] at he
            cases he
            refine ⟨by simp, ?_⟩
            simp only [List.filterMap_cons, Option.some_bind, hv, List.mem_cons,
              forall_eq_or_imp]
            rw [htag]
            simp [hL]

theorem getGraphClassLoop_total :
    ∀ (es : List (Option MapEntry)) (h : Heap),
      (∀ e ∈ es, entryOK h.length e = true) → ∃ v, getGraphClassLoop es h = .ok v := by
  intro es
  induction es with
  | nil => intro h _; exact ⟨_, rfl⟩
  | cons e es ih =>
    intro h hok
    have he := hok e (List.mem_cons_self _ _)
    cases e with
    | none => simp [entryOK] at he
    | some entry =>
      cases hv : entry.value_ with
      | none => simp [entryOK, hv] at he
      | some p =>
        have hpl : p < h.length := by simpa [entryOK, hv] using he
        simp only [getGraphClassLoop, hv, List.getElem?_eq_getElem hpl]
        by_cases hL : h[p].graph_analyze_state_ = .LEADS_TO_END
        · simp only [hL, ne_eq, not_true_eq_false, if_false]
          exact ih h (fun e' he' => hok e' (List.mem_cons_of_mem _ he'))
        · simp [hL]

/-- What a successful `getGraphClass` says about the tags. -/
theorem getGraphClass_ok {map : Map} {h : Heap} {root : Nat} {v : GraphClass}
    (hr : rootOf map = .ok (some root)) (he : getGraphClass map h = .ok v) :
    (v = .NO_END ↔ tag h root ≠ some .LEADS_TO_END) ∧
    (v = .POSSIBLE ↔ tag h root = some .LEADS_TO_END ∧
      ∀ q ∈ storedPtrs map, tag h q = some .LEADS_TO_END) := by
  unfold getGraphClass at he
  simp only [hr] at he
  cases hp : h[root]? with
  | none => simp [hp] at he
  | some r =>
    simp only [hp] at he
    have htag : tag h root = some r.graph_analyze_state_ := by simp [tag, hp]
    by_cases hL : r.graph_analyze_state_ = .LEADS_TO_END
    · simp only [hL, ne_eq, not_true_eq_false, if_false] at he
      obtain ⟨hne, hiff⟩ := getGraphClassLoop_ok _ _ _ he
      rw [htag, hL]
      refine ⟨by simp [hne], ?_⟩
      rw [hiff]
      simp [storedPtrs]
    · simp only [ne_eq, hL, not_false_eq_true, if_true] at he
      cases he
      rw [htag]
      simp [hL]

theorem getGraphClass_total {map : Map} {h : Heap} {root : Nat}
    (hr : rootOf map = .ok (some root)) (hroot : root < h.length)
    (hok : ∀ e ∈ map.entries, entryOK h.length e = true) :
    ∃ v, getGraphClass map h = .ok v := by
  unfold getGraphClass
  simp only [hr, List.getElem?_eq_getElem hroot]
  by_cases hL : h[root].graph_analyze_state_ = .LEADS_TO_END
  · simp only [hL, ne_eq, not_true_eq_false, if_false]
    exact getGraphClassLoop_total _ _ hok
  · simp [hL]

/-! ## The analysis pass -/

theorem Step_lt_of_ValidPtrs {h : Heap} (hv : ValidPtrs h) :
    ∀ a b, Step (opts h) a b → b < h.length := by
  rintro a b ⟨o, ho, hb⟩
  unfold opts at ho
  cases hc : h[a]? with
  | none => simp [hc] at ho
  | some c =>
    simp only [hc, Option.map_some', Option.some.injEq] at ho
    subst ho
    have := hv c (List.mem_iff_getElem?.mpr ⟨a, hc⟩)
    rcases hb with hb | hb
    · exact this.1 b hb
    · exact this.2 b hb

theorem Paired_of_BothOrNone {h : Heap} (hb : BothOrNone h) : Paired (opts h) := by
  intro p o ho
  unfold opts at ho
  cases hc : h[p]? with
  | none => simp [hc] at ho
  | some c =>
    simp only [hc, Option.map_some', Option.some.injEq] at ho
    subst ho
    exact hb c (List.mem_iff_getElem?.mpr ⟨p, hc⟩)

theorem ProcOK_of_AllUnvisited {h : Heap} (hU : AllUnvisited h) : ProcOK h := by
  intro p o hp _
  have hl : p < h.length := (tag_isSome_iff h p).mp ⟨_, hp⟩
  rw [(AllUnvisited_iff_tag h).mp hU p hl] at hp
  cases hp

theorem unvisited_le_length (h : Heap) : unvisited h ≤ h.length :=
  List.countP_le_length _

theorem opts_shape (h : Heap) : opts (shape h) = opts h :=
  opts_eq_of_shape (shape_shape h)

theorem length_shape (h : Heap) : (shape h).length = h.length := by
  simp [shape]

/-- The steps of a successful analysis pass. -/
theorem analysisPass_ok {fuel : Nat} {map : Map} {h h1 : Heap} {v : GraphClass}
    (he : analysisPass fuel map h = .ok (h1, v)) :
    ∃ h0 root, resetGraphState map h = .ok h0 ∧ rootOf map = .ok (some root) ∧
      traverseGraph fuel h0 root = .ok h1 ∧ getGraphClass map h1 = .ok v := by
  unfold analysisPass at he
  cases hr : resetGraphState map h with
  | error e => simp [hr] at he
  | ok h0 =>
    simp only [hr] at he
    cases hroot : rootOf map with
    | error e => simp [hroot] at he
    | ok r =>
      cases r with
      | none => simp [hroot] at he
      | some root =>
        simp only [hroot] at he
        cases ht : traverseGraph fuel h0 root with
        | error e => simp [ht] at he
        | ok h1' =>
          simp only [ht] at he
          cases hg : getGraphClass map h1' with
          | error e => simp [hg] at he
          | ok v' =>
            simp only [hg, Except.ok.injEq, Prod.mk.injEq] at he
            obtain ⟨rfl, rfl⟩ := he
            exact ⟨h0, root, rfl, rfl, ht, hg⟩

theorem analysisPass_of_steps {fuel : Nat} {map : Map} {h h0 h1 : Heap} {root : Nat}
    {v : GraphClass} (hr : resetGraphState map h = .ok h0)
    (hroot : rootOf map = .ok (some root)) (ht : traverseGraph fuel h0 root = .ok h1)
    (hg : getGraphClass map h1 = .ok v) : analysisPass fuel map h = .ok (h1, v) := by
  unfold analysisPass
  simp [hr, hroot, ht, hg]

/-- More fuel does not change the result of the analysis pass. -/
theorem analysisPass_mono {fuel fuel' : Nat} (hle : fuel ≤ fuel') {map : Map} {h : Heap}
    {r : Heap × GraphClass} (he : analysisPass fuel map h = .ok r) :
    analysisPass fuel' map h = .ok r := by
  obtain ⟨h1, v⟩ := r
  obtain ⟨h0, root, hr, hroot, ht, hg⟩ := analysisPass_ok he
  exact analysisPass_of_steps hr hroot (traverseGraph_mono hle ht) hg

/-- On a heap whose chapters are the records of the store the pass runs through. -/
theorem analysisPass_total {map : Map} {h : Heap} {root fuel : Nat}
    (hv : ValidPtrs h) (hst : StoreOK map h) (hall : AllStored map h)
    (hroot : rootOf map = .ok (some root)) (hf : 2 * h.length + 1 ≤ fuel) :
    ∃ h1 v, analysisPass fuel map h = .ok (h1, v) ∧ root < h.length ∧
      Trav (shape h) root h1 ∧ getGraphClass map h1 = .ok v := by
  obtain ⟨h0, hr⟩ := resetGraphStateLoop_total map.entries h hst.2
  have hr' : resetGraphState map h = .ok h0 := hr
  have h0s : h0 = shape h := resetGraphState_eq_shape hall hr'
  subst h0s
  obtain ⟨root', hroot', hlt⟩ := rootOf_of_StoreOK hst
  rw [hroot] at hroot'
  cases hroot'
  have hlen := length_shape h
  have hstep : ∀ a b, Step (opts (shape h)) a b → b < (shape h).length := by
    intro a b hs
    rw [opts_shape] at hs
    rw [hlen]
    exact Step_lt_of_ValidPtrs hv a b hs
  have hun := unvisited_le_length (shape h)
  obtain ⟨h1, ht⟩ := traverseGraph_total fuel (shape h) root hstep (by rw [hlen]; exact hlt)
    (ProcOK_of_AllUnvisited (AllUnvisited_shape h)) (Or.inl (by omega))
  have hT := traverseGraph_Trav _ _ _ _ ht
  obtain ⟨v, hg⟩ := getGraphClass_total (h := h1) hroot
    (by rw [hT.length_eq, hlen]; exact hlt)
    (by rw [hT.length_eq, hlen]; exact hst.2)
  exact ⟨h1, v, analysisPass_of_steps hr' hroot ht hg, hlt, hT, hg⟩

/-- After a call on a heap with every tag `UNVISITED`, no chapter reachable from the
chapter of the call is `UNVISITED`. -/
theorem Trav.reach_visited {h : Heap} {root : Nat} {h' : Heap} (ht : Trav h root h')
    (hU : AllUnvisited h) (hB : Paired (opts h))
    (hv : ∀ a b, Step (opts h) a b → b < h.length) (hroot : root < h.length) :
    ∀ m, Relation.ReflTransGen (Step (opts h)) root m →
      m < h.length ∧ tag h' m ≠ some .UNVISITED := by
  intro m hm
  induction hm with
  | refl => exact ⟨hroot, ht.visited⟩
  | @tail b c _ hs ih =>
    refine ⟨hv _ _ hs, ?_⟩
    exact ht.closed hB b c ((AllUnvisited_iff_tag h).mp hU b ih.1) ih.2 hs

/-- After a call on a heap with every tag `UNVISITED`, the tag of the chapter of the
call is `LEADS_TO_END` exactly when it can reach a node with terminal choices. -/
theorem Trav.root_complete {h : Heap} {root : Nat} {h' : Heap} (ht : Trav h root h')
    (hU : AllUnvisited h) (hB : Paired (opts h))
    (hv : ∀ a b, Step (opts h) a b → b < h.length) (hroot : root < h.length) :
    tag h' root = some .LEADS_TO_END ↔ CanEnd (opts h) root := by
  have htagU := (AllUnvisited_iff_tag h).mp hU
  have hnoL : ∀ m, tag h m ≠ some .LEADS_TO_END := by
    intro m hm
    have hl : m < h.length := (tag_isSome_iff h m).mp ⟨_, hm⟩
    rw [htagU m hl] at hm
    cases hm
  have hJ : Justified h := fun p hp => absurd hp (hnoL p)
  have hS : Sound h := fun p hp => absurd hp (hnoL p)
  constructor
  · intro hL
    have := ht.sound hB hS root hL
    rw [ht.opts_eq] at this
    exact this
  · rintro ⟨t, hreach, hT⟩
    obtain ⟨htl, htU⟩ := ht.reach_visited hU hB hv hroot t hreach
    have hlen := ht.length_eq
    obtain ⟨s, hs⟩ := (tag_isSome_iff h' t).mpr (by rw [hlen]; exact htl)
    have hnD : tag h' t ≠ some .DEAD_END := by
      refine ht.terminal_not_dead ?_ t hT
      intro m _ hm
      have hl : m < h.length := (tag_isSome_iff h m).mp ⟨_, hm⟩
      rw [htagU m hl] at hm
      cases hm
    have hnP : tag h' t ≠ some .PROCESSING := by
      intro hp
      have := ht.processing_of t hp
      rw [htagU t htl] at this
      cases this
    have htL : tag h' t = some .LEADS_TO_END := by
      rw [hs] at htU hnD hnP ⊢
      cases s <;> simp at htU hnD hnP ⊢
    exact ht.leads_up hJ t (hnoL t) htL

/-! ## The claims about the classifier -/

/-- C1: on a well-formed chapter graph (valid choice slots, both terminal or both not)
whose chapters are the records of the store and whose root is the value of the first
entry, the analysis pass returns a class, and that class is `NO_END` if and only if no
node with terminal choices is reachable from the root; the two-node cycle
`A = (B, B)`, `B = (A, A)` is classified `NO_END`. -/
theorem analysisPass_NO_END_iff :
    (∀ (map : Map) (h : Heap) (root fuel : Nat), WellFormed h → StoreOK map h →
      AllStored map h → rootOf map = .ok (some root) → 2 * h.length + 1 ≤ fuel →
      ∃ h1 v, analysisPass fuel map h = .ok (h1, v) ∧
        (v = .NO_END ↔ ¬ CanEnd (opts h) root)) ∧
    (∀ k, (analysisPass (5 + k) (storeOf 2) twoCycle).map Prod.snd = .ok .NO_END) := by
  constructor
  · intro map h root fuel hwf hst hall hroot hf
    obtain ⟨h1, v, hpass, hlt, hT, hg⟩ := analysisPass_total hwf.1 hst hall hroot hf
    refine ⟨h1, v, hpass, ?_⟩
    have hlen := length_shape h
    have hcomp := hT.root_complete (AllUnvisited_shape h)
      (by rw [opts_shape]; exact Paired_of_BothOrNone hwf.2)
      (by
        intro a b hs
        rw [opts_shape] at hs
        rw [hlen]
        exact Step_lt_of_ValidPtrs hwf.1 a b hs)
      (by rw [hlen]; exact hlt)
    rw [opts_shape] at hcomp
    rw [(getGraphClass_ok hroot hg).1]
    exact not_congr hcomp
  · intro k
    have h5 : analysisPass 5 (storeOf 2) twoCycle =
        .ok ([{ node (some 1, some 1) with graph_analyze_state_ := .DEAD_END },
          { node (some 0, some 0) with graph_analyze_state_ := .DEAD_END }], .NO_END) := rfl
    rw [analysisPass_mono (Nat.le_add_right 5 k) h5]
    rfl

/-- The statement of C1 at the two-node cycle. -/
theorem analysisPass_NO_END_iff_witness :
    WellFormed twoCycle ∧ StoreOK (storeOf 2) twoCycle ∧ AllStored (storeOf 2) twoCycle ∧
    ∃ h1 v, analysisPass 5 (storeOf 2) twoCycle = .ok (h1, v) ∧
      (v = .NO_END ↔ ¬ CanEnd (opts twoCycle) 0) :=
  ⟨by decide, by decide, by decide,
    analysisPass_NO_END_iff.1 (storeOf 2) twoCycle 0 5 (by decide) (by decide) (by decide)
      rfl (by decide)⟩

/-- C2: on a well-formed chapter graph whose chapters are the records of the store, every
chapter tagged `LEADS_TO_END` at the end of a pass that yields `POSSIBLE` can reach a
node with terminal choices, and so can every record of the store. -/
theorem analysisPass_POSSIBLE_sound (map : Map) (h : Heap) (fuel : Nat) (h1 : Heap)
    (hwf : WellFormed h) (hall : AllStored map h)
    (hp : analysisPass fuel map h = .ok (h1, .POSSIBLE)) :
    (∀ p, tag h1 p = some .LEADS_TO_END → CanEnd (opts h) p) ∧
    (∀ p ∈ storedPtrs map, CanEnd (opts h) p) := by
  obtain ⟨h0, root, hr, hroot, ht, hg⟩ := analysisPass_ok hp
  have h0s : h0 = shape h := resetGraphState_eq_shape hall hr
  subst h0s
  have hT := traverseGraph_Trav _ _ _ _ ht
  have hnoL : ∀ m, tag (shape h) m ≠ some .LEADS_TO_END := by
    intro m hm
    have hl : m < (shape h).length := (tag_isSome_iff _ m).mp ⟨_, hm⟩
    rw [(AllUnvisited_iff_tag _).mp (AllUnvisited_shape h) m hl] at hm
    cases hm
  have hS : Sound h1 := hT.sound
    (by rw [opts_shape]; exact Paired_of_BothOrNone hwf.2) (fun p hp => absurd hp (hnoL p))
  have hopts : opts h1 = opts h := hT.opts_eq.trans (opts_shape h)
  have hsound : ∀ p, tag h1 p = some .LEADS_TO_END → CanEnd (opts h) p := by
    intro p hpL
    have := hS p hpL
    rw [hopts] at this
    exact this
  refine ⟨hsound, ?_⟩
  intro p hpm
  exact hsound p (((getGraphClass_ok hroot hg).2.mp rfl).2 p hpm)

/-- The statement of C2 at the graph `A = (B, C)`, `B = (A, A)`, `C` terminal. -/
theorem analysisPass_POSSIBLE_sound_witness :
    WellFormed cycleWithExit ∧ AllStored (storeOf 3) cycleWithExit ∧
    analysisPass 7 (storeOf 3) cycleWithExit = .ok (allLeads cycleWithExit, .POSSIBLE) ∧
    (∀ p, tag (allLeads cycleWithExit) p = some .LEADS_TO_END →
      CanEnd (opts cycleWithExit) p) ∧
    (∀ p ∈ storedPtrs (storeOf 3), CanEnd (opts cycleWithExit) p) :=
  ⟨by decide, by decide, rfl,
    analysisPass_POSSIBLE_sound (storeOf 3) cycleWithExit 7 (allLeads cycleWithExit)
      (by decide) (by decide) rfl⟩

/-- C3, evaluated where it fails: on `A = (A, B)`, `B = (C, D)`, `C` terminal,
`D = (A, A)`, a well-formed graph whose chapters are all stored, all reachable from the
root and all able to reach the terminal chapter `C`, the pass yields `HAS_MAZE` and
leaves `D` tagged `DEAD_END`. -/
theorem analysisPass_staleGraph :
    WellFormed staleGraph ∧ AllStored (storeOf 4) staleGraph ∧
    (∀ p, p < staleGraph.length →
      Relation.ReflTransGen (Step (opts staleGraph)) 0 p ∧ CanEnd (opts staleGraph) p) ∧
    (∀ k, ∃ h1, analysisPass (9 + k) (storeOf 4) staleGraph = .ok (h1, .HAS_MAZE) ∧
      tag h1 3 = some .DEAD_END) := by
  have s01 : Step (opts staleGraph) 0 1 := ⟨_, rfl, Or.inr rfl⟩
  have s12 : Step (opts staleGraph) 1 2 := ⟨_, rfl, Or.inl rfl⟩
  have s13 : Step (opts staleGraph) 1 3 := ⟨_, rfl, Or.inr rfl⟩
  have s30 : Step (opts staleGraph) 3 0 := ⟨_, rfl, Or.inl rfl⟩
  have t2 : Terminal (opts staleGraph) 2 := rfl
  have c2 : CanEnd (opts staleGraph) 2 := CanEnd_of_Terminal t2
  have c1 := CanEnd_of_Step s12 c2
  have c0 := CanEnd_of_Step s01 c1
  have c3 := CanEnd_of_Step s30 c0
  have r0 : Relation.ReflTransGen (Step (opts staleGraph)) 0 0 := Relation.ReflTransGen.refl
  have r1 := Relation.ReflTransGen.tail r0 s01
  refine ⟨by decide, by decide, ?_, ?_⟩
  · intro p hp
    have hp4 : p < 4 := hp
    interval_cases p
    · exact ⟨r0, c0⟩
    · exact ⟨r1, c1⟩
    · exact ⟨Relation.ReflTransGen.tail r1 s12, c2⟩
    · exact ⟨Relation.ReflTransGen.tail r1 s13, c3⟩
  · intro k
    obtain ⟨h1, h9, h3⟩ : ∃ h1, analysisPass 9 (storeOf 4) staleGraph = .ok (h1, .HAS_MAZE) ∧
        tag h1 3 = some .DEAD_END := ⟨_, rfl, rfl⟩
    exact ⟨h1, analysisPass_mono (Nat.le_add_right 9 k) h9, h3⟩

/-- C5: the graph `A = (B, C)`, `B = (A, A)`, `C` terminal with root `A` is classified
`POSSIBLE`. -/
theorem analysisPass_cycleWithExit :
    ∀ k, (analysisPass (7 + k) (storeOf 3) cycleWithExit).map Prod.snd = .ok .POSSIBLE := by
  intro k
  obtain ⟨h1, h7⟩ : ∃ h1, analysisPass 7 (storeOf 3) cycleWithExit = .ok (h1, .POSSIBLE) :=
    ⟨_, rfl⟩
  rw [analysisPass_mono (Nat.le_add_right 7 k) h7]
  rfl

/-- C6: the graph `A = (B, C)`, `B = (B, B)`, `C` terminal with root `A` is classified
`HAS_MAZE`. -/
theorem analysisPass_mazeGraph :
    ∀ k, (analysisPass (7 + k) (storeOf 3) mazeGraph).map Prod.snd = .ok .HAS_MAZE := by
  intro k
  obtain ⟨h1, h7⟩ : ∃ h1, analysisPass 7 (storeOf 3) mazeGraph = .ok (h1, .HAS_MAZE) :=
    ⟨_, rfl⟩
  rw [analysisPass_mono (Nat.le_add_right 7 k) h7]
  rfl

/-- C7: on a store that holds every chapter of the heap, a second analysis pass, run on
the heap the first pass returned, yields the heap and the class of the first pass. -/
theorem analysisPass_idempotent (map : Map) (h : Heap) (fuel : Nat) (h1 : Heap)
    (v : GraphClass) (hall : AllStored map h)
    (hp : analysisPass fuel map h = .ok (h1, v)) :
    analysisPass fuel map h1 = .ok (h1, v) := by
  obtain ⟨h0, root, hr, hroot, ht, hg⟩ := analysisPass_ok hp
  have h0s : h0 = shape h := resetGraphState_eq_shape hall hr
  subst h0s
  have hT := traverseGraph_Trav _ _ _ _ ht
  have hsh : shape h1 = shape h := hT.shape_eq.trans (shape_shape h)
  have hlen : h1.length = h.length := length_eq_of_shape hsh
  obtain ⟨_, hok, _, _⟩ := resetGraphStateLoop_ok _ _ _ hr
  obtain ⟨h0', hr1⟩ := resetGraphStateLoop_total map.entries h1 (by rw [hlen]; exact hok)
  have hr1' : resetGraphState map h1 = .ok h0' := hr1
  have hall1 : AllStored map h1 := by
    intro p hpm
    rw [hlen] at hpm
    exact hall p hpm
  have h0s' : h0' = shape h1 := resetGraphState_eq_shape hall1 hr1'
  rw [h0s', hsh] at hr1'
  exact analysisPass_of_steps hr1' hroot ht hg

/-- The statement of C7 at the graph `A = (A, B)`, `B = (C, D)`, `C` terminal,
`D = (A, A)`. -/
theorem analysisPass_idempotent_witness :
    AllStored (storeOf 4) staleGraph ∧
    ∃ h1, analysisPass 9 (storeOf 4) staleGraph = .ok (h1, .HAS_MAZE) ∧
      analysisPass 9 (storeOf 4) h1 = .ok (h1, .HAS_MAZE) :=
  ⟨by decide, _, rfl,
    analysisPass_idempotent (storeOf 4) staleGraph 9 _ .HAS_MAZE (by decide) rfl⟩

/-- C8: on every finite chapter graph whose choice slots point into the graph, cyclic or
not, `traverseGraph` started with all tags `UNVISITED` terminates: there is one heap
that it returns for every bound of at least two nested calls per chapter and one more
(it neither exceeds the bound nor faults).  Each chapter is expanded once, when it
leaves `UNVISITED`, and a chapter met again while `PROCESSING` only descends into an
`UNVISITED` child. -/
theorem traverseGraph_terminates (h : Heap) (root : Nat) (hv : ValidPtrs h)
    (hU : AllUnvisited h) (hroot : root < h.length) :
    ∃ h1, ∀ fuel, 2 * h.length + 1 ≤ fuel → traverseGraph fuel h root = .ok h1 := by
  have hun := unvisited_le_length h
  obtain ⟨h1, h1e⟩ := traverseGraph_total (2 * h.length + 1) h root
    (Step_lt_of_ValidPtrs hv) hroot (ProcOK_of_AllUnvisited hU) (Or.inl (by omega))
  exact ⟨h1, fun fuel hf => traverseGraph_mono hf h1e⟩

/-- The statement of C8 at the two-node cycle. -/
theorem traverseGraph_terminates_witness :
    ValidPtrs twoCycle ∧ AllUnvisited twoCycle ∧ 0 < twoCycle.length ∧
    ∃ h1, ∀ fuel, 2 * twoCycle.length + 1 ≤ fuel → traverseGraph fuel twoCycle 0 = .ok h1 :=
  ⟨by decide, by decide, by decide,
    traverseGraph_terminates twoCycle 0 (by decide) (by decide) (by decide)⟩

theorem chainGraph_Step_lt : ∀ a b, Step (opts chainGraph) a b → a < b := by
  rintro a b ⟨o, ho, hb⟩
  match a with
  | 0 =>
    have : o = (some 1, some 1) := by
      have h0 : opts chainGraph 0 = some (some 1, some 1) := rfl
      rw [h0] at ho
      cases ho; rfl
    subst this
    rcases hb with hb | hb <;> cases hb <;> decide
  | 1 =>
    have : o = (none, none) := by
      have h0 : opts chainGraph 1 = some (none, none) := rfl
      rw [h0] at ho
      cases ho; rfl
    subst this
    rcases hb with hb | hb <;> cases hb
  | n + 2 =>
    have h0 : opts chainGraph (n + 2) = none := rfl
    rw [h0] at ho
    cases ho

theorem chainGraph_Acyclic : Acyclic (opts chainGraph) := by
  have key : ∀ a b, Relation.TransGen (Step (opts chainGraph)) a b → a < b := by
    intro a b hab
    induction hab with
    | single hs => exact chainGraph_Step_lt _ _ hs
    | tail _ hs ih => exact lt_trans ih (chainGraph_Step_lt _ _ hs)
  intro a ha
  exact lt_irrefl a (key a a ha)

/-- C4: on a well-formed chapter graph without cycles whose chapters are the records of
the store and are all reachable from the root, the analysis pass tags every chapter
`LEADS_TO_END` and yields `POSSIBLE`. -/
theorem analysisPass_acyclic (map : Map) (h : Heap) (root fuel : Nat)
    (hwf : WellFormed h) (hac : Acyclic (opts h)) (hst : StoreOK map h)
    (hall : AllStored map h) (hroot : rootOf map = .ok (some root))
    (hreach : ∀ p, p < h.length → Relation.ReflTransGen (Step (opts h)) root p)
    (hf : 2 * h.length + 1 ≤ fuel) :
    ∃ h1, analysisPass fuel map h = .ok (h1, .POSSIBLE) ∧
      ∀ p, p < h.length → tag h1 p = some .LEADS_TO_END := by
  obtain ⟨h1, v, hpass, hlt, hT, hg⟩ := analysisPass_total hwf.1 hst hall hroot hf
  have hlen := length_shape h
  have hU := AllUnvisited_shape h
  have htagU := (AllUnvisited_iff_tag _).mp hU
  have hB : Paired (opts (shape h)) := by
    rw [opts_shape]; exact Paired_of_BothOrNone hwf.2
  have hnot : ∀ (s : GraphNodeStatus), s ≠ .UNVISITED → ∀ m, tag (shape h) m ≠ some s := by
    intro s hs m hm
    have hl : m < (shape h).length := (tag_isSome_iff _ m).mp ⟨_, hm⟩
    rw [htagU m hl] at hm
    cases hm
    exact hs rfl
  obtain ⟨hnD, hrootL, _⟩ := hT.acyclic (by rw [opts_shape]; exact hac) hB
    (hnot _ (by simp)) (fun m hm => absurd hm (hnot _ (by simp) m))
  have hvis := hT.reach_visited hU hB
    (by
      intro a b hs
      rw [opts_shape] at hs
      rw [hlen]
      exact Step_lt_of_ValidPtrs hwf.1 a b hs)
    (by rw [hlen]; exact hlt)
  have htags : ∀ p, p < h.length → tag h1 p = some .LEADS_TO_END := by
    intro p hp
    obtain ⟨_, hpU⟩ := hvis p (by rw [opts_shape]; exact hreach p hp)
    have hpP : tag h1 p ≠ some .PROCESSING := fun hx =>
      hnot _ (by simp) p (hT.processing_of p hx)
    obtain ⟨s, hs⟩ := (tag_isSome_iff h1 p).mpr (by rw [hT.length_eq, hlen]; exact hp)
    have hpD := hnD p
    rw [hs] at hpU hpD hpP ⊢
    cases s <;> simp at hpU hpD hpP ⊢
  have hv : v = .POSSIBLE :=
    (getGraphClass_ok hroot hg).2.mpr
      ⟨hrootL, fun q hq => htags q (storedPtrs_lt hst.2 hq)⟩
  subst hv
  exact ⟨h1, hpass, htags⟩

/-- The statement of C4 at the graph `A = (B, B)`, `B` terminal. -/
theorem analysisPass_acyclic_witness :
    WellFormed chainGraph ∧ Acyclic (opts chainGraph) ∧ StoreOK (storeOf 2) chainGraph ∧
    AllStored (storeOf 2) chainGraph ∧
    (∀ p, p < chainGraph.length → Relation.ReflTransGen (Step (opts chainGraph)) 0 p) ∧
    ∃ h1, analysisPass 5 (storeOf 2) chainGraph = .ok (h1, .POSSIBLE) ∧
      ∀ p, p < chainGraph.length → tag h1 p = some .LEADS_TO_END :=
  have hreach : ∀ p, p < chainGraph.length →
      Relation.ReflTransGen (Step (opts chainGraph)) 0 p := by
    intro p hp
    have hp2 : p < 2 := hp
    interval_cases p
    · exact Relation.ReflTransGen.refl
    · exact Relation.ReflTransGen.single ⟨_, rfl, Or.inl rfl⟩
  ⟨by decide, chainGraph_Acyclic, by decide, by decide, hreach,
    analysisPass_acyclic (storeOf 2) chainGraph 0 5 (by decide) chainGraph_Acyclic
      (by decide) (by decide) rfl hreach (by decide)⟩

/-! ## The store: entries after growing and after a write -/

theorem length_realloc (b : List (Option MapEntry)) (n : Nat) : (realloc b n).length = n := by
  unfold realloc
  simp only [List.length_append, List.length_take, List.length_replicate]
  omega

theorem getElem?_realloc_join (b : List (Option MapEntry)) (n i : Nat) (hi : i < n) :
    ((realloc b n)[i]?).join = (b[i]?).join := by
  unfold realloc
  by_cases hb : i < b.length
  · rw [List.getElem?_append_left (by simp; omega), List.getElem?_take]
    simp [hi]
  · have hb' : b.length ≤ i := Nat.le_of_not_lt hb
    have htake : (List.take n b).length = b.length := by simp; omega
    rw [List.getElem?_append_right (by omega), htake, List.getElem?_eq_none_iff.mpr hb']
    have : i - b.length < n - b.length := by omega
    simp [List.getElem?_replicate, this]

theorem entries_congr (map1 map2 : Map) (hc : map1.count_ = map2.count_)
    (hb : ∀ i, i < map1.count_ → (map1.block[i]?).join = (map2.block[i]?).join) :
    map1.entries = map2.entries := by
  unfold Map.entries
  rw [← hc]
  apply List.map_congr_left
  intro i hi
  exact hb i (List.mem_range.mp hi)

theorem entries_realloc (map : Map) (n : Nat) (hn : map.count_ ≤ n) :
    Map.entries { map with start_entry_ := some (realloc map.block n) } = map.entries := by
  refine entries_congr _ map rfl ?_
  intro i hi
  exact getElem?_realloc_join map.block n i (by simp only at hi; omega)

theorem entries_set (map : Map) (block : List (Option MapEntry)) (en : MapEntry)
    (hs : map.start_entry_ = some block) (hlt : map.count_ < block.length) :
    Map.entries { map with count_ := map.count_ + 1,
                           start_entry_ := some (block.set map.count_ (some en)) } =
      map.entries ++ [some en] := by
  have hblock : map.block = block := by simp [Map.block, hs]
  unfold Map.entries
  simp only [Map.block, Option.getD_some]
  rw [List.range_succ, List.map_append]
  congr 1
  · apply List.map_congr_left
    intro i hi
    have hne : map.count_ ≠ i := by
      have := List.mem_range.mp hi
      omega
    rw [List.getElem?_set_ne hne]
    simp [hs]
  · simp [List.getElem?_set_self hlt]

/-! ## The store: `areEqual` -/

theorem min_comm (a b : Nat) : Ass2.min a b = Ass2.min b a := by
  unfold Ass2.min
  split <;> split <;> omega

theorem min_self (a : Nat) : Ass2.min a a = a := by
  unfold Ass2.min
  simp

theorem memcmp_comm (a b : List Nat) (n : Nat) : memcmp a b n = memcmp b a n := by
  unfold memcmp
  by_cases e : a.take n = b.take n
  · simp [e]
  · have e2 : ¬ b.take n = a.take n := fun x => e x.symm
    simp [e, e2]

theorem areEqualChapters_comm {a b : Chapter} {r : Nat} (he : areEqualChapters a b = .ok r) :
    areEqualChapters b a = .ok r := by
  unfold areEqualChapters at he ⊢
  cases ha : strlen a.title_ a.text_ with
  | error e => simp [ha] at he
  | ok la =>
    cases hb : strlen b.title_ b.text_ with
    | error e => simp [ha, hb] at he
    | ok lb =>
      simp only [ha, hb, Except.ok.injEq] at he ⊢
      rw [← he, memcmp_comm, min_comm]
      by_cases e : la = lb
      · simp [e]
      · have e2 : ¬ lb = la := fun x => e x.symm
        simp [e, e2]

theorem areEqualChapters_bit {a b : Chapter} {r : Nat} (he : areEqualChapters a b = .ok r) :
    r = 0 ∨ r = 1 := by
  unfold areEqualChapters at he
  cases ha : strlen a.title_ a.text_ with
  | error e => simp [ha] at he
  | ok la =>
    cases hb : strlen b.title_ b.text_ with
    | error e => simp [ha, hb] at he
    | ok lb =>
      simp only [ha, hb, Except.ok.injEq] at he
      rw [← he]
      split <;> simp

/-- A successful `areEqual` has read two chapters. -/
theorem areEqual_ok {h : Heap} {x y : Option Nat} {r : Nat} (he : areEqual h x y = .ok r) :
    ∃ p q a b, x = some p ∧ y = some q ∧ h[p]? = some a ∧ h[q]? = some b ∧
      areEqualChapters a b = .ok r := by
  unfold areEqual deref at he
  cases x with
  | none => simp at he
  | some p =>
    cases hp : h[p]? with
    | none => simp [hp] at he
    | some a =>
      cases y with
      | none => simp [hp] at he
      | some q =>
        cases hq : h[q]? with
        | none => simp [hp, hq] at he
        | some b =>
          simp only [hp, hq] at he
          exact ⟨p, q, a, b, rfl, rfl, hp, hq, he⟩

theorem areEqual_of_chapters {h : Heap} {p q : Nat} {a b : Chapter}
    (hp : h[p]? = some a) (hq : h[q]? = some b) :
    areEqual h (some p) (some q) = areEqualChapters a b := by
  unfold areEqual deref
  simp [hp, hq]

theorem areEqual_comm {h : Heap} {x y : Option Nat} {r : Nat} (he : areEqual h x y = .ok r) :
    areEqual h y x = .ok r := by
  obtain ⟨p, q, a, b, rfl, rfl, hp, hq, hab⟩ := areEqual_ok he
  rw [areEqual_of_chapters hq hp]
  exact areEqualChapters_comm hab

theorem areEqual_bit {h : Heap} {x y : Option Nat} {r : Nat} (he : areEqual h x y = .ok r) :
    r = 0 ∨ r = 1 := by
  obtain ⟨p, q, a, b, _, _, _, _, hab⟩ := areEqual_ok he
  exact areEqualChapters_bit hab

theorem areEqualChapters_congr {a a2 b b2 : Chapter} (ha : a2.title_ = a.title_)
    (ha' : a2.text_ = a.text_) (hb : b2.title_ = b.title_) (hb' : b2.text_ = b.text_) :
    areEqualChapters a2 b2 = areEqualChapters a b := by
  unfold areEqualChapters
  rw [ha, ha', hb, hb']

/-- Content-equal chapters compare alike with every chapter. -/
theorem areEqualChapters_ContentEqual {a b : Chapter} (hab : ContentEqual a b) (x : Chapter) :
    areEqualChapters x a = areEqualChapters x b := by
  obtain ⟨n, hna, hnb, htext, htake⟩ := hab
  unfold areEqualChapters
  cases hx : strlen x.title_ x.text_ with
  | error e => rfl
  | ok lx =>
    simp only [hna, hnb]
    have hm : memcmp x.title_ a.title_ (Ass2.min (x.text_ + lx) (a.text_ + n)) =
        memcmp x.title_ b.title_ (Ass2.min (x.text_ + lx) (b.text_ + n)) := by
      rw [← htext]
      unfold memcmp
      have hle : Ass2.min (x.text_ + lx) (a.text_ + n) ≤ a.text_ + n := by
        unfold Ass2.min; split <;> omega
      have e : List.take (Ass2.min (x.text_ + lx) (a.text_ + n)) a.title_ =
          List.take (Ass2.min (x.text_ + lx) (a.text_ + n)) b.title_ := by
        have h1 := congrArg (List.take (Ass2.min (x.text_ + lx) (a.text_ + n))) htake
        rw [List.take_take, List.take_take, ← htext, Nat.min_eq_left hle] at h1
        exact h1
      rw [e]
    rw [hm]

theorem areEqualChapters_self_of_ContentEqual {a b : Chapter} (hab : ContentEqual a b) :
    areEqualChapters a b = .ok 1 := by
  obtain ⟨n, hna, hnb, htext, htake⟩ := hab
  unfold areEqualChapters
  simp only [hna, hnb]
  rw [← htext, min_self]
  unfold memcmp
  rw [htext] at htake ⊢
  simp [htake]

/-! ## The store: the search loops and the insertion -/

/-- What a successful run of the loop of `getEqualChapter` has found: no entry with an
equal chapter, or the first one. -/
theorem getEqualChapterLoop_ok (h : Heap) (chapter : Option Nat) :
    ∀ (es : List (Option MapEntry)) (dup : Option Nat),
      getEqualChapterLoop h chapter es = .ok dup →
      (dup = none ∧ ∀ e ∈ es, ∃ en, e = some en ∧ areEqual h en.value_ chapter = .ok 0) ∨
      (∃ pre en post p, es = pre ++ some en :: post ∧ dup = some p ∧ en.value_ = some p ∧
        areEqual h (some p) chapter = .ok 1 ∧
        ∀ e ∈ pre, ∃ en1, e = some en1 ∧ areEqual h en1.value_ chapter = .ok 0) := by
  intro es
  induction es with
  | nil =>
    intro dup he
    simp only [getEqualChapterLoop, Except.ok.injEq] at he
    left
    exact ⟨he.symm, by simp⟩
  | cons e es ih =>
    intro dup he
    cases e with
    | none => simp [getEqualChapterLoop] at he
    | some en =>
      simp only [getEqualChapterLoop] at he
      cases hr : areEqual h en.value_ chapter with
      | error x => simp [hr] at he
      | ok r =>
        simp only [hr] at he
        by_cases h0 : r = 0
        · subst h0
          simp only [ne_eq, not_true_eq_false, if_false] at he
          rcases ih dup he with ⟨hd, hall⟩ | ⟨pre, en2, post, p, hes, hd, hv, hp, hall⟩
          · left
            refine ⟨hd, ?_⟩
            intro e he'
            rcases List.mem_cons.mp he' with rfl | he'
            · exact ⟨en, rfl, hr⟩
            · exact hall e he'
          · right
            refine ⟨some en :: pre, en2, post, p, by simp [hes], hd, hv, hp, ?_⟩
            intro e he'
            rcases List.mem_cons.mp he' with rfl | he'
            · exact ⟨en, rfl, hr⟩
            · exact hall e he'
        · simp only [ne_eq, h0, not_false_eq_true, if_true, Except.ok.injEq] at he
          obtain ⟨p, q, a, b, hv, _, _, _, _⟩ := areEqual_ok hr
          have h1 : r = 1 := by
            rcases areEqual_bit hr with x | x
            · exact absurd x h0
            · exact x
          right
          refine ⟨[], en, es, p, rfl, by rw [← he, hv], hv, ?_, by simp⟩
          rw [← hv, hr, h1]

theorem getEqualChapterLoop_congr (h : Heap) (c1 c2 : Option Nat)
    (hc : ∀ x, areEqual h x c1 = areEqual h x c2) :
    ∀ es, getEqualChapterLoop h c1 es = getEqualChapterLoop h c2 es := by
  intro es
  induction es with
  | nil => rfl
  | cons e es ih =>
    cases e with
    | none => rfl
    | some en =>
      simp only [getEqualChapterLoop]
      rw [hc, ih]

theorem getEqualChapterLoop_append_some (h : Heap) (chapter : Option Nat) (p : Nat) :
    ∀ (es rest : List (Option MapEntry)),
      getEqualChapterLoop h chapter es = .ok (some p) →
      getEqualChapterLoop h chapter (es ++ rest) = .ok (some p) := by
  intro es
  induction es with
  | nil => intro rest he; simp [getEqualChapterLoop] at he
  | cons e es ih =>
    intro rest he
    cases e with
    | none => simp [getEqualChapterLoop] at he
    | some en =>
      simp only [getEqualChapterLoop, List.cons_append] at he ⊢
      cases hr : areEqual h en.value_ chapter with
      | error x => simp [hr] at he
      | ok r =>
        simp only [hr] at he ⊢
        by_cases h0 : r = 0
        · subst h0
          simp only [ne_eq, not_true_eq_false, if_false] at he ⊢
          exact ih rest he
        · simpa [h0] using he

theorem getEqualChapterLoop_append_none (h : Heap) (chapter : Option Nat) :
    ∀ (es rest : List (Option MapEntry)),
      getEqualChapterLoop h chapter es = .ok none →
      getEqualChapterLoop h chapter (es ++ rest) = getEqualChapterLoop h chapter rest := by
  intro es
  induction es with
  | nil => intro rest _; rfl
  | cons e es ih =>
    intro rest he
    cases e with
    | none => simp [getEqualChapterLoop] at he
    | some en =>
      simp only [getEqualChapterLoop, List.cons_append] at he ⊢
      cases hr : areEqual h en.value_ chapter with
      | error x => simp [hr] at he
      | ok r =>
        simp only [hr] at he ⊢
        by_cases h0 : r = 0
        · subst h0
          simp only [ne_eq, not_true_eq_false, if_false] at he ⊢
          exact ih rest he
        · exfalso
          simp only [ne_eq, h0, not_false_eq_true, if_true, Except.ok.injEq] at he
          obtain ⟨p, _, _, _, hv, _⟩ := areEqual_ok hr
          rw [hv] at he
          cases he

theorem getChapterFromMapLoop_append (filename : List Nat) :
    ∀ (es rest : List (Option MapEntry)),
      (∀ e ∈ es, keyDiffers filename e = true) →
      getChapterFromMapLoop filename (es ++ rest) = getChapterFromMapLoop filename rest := by
  intro es
  induction es with
  | nil => intro rest _; rfl
  | cons e es ih =>
    intro rest hk
    have he := hk e (List.mem_cons_self _ _)
    cases e with
    | none => simp [keyDiffers] at he
    | some en =>
      have hne : ¬ strcmp en.key_ filename = 0 := by simpa [keyDiffers] using he
      simp only [getChapterFromMapLoop, List.cons_append, hne, if_false]
      exact ih rest (fun e he' => hk e (List.mem_cons_of_mem _ he'))

/-- What a successful `resizeMap` returns. -/
theorem resizeMapLoop_ok (alloc : Nat → Bool) (map : Map) (error : Nat) :
    ∀ (fuel size n : Nat) (map1 : Map) (error1 : Nat),
      resizeMapLoop alloc map error fuel size = .ok (n, map1, error1) →
      (n = 0 ∧ map1 = map ∧ error1 = ERR_OUT_OF_MEMORY) ∨
      (map1 = { map with start_entry_ := some (realloc map.block (map.length_ + n)) } ∧
        error1 = error) := by
  intro fuel
  induction fuel with
  | zero => intro size n map1 error1 he; simp [resizeMapLoop] at he
  | succ fuel ih =>
    intro size n map1 error1 he
    simp only [resizeMapLoop] at he
    by_cases ha : alloc (map.length_ + size) = true
    · simp only [ha, if_true, Except.ok.injEq, Prod.mk.injEq] at he
      obtain ⟨rfl, rfl, rfl⟩ := he
      exact Or.inr ⟨rfl, rfl⟩
    · simp only [ha, Bool.false_eq_true, if_false] at he
      by_cases h1 : size = 1
      · simp only [h1, if_true, Except.ok.injEq, Prod.mk.injEq] at he
        obtain ⟨rfl, rfl, rfl⟩ := he
        exact Or.inl ⟨rfl, rfl, rfl⟩
      · simp only [h1, if_false] at he
        exact ih _ _ _ _ he

/-- What a successful write of the new entry has done. -/
theorem insertChapterIntoMapEntry_ok {h : Heap} {map : Map} {filename : List Nat}
    {chapter : Option Nat} {error : Nat} {r : Option Nat} {map1 : Map} {error1 : Nat}
    (he : insertChapterIntoMapEntry h map filename chapter error = .ok (r, map1, error1)) :
    error1 = error ∧
    (∃ block, map.start_entry_ = some block ∧ map.count_ < block.length) ∧
    map1.entries = map.entries ++ [some ⟨filename, r⟩] ∧
    ∃ dup, getEqualChapterLoop h chapter map.entries = .ok dup ∧
      r = (match dup with
        | some d => some d
        | none => chapter) := by
  unfold insertChapterIntoMapEntry getEqualChapter at he
  cases hd : getEqualChapterLoop h chapter map.entries with
  | error e => simp [hd] at he
  | ok dup =>
    simp only [hd] at he
    cases hs : map.start_entry_ with
    | none => simp [hs] at he
    | some block =>
      simp only [hs] at he
      by_cases hlt : map.count_ < block.length
      · simp only [hlt, if_true, Except.ok.injEq, Prod.mk.injEq] at he
        obtain ⟨rfl, rfl, rfl⟩ := he
        refine ⟨rfl, ⟨block, rfl, hlt⟩, ?_, dup, rfl, rfl⟩
        exact entries_set map block _ hs hlt
      · simp [hlt] at he

/-- What a successful `insertChapterIntoMap` has done: it has appended one entry with the
given key, whose value is the returned record, and the returned record is the result of
the search for an equal chapter or, if there is none, the candidate. -/
theorem insertChapterIntoMap_ok {alloc : Nat → Bool} {h : Heap} {map : Map}
    {filename : List Nat} {chapter : Option Nat} {error : Nat} {p : Nat} {map1 : Map}
    {error1 : Nat}
    (he : insertChapterIntoMap alloc h map filename chapter error = .ok (some p, map1, error1)) :
    error = 0 ∧ error1 = 0 ∧
    map1.entries = map.entries ++ [some ⟨filename, some p⟩] ∧
    ∃ dup, getEqualChapterLoop h chapter map.entries = .ok dup ∧
      some p = (match dup with
        | some d => some d
        | none => chapter) := by
  unfold insertChapterIntoMap at he
  by_cases herr : error = 0
  · subst herr
    simp only [ne_eq, not_true_eq_false, if_false] at he
    by_cases hfull : map.count_ ≥ map.length_
    · simp only [hfull, if_true] at he
      cases hr : resizeMap alloc map MAP_MALLOC_INTERVALL 0 with
      | error e => simp [hr] at he
      | ok res =>
        obtain ⟨size, map2, error2⟩ := res
        simp only [hr] at he
        by_cases hz : size = 0
        · simp [hz] at he
        · simp only [hz, if_false] at he
          obtain ⟨herr1, ⟨block, hblock, hlt⟩, hentries, dup, hdup, hp⟩ :=
            insertChapterIntoMapEntry_ok he
          rcases resizeMapLoop_ok alloc map 0 _ _ _ _ _ hr with
            ⟨hsz, _, _⟩ | ⟨hmap2, herr2⟩
          · exact absurd hsz hz
          · subst hmap2
            simp only [Option.some.injEq] at hblock
            subst hblock
            rw [length_realloc] at hlt
            have hent := entries_realloc map (map.length_ + size) (Nat.le_of_lt hlt)
            rw [hent] at hentries hdup
            exact ⟨rfl, by rw [herr1, herr2], hentries, dup, hdup, hp⟩
    · simp only [hfull, if_false] at he
      obtain ⟨herr1, _, hentries, dup, hdup, hp⟩ := insertChapterIntoMapEntry_ok he
      exact ⟨rfl, herr1, hentries, dup, hdup, hp⟩
  · simp [herr] at he

/-! ## The claims about the store -/

theorem entries_of_count_zero {map : Map} (hc : map.count_ = 0) : map.entries = [] := by
  unfold Map.entries
  rw [hc]
  rfl

theorem mem_storedPtrs {map : Map} {en : MapEntry} {p : Nat} (he : some en ∈ map.entries)
    (hv : en.value_ = some p) : p ∈ storedPtrs map := by
  unfold storedPtrs
  exact List.mem_filterMap.mpr ⟨some en, he, by simp [hv]⟩

theorem Dedup_of_TextStable {h1 h2 : Heap} {map : Map} (hd : Dedup h1 map)
    (hs : TextStable h1 h2 map) : Dedup h2 map := by
  intro e1 he1 e2 he2 en1 en2 h1e h2e
  subst h1e h2e
  rcases hd _ he1 _ he2 en1 en2 rfl rfl with hsame | heq
  · exact Or.inl hsame
  · right
    obtain ⟨p, q, a, b, hv1, hv2, hp, hq, hab⟩ := areEqual_ok heq
    obtain ⟨a2, hp2, hat, hax⟩ := hs p (mem_storedPtrs he1 hv1) a hp
    obtain ⟨b2, hq2, hbt, hbx⟩ := hs q (mem_storedPtrs he2 hv2) b hq
    rw [hv1, hv2, areEqual_of_chapters hp2 hq2, areEqualChapters_congr hat hax hbt hbx]
    exact hab

theorem Dedup_insert {alloc : Nat → Bool} {h : Heap} {map : Map} {filename : List Nat}
    {chapter : Option Nat} {error : Nat} {p : Nat} {map1 : Map} {error1 : Nat}
    (hd : Dedup h map)
    (he : insertChapterIntoMap alloc h map filename chapter error = .ok (some p, map1, error1)) :
    Dedup h map1 := by
  obtain ⟨_, _, hent, dup, hdup, hp⟩ := insertChapterIntoMap_ok he
  have hnew : ∀ e ∈ map.entries, ∀ en, e = some en →
      en.value_ = some p ∨ areEqual h en.value_ (some p) = .ok 0 := by
    intro e hem en hen
    subst hen
    rcases getEqualChapterLoop_ok h chapter _ _ hdup with
      ⟨hnone, hall⟩ | ⟨pre, en2, post, q, hes, hsome, hv, _, _⟩
    · subst hnone
      simp only at hp
      obtain ⟨en', hen', h0⟩ := hall _ hem
      cases hen'
      right
      rw [hp]
      exact h0
    · subst hsome
      simp only [Option.some.injEq] at hp
      subst hp
      have hmem2 : some en2 ∈ map.entries := by
        rw [hes]
        simp
      rcases hd _ hem _ hmem2 en en2 rfl rfl with hsame | heq
      · left; rw [hsame, hv]
      · right; rw [← hv]; exact heq
  intro e1 he1 e2 he2 en1 en2 h1e h2e
  subst h1e h2e
  rw [hent] at he1 he2
  rcases List.mem_append.mp he1 with ho1 | hn1
  · rcases List.mem_append.mp he2 with ho2 | hn2
    · exact hd _ ho1 _ ho2 en1 en2 rfl rfl
    · simp only [List.mem_singleton, Option.some.injEq] at hn2
      subst hn2
      exact hnew _ ho1 en1 rfl
  · simp only [List.mem_singleton, Option.some.injEq] at hn1
    subst hn1
    rcases List.mem_append.mp he2 with ho2 | hn2
    · rcases hnew _ ho2 en2 rfl with hsame | heq
      · exact Or.inl hsame.symm
      · exact Or.inr (areEqual_comm heq)
    · simp only [List.mem_singleton, Option.some.injEq] at hn2
      subst hn2
      exact Or.inl rfl

/-- C9: in every store built from an empty store by successful calls of
`insertChapterIntoMap`, any two entries hold the same record or two records for which
`areEqual` is 0; and every successful insert keeps this. -/
theorem insertChapterIntoMap_Dedup :
    (∀ (h : Heap) (map : Map), Built h map → Dedup h map) ∧
    (∀ (alloc : Nat → Bool) (h : Heap) (map : Map) (filename : List Nat)
      (chapter : Option Nat) (error p : Nat) (map1 : Map) (error1 : Nat),
      Dedup h map →
      insertChapterIntoMap alloc h map filename chapter error = .ok (some p, map1, error1) →
      Dedup h map1) := by
  constructor
  · intro h map hb
    induction hb with
    | empty h map hc =>
      intro e1 he1
      rw [entries_of_count_zero hc] at he1
      cases he1
    | heap h1 h2 map _ hs ih => exact Dedup_of_TextStable ih hs
    | insert alloc h map filename chapter error p map1 error1 _ he ih =>
      exact Dedup_insert ih he
  · intro alloc h map filename chapter error p map1 error1 hd he
    exact Dedup_insert hd he

/-- The statement of C9 at a store built by two inserts of chapters with the same text. -/
theorem insertChapterIntoMap_Dedup_witness :
    Built dupHeap (storeWith [⟨[1], some 0⟩, ⟨[2], some 0⟩]) ∧
    Dedup dupHeap (storeWith [⟨[1], some 0⟩, ⟨[2], some 0⟩]) :=
  have hb : Built dupHeap (storeWith [⟨[1], some 0⟩, ⟨[2], some 0⟩]) :=
    Built.insert allocAlways dupHeap (storeWith [⟨[1], some 0⟩]) [2] (some 1) 0 0 _ 0
      (Built.insert allocAlways dupHeap (storeWith []) [1] (some 0) 0 0 _ 0
        (Built.empty dupHeap (storeWith []) rfl) rfl) rfl
  ⟨hb, insertChapterIntoMap_Dedup.1 dupHeap _ hb⟩

theorem getChapterFromMap_after_insert {map map1 : Map} {filename : List Nat} {v : Option Nat}
    (hent : map1.entries = map.entries ++ [some ⟨filename, v⟩])
    (hk : KeyAbsent map filename) : getChapterFromMap map1 filename = .ok v := by
  unfold getChapterFromMap
  rw [hent, getChapterFromMapLoop_append filename _ _ hk]
  simp [getChapterFromMapLoop, strcmp]

/-- C10: a successful `insertChapterIntoMap` appends one entry with the given key whose
value is the returned record; the returned record is the first stored record, in
insertion order, for which `areEqual` with the candidate is 1 if there is one, and the
candidate otherwise; a key that was absent is then looked up to the returned record.
Hence two successful inserts of content-equal chapters under two different absent keys
leave both keys looked up to one and the same record. -/
theorem insertChapterIntoMap_returns :
    (∀ (alloc : Nat → Bool) (h : Heap) (map : Map) (filename : List Nat)
      (chapter : Option Nat) (error p : Nat) (map1 : Map) (error1 : Nat),
      insertChapterIntoMap alloc h map filename chapter error = .ok (some p, map1, error1) →
      map1.entries = map.entries ++ [some ⟨filename, some p⟩] ∧
      ((∃ pre en post, map.entries = pre ++ some en :: post ∧ en.value_ = some p ∧
          areEqual h (some p) chapter = .ok 1 ∧
          ∀ e ∈ pre, ∃ en1, e = some en1 ∧ areEqual h en1.value_ chapter = .ok 0) ∨
        (chapter = some p ∧
          ∀ e ∈ map.entries, ∃ en1, e = some en1 ∧ areEqual h en1.value_ chapter = .ok 0)) ∧
      (KeyAbsent map filename → getChapterFromMap map1 filename = .ok (some p))) ∧
    (∀ (alloc1 alloc2 : Nat → Bool) (h : Heap) (map map1 map2 : Map) (id1 id2 : List Nat)
      (c1 c2 : Nat) (a b : Chapter) (error error1 error2 p1 p2 : Nat),
      h[c1]? = some a → h[c2]? = some b → ContentEqual a b → id1 ≠ id2 →
      KeyAbsent map id1 → KeyAbsent map id2 →
      insertChapterIntoMap alloc1 h map id1 (some c1) error = .ok (some p1, map1, error1) →
      insertChapterIntoMap alloc2 h map1 id2 (some c2) error1 = .ok (some p2, map2, error2) →
      getChapterFromMap map2 id1 = .ok (some p1) ∧
      getChapterFromMap map2 id2 = .ok (some p1)) := by
  constructor
  · intro alloc h map filename chapter error p map1 error1 he
    obtain ⟨_, _, hent, dup, hdup, hp⟩ := insertChapterIntoMap_ok he
    refine ⟨hent, ?_, fun hk => getChapterFromMap_after_insert hent hk⟩
    rcases getEqualChapterLoop_ok h chapter _ _ hdup with
      ⟨hnone, hall⟩ | ⟨pre, en, post, q, hes, hsome, hv, hq, hall⟩
    · subst hnone
      exact Or.inr ⟨hp.symm, hall⟩
    · subst hsome
      simp only [Option.some.injEq] at hp
      subst hp
      exact Or.inl ⟨pre, en, post, hes, hv, hq, hall⟩
  · intro alloc1 alloc2 h map map1 map2 id1 id2 c1 c2 a b error error1 error2 p1 p2
      hc1 hc2 hab hid hk1 hk2 he1 he2
    obtain ⟨_, _, hent1, dup1, hdup1, hp1⟩ := insertChapterIntoMap_ok he1
    obtain ⟨_, _, hent2, dup2, hdup2, hp2⟩ := insertChapterIntoMap_ok he2
    have hcongr : ∀ x, areEqual h x (some c1) = areEqual h x (some c2) := by
      intro x
      unfold areEqual
      cases hx : deref h x with
      | error e => rfl
      | ok xc =>
        simp only [deref, hc1, hc2]
        exact areEqualChapters_ContentEqual hab xc
    rw [hent1, ← getEqualChapterLoop_congr h _ _ hcongr] at hdup2
    have hp21 : p2 = p1 := by
      cases dup1 with
      | some d =>
        simp only [Option.some.injEq] at hp1
        subst hp1
        rw [getEqualChapterLoop_append_some h _ _ _ _ hdup1] at hdup2
        cases hdup2
        simp only [Option.some.injEq] at hp2
        exact hp2
      | none =>
        simp only [Option.some.injEq] at hp1
        subst hp1
        rw [getEqualChapterLoop_append_none h _ _ _ hdup1] at hdup2
        have hself : areEqual h (some p1) (some p1) = .ok 1 := by
          rw [hcongr, areEqual_of_chapters hc1 hc2]
          exact areEqualChapters_self_of_ContentEqual hab
        simp only [getEqualChapterLoop, hself] at hdup2
        simp only [ne_eq, one_ne_zero, not_false_eq_true, if_true, Except.ok.injEq] at hdup2
        subst hdup2
        simp only [Option.some.injEq] at hp2
        exact hp2
    subst hp21
    have hk21 : KeyAbsent map1 id2 := by
      intro e he
      rw [hent1] at he
      rcases List.mem_append.mp he with ho | hn
      · exact hk2 e ho
      · simp only [List.mem_singleton] at hn
        subst hn
        simp [keyDiffers, strcmp, hid]
    refine ⟨?_, getChapterFromMap_after_insert hent2 hk21⟩
    unfold getChapterFromMap
    rw [hent2, hent1, List.append_assoc, getChapterFromMapLoop_append id1 _ _ hk1]
    simp [getChapterFromMapLoop, strcmp]

/-- The statement of C10 at two inserts of chapters with the same text into an empty
store. -/
theorem insertChapterIntoMap_returns_witness :
    ContentEqual (chapterOf [65, 0, 45, 0, 45, 0, 120, 0] 6)
      (chapterOf [65, 0, 45, 0, 45, 0, 120, 0] 6) ∧
    insertChapterIntoMap allocAlways dupHeap (storeWith []) [1] (some 0) 0 =
      .ok (some 0, storeWith [⟨[1], some 0⟩], 0) ∧
    insertChapterIntoMap allocAlways dupHeap (storeWith [⟨[1], some 0⟩]) [2] (some 1) 0 =
      .ok (some 0, storeWith [⟨[1], some 0⟩, ⟨[2], some 0⟩], 0) ∧
    getChapterFromMap (storeWith [⟨[1], some 0⟩, ⟨[2], some 0⟩]) [1] = .ok (some 0) ∧
    getChapterFromMap (storeWith [⟨[1], some 0⟩, ⟨[2], some 0⟩]) [2] = .ok (some 0) :=
  have hce : ContentEqual (chapterOf [65, 0, 45, 0, 45, 0, 120, 0] 6)
      (chapterOf [65, 0, 45, 0, 45, 0, 120, 0] 6) := ⟨1, rfl, rfl, rfl, rfl⟩
  ⟨hce, rfl, rfl,
    insertChapterIntoMap_returns.2 allocAlways allocAlways dupHeap (storeWith [])
      (storeWith [⟨[1], some 0⟩]) (storeWith [⟨[1], some 0⟩, ⟨[2], some 0⟩]) [1] [2] 0 1
      _ _ 0 0 0 0 0 rfl rfl hce (by decide) (by decide) (by decide) rfl rfl⟩

/-! ## The claims about lookup, growth and validation -/

/-- C13: in a store whose entries can be read and hold records, `getChapterFromMap`
returns the record of the first entry, in insertion order, whose key is string-equal to
the identifier, and returns null exactly when no entry among the first `count_` entries
has that key.  The function only reads the store: its result is a pointer. -/
theorem getChapterFromMap_first (map : Map) (filename : List Nat) (hok : EntriesOK map) :
    (∃ pre en post p, map.entries = pre ++ some en :: post ∧
        (∀ e ∈ pre, keyDiffers filename e = true) ∧ strcmp en.key_ filename = 0 ∧
        en.value_ = some p ∧ getChapterFromMap map filename = .ok (some p)) ∨
    (KeyAbsent map filename ∧ getChapterFromMap map filename = .ok none) := by
  unfold getChapterFromMap KeyAbsent
  unfold EntriesOK at hok
  generalize map.entries = es at hok
  induction es with
  | nil => right; exact ⟨by simp, rfl⟩
  | cons e es ih =>
    have he := hok e (List.mem_cons_self _ _)
    cases e with
    | none => simp [holdsRecord] at he
    | some en =>
      by_cases hk : strcmp en.key_ filename = 0
      · left
        cases hv : en.value_ with
        | none => simp [holdsRecord, hv] at he
        | some p =>
          exact ⟨[], en, es, p, rfl, by simp, hk, hv, by simp [getChapterFromMapLoop, hk, hv]⟩
      · have hd : keyDiffers filename (some en) = true := by simp [keyDiffers, hk]
        rcases ih (fun e he' => hok e (List.mem_cons_of_mem _ he')) with
          ⟨pre, en2, post, p, hes, hpre, hk2, hv2, hres⟩ | ⟨habs, hres⟩
        · left
          refine ⟨some en :: pre, en2, post, p, by simp [hes], ?_, hk2, hv2, ?_⟩
          · intro e he'
            rcases List.mem_cons.mp he' with rfl | he'
            · exact hd
            · exact hpre e he'
          · simp only [getChapterFromMapLoop, hk, if_false]
            exact hres
        · right
          refine ⟨?_, ?_⟩
          · intro e he'
            rcases List.mem_cons.mp he' with rfl | he'
            · exact hd
            · exact habs e he'
          · simp only [getChapterFromMapLoop, hk, if_false]
            exact hres

/-- The statement of C13 at a store with two entries. -/
theorem getChapterFromMap_first_witness :
    EntriesOK (storeWith [⟨[1], some 0⟩, ⟨[2], some 0⟩]) ∧
    ((∃ pre en post p, (storeWith [⟨[1], some 0⟩, ⟨[2], some 0⟩]).entries =
          pre ++ some en :: post ∧
        (∀ e ∈ pre, keyDiffers [2] e = true) ∧ strcmp en.key_ [2] = 0 ∧
        en.value_ = some p ∧
        getChapterFromMap (storeWith [⟨[1], some 0⟩, ⟨[2], some 0⟩]) [2] = .ok (some p)) ∨
    (KeyAbsent (storeWith [⟨[1], some 0⟩, ⟨[2], some 0⟩]) [2] ∧
      getChapterFromMap (storeWith [⟨[1], some 0⟩, ⟨[2], some 0⟩]) [2] = .ok none)) :=
  ⟨by decide, getChapterFromMap_first _ [2] (by decide)⟩

/-- The loop of `resizeMap` started at `s`: it returns the first of `s`, `s / 2`,
`s / 4`, ... down to 1 whose allocation succeeds, with the block grown by it, or 0 with
`ERR_OUT_OF_MEMORY` when all of them are refused. -/
theorem resizeMapLoop_spec (alloc : Nat → Bool) (map : Map) (error : Nat) :
    ∀ (fuel s : Nat), 1 ≤ s → s ≤ fuel →
      (∃ k, 1 ≤ s / 2 ^ k ∧ alloc (map.length_ + s / 2 ^ k) = true ∧
        (∀ j, j < k → alloc (map.length_ + s / 2 ^ j) = false) ∧
        resizeMapLoop alloc map error fuel s =
          .ok (s / 2 ^ k,
            { map with
              start_entry_ := some (realloc map.block (map.length_ + s / 2 ^ k)) },
            error)) ∨
      ((∀ k, 1 ≤ s / 2 ^ k → alloc (map.length_ + s / 2 ^ k) = false) ∧
        resizeMapLoop alloc map error fuel s = .ok (0, map, ERR_OUT_OF_MEMORY)) := by
  intro fuel
  induction fuel with
  | zero => intro s h1 h2; omega
  | succ fuel ih =>
    intro s h1 h2
    by_cases ha : alloc (map.length_ + s) = true
    · left
      refine ⟨0, by simpa using h1, by simpa using ha, by simp, ?_⟩
      simp [resizeMapLoop, ha]
    · have haf : alloc (map.length_ + s) = false := by simpa using ha
      by_cases hs1 : s = 1
      · right
        subst hs1
        refine ⟨?_, by simp [resizeMapLoop, haf]⟩
        intro k hk
        cases k with
        | zero => simpa using haf
        | succ k =>
          exfalso
          have : 1 / 2 ^ (k + 1) = 0 := by
            apply Nat.div_eq_of_lt
            exact Nat.one_lt_two_pow (by omega)
          omega
      · have hstep : resizeMapLoop alloc map error (fuel + 1) s =
            resizeMapLoop alloc map error fuel (s / 2) := by
          simp [resizeMapLoop, haf, hs1]
        have hdiv : ∀ k, s / 2 / 2 ^ k = s / 2 ^ (k + 1) := by
          intro k
          rw [Nat.div_div_eq_div_mul, pow_succ, Nat.mul_comm]
        have h2' : 1 ≤ s / 2 := by omega
        rcases ih (s / 2) h2' (by omega) with ⟨k, hk1, hka, hkj, hres⟩ | ⟨hall, hres⟩
        · left
          refine ⟨k + 1, by rw [← hdiv]; exact hk1, by rw [← hdiv]; exact hka, ?_, ?_⟩
          · intro j hj
            cases j with
            | zero => simpa using haf
            | succ j =>
              rw [← hdiv]
              exact hkj j (by omega)
          · rw [hstep, hres, hdiv]
        · right
          refine ⟨?_, by rw [hstep, hres]⟩
          intro k hk
          cases k with
          | zero => simpa using haf
          | succ k =>
            rw [← hdiv] at hk ⊢
            exact hall k hk

/-- C17: with allocation as an oracle on the requested number of cells, `resizeMap` for
a `size` of at least 1 terminates, and either returns the first of the increments
`size`, `size / 2`, `size / 4`, ..., 1 whose allocation succeeds, with the block grown
by it and the error flag unchanged, or returns 0 with the error flag
`ERR_OUT_OF_MEMORY` and the map unchanged, the latter exactly when every one of these
attempts is refused. -/
theorem resizeMap_spec (alloc : Nat → Bool) (map : Map) (size error : Nat)
    (hsize : 1 ≤ size) :
    (∃ k, 1 ≤ size / 2 ^ k ∧ alloc (map.length_ + size / 2 ^ k) = true ∧
      (∀ j, j < k → alloc (map.length_ + size / 2 ^ j) = false) ∧
      resizeMap alloc map size error =
        .ok (size / 2 ^ k,
          { map with
            start_entry_ := some (realloc map.block (map.length_ + size / 2 ^ k)) },
          error)) ∨
    ((∀ k, 1 ≤ size / 2 ^ k → alloc (map.length_ + size / 2 ^ k) = false) ∧
      resizeMap alloc map size error = .ok (0, map, ERR_OUT_OF_MEMORY)) :=
  resizeMapLoop_spec alloc map error (size + 1) size hsize (Nat.le_succ size)

/-- The statement of C17 at a request for 64 more cells. -/
theorem resizeMap_spec_witness :
    1 ≤ 64 ∧
    ((∃ k, 1 ≤ 64 / 2 ^ k ∧ allocAlways ((storeWith []).length_ + 64 / 2 ^ k) = true ∧
      (∀ j, j < k → allocAlways ((storeWith []).length_ + 64 / 2 ^ j) = false) ∧
      resizeMap allocAlways (storeWith []) 64 0 =
        .ok (64 / 2 ^ k,
          { storeWith [] with
            start_entry_ := some (realloc (storeWith []).block
              ((storeWith []).length_ + 64 / 2 ^ k)) },
          0)) ∨
    ((∀ k, 1 ≤ 64 / 2 ^ k → allocAlways ((storeWith []).length_ + 64 / 2 ^ k) = false) ∧
      resizeMap allocAlways (storeWith []) 64 0 = .ok (0, storeWith [], ERR_OUT_OF_MEMORY))) :=
  ⟨by decide, resizeMap_spec allocAlways (storeWith []) 64 0 (by decide)⟩

/-- C16: called with the error flag set, `insertChapterIntoMap` returns null and leaves
the map and the flag as they are; called with the flag 0 on a full store whose growth
is refused for every increment, it returns null, leaves the map as it is (`count_` and
every entry) and sets the flag to `ERR_OUT_OF_MEMORY`. -/
theorem insertChapterIntoMap_fails :
    (∀ (alloc : Nat → Bool) (h : Heap) (map : Map) (filename : List Nat)
      (chapter : Option Nat) (error : Nat), error ≠ 0 →
      insertChapterIntoMap alloc h map filename chapter error = .ok (none, map, error)) ∧
    (∀ (alloc : Nat → Bool) (h : Heap) (map : Map) (filename : List Nat)
      (chapter : Option Nat), map.length_ ≤ map.count_ →
      (∀ k, 1 ≤ MAP_MALLOC_INTERVALL / 2 ^ k →
        alloc (map.length_ + MAP_MALLOC_INTERVALL / 2 ^ k) = false) →
      insertChapterIntoMap alloc h map filename chapter 0 =
        .ok (none, map, ERR_OUT_OF_MEMORY)) := by
  constructor
  · intro alloc h map filename chapter error herr
    simp [insertChapterIntoMap, herr]
  · intro alloc h map filename chapter hfull hall
    have hge : map.count_ ≥ map.length_ := hfull
    rcases resizeMap_spec alloc map MAP_MALLOC_INTERVALL 0 (by decide) with
      ⟨k, hk1, hka, _, _⟩ | ⟨_, hres⟩
    · rw [hall k hk1] at hka
      cases hka
    · simp [insertChapterIntoMap, hge, hres]

/-- C18: with the error flag 0 on entry, `validateOptions` leaves it 0 if and only if
both choice strings are not empty and either both are `"-"` or neither is, and sets it
to `ERR_IO` otherwise; a flag that is not 0 on entry is left as it is. -/
theorem validateOptions_spec (o0 o1 : List Nat) :
    (validateOptions (o0, o1) 0 = 0 ↔
      (o0 ≠ [] ∧ o1 ≠ [] ∧ ((o0 = [45] ∧ o1 = [45]) ∨ (o0 ≠ [45] ∧ o1 ≠ [45])))) ∧
    (validateOptions (o0, o1) 0 = 0 ∨ validateOptions (o0, o1) 0 = ERR_IO) ∧
    (∀ error, error ≠ 0 → validateOptions (o0, o1) error = error) := by
  have hend : ∀ o : List Nat, isEndOption o = if o = [45] then 1 else 0 := by
    intro o
    unfold isEndOption
    match o with
    | [] => simp
    | [a] => simp
    | a :: b :: rest => simp
  have hval : ∀ o : List Nat, isOptionValid o = if o = [] then 0 else 1 := by
    intro o
    unfold isOptionValid
    cases o <;> simp
  refine ⟨?_, ?_, ?_⟩
  · unfold validateOptions
    simp only [ne_eq, not_true_eq_false, if_false, hend, hval]
    by_cases h0 : o0 = [] <;> by_cases h1 : o1 = [] <;> by_cases e0 : o0 = [45] <;>
      by_cases e1 : o1 = [45] <;> simp [h0, h1, e0, e1, ERR_IO]
  · unfold validateOptions
    simp only [ne_eq, not_true_eq_false, if_false]
    split
    · right; rfl
    · split
      · right; rfl
      · left; rfl
  · intro error herr
    simp [validateOptions, herr]

/-! ## The store: how `count_`, `length_` and the block change -/

theorem resizeMap_le {alloc : Nat → Bool} {map : Map} {size error n : Nat} {map1 : Map}
    {error1 : Nat} (hsize : 1 ≤ size)
    (he : resizeMap alloc map size error = .ok (n, map1, error1)) :
    map1.length_ = map.length_ ∧ map1.count_ = map.count_ ∧
    (n = 0 ∨ map1.block.length = map.length_ + n) ∧ n ≤ size := by
  rcases resizeMap_spec alloc map size error hsize with ⟨k, _, _, _, hres⟩ | ⟨_, hres⟩
  · rw [hres] at he
    simp only [Except.ok.injEq, Prod.mk.injEq] at he
    obtain ⟨rfl, rfl, _⟩ := he
    refine ⟨rfl, rfl, Or.inr ?_, Nat.div_le_self _ _⟩
    simp [Map.block, length_realloc]
  · rw [hres] at he
    simp only [Except.ok.injEq, Prod.mk.injEq] at he
    obtain ⟨rfl, rfl, _⟩ := he
    exact ⟨rfl, rfl, Or.inl rfl, Nat.zero_le _⟩

theorem insertChapterIntoMapEntry_shape {h : Heap} {map : Map} {filename : List Nat}
    {chapter : Option Nat} {error : Nat} {r : Option Nat} {map1 : Map} {error1 : Nat}
    (he : insertChapterIntoMapEntry h map filename chapter error = .ok (r, map1, error1)) :
    map1.length_ = map.length_ ∧ map1.count_ = map.count_ + 1 ∧
    map1.block.length = map.block.length ∧ map.count_ < map.block.length := by
  unfold insertChapterIntoMapEntry at he
  cases hd : getEqualChapter h map chapter with
  | error e => simp [hd] at he
  | ok dup =>
    simp only [hd] at he
    cases hs : map.start_entry_ with
    | none => simp [hs] at he
    | some block =>
      simp only [hs] at he
      by_cases hlt : map.count_ < block.length
      · simp only [hlt, if_true, Except.ok.injEq, Prod.mk.injEq] at he
        obtain ⟨_, rfl, _⟩ := he
        simp [Map.block, hs, hlt]
      · simp [hlt] at he

/-- A successful insert leaves `length_` as it is, adds one to `count_`, and writes into
a block that is the old one or one of at most `length_ + 64` cells. -/
theorem insertChapterIntoMap_shape {alloc : Nat → Bool} {h : Heap} {map : Map}
    {filename : List Nat} {chapter : Option Nat} {error : Nat} {p : Nat} {map1 : Map}
    {error1 : Nat}
    (he : insertChapterIntoMap alloc h map filename chapter error = .ok (some p, map1, error1)) :
    map1.length_ = map.length_ ∧ map1.count_ = map.count_ + 1 ∧
    map.count_ < map1.block.length ∧
    (map1.block.length = map.block.length ∨
      map1.block.length ≤ map.length_ + MAP_MALLOC_INTERVALL) := by
  unfold insertChapterIntoMap at he
  by_cases herr : error = 0
  · subst herr
    simp only [ne_eq, not_true_eq_false, if_false] at he
    by_cases hfull : map.count_ ≥ map.length_
    · simp only [hfull, if_true] at he
      cases hr : resizeMap alloc map MAP_MALLOC_INTERVALL 0 with
      | error e => simp [hr] at he
      | ok res =>
        obtain ⟨size, map2, error2⟩ := res
        simp only [hr] at he
        by_cases hz : size = 0
        · simp [hz] at he
        · simp only [hz, if_false] at he
          obtain ⟨hl, hc, hb, hlt⟩ := insertChapterIntoMapEntry_shape he
          obtain ⟨hl2, hc2, hb2, hle⟩ := resizeMap_le (by decide) hr
          rcases hb2 with hb2 | hb2
          · exact absurd hb2 hz
          · refine ⟨by rw [hl, hl2], by rw [hc, hc2], by rw [hb, ← hc2]; exact hlt, Or.inr ?_⟩
            rw [hb, hb2]
            omega
    · simp only [hfull, if_false] at he
      obtain ⟨hl, hc, hb, hlt⟩ := insertChapterIntoMapEntry_shape he
      exact ⟨hl, hc, by rw [hb]; exact hlt, Or.inl hb⟩
  · simp [herr] at he

/-- In a store reached by `n` successful inserts, `length_` is what it was, `count_` has
grown by `n`, and the block has at most `length_ + 64` cells unless it had more. -/
theorem Reached.shape {h : Heap} {map0 : Map} {n : Nat} {map : Map}
    (hr : Reached h map0 n map) :
    map.length_ = map0.length_ ∧ map.count_ = map0.count_ + n ∧
    map.block.length ≤ Nat.max map0.block.length (map0.length_ + MAP_MALLOC_INTERVALL) ∧
    (1 ≤ n → map.count_ ≤ map.block.length) := by
  induction hr with
  | start => exact ⟨rfl, rfl, Nat.le_max_left _ _, fun h0 => absurd h0 (by omega)⟩
  | insert n alloc map filename chapter error p map1 error1 _ he ih =>
    obtain ⟨hl, hc, hb, _⟩ := ih
    obtain ⟨hl1, hc1, hlt, hb1⟩ := insertChapterIntoMap_shape he
    refine ⟨by rw [hl1, hl], by rw [hc1, hc]; omega, ?_, fun _ => by rw [hc1]; omega⟩
    rcases hb1 with hb1 | hb1
    · rw [hb1]; exact hb
    · rw [hl] at hb1
      exact le_trans hb1 (Nat.le_max_right _ _)

/-! ## The store: the run on `distinctHeap` -/

theorem distinctEntries_succ (n : Nat) :
    distinctEntries (n + 1) = distinctEntries n ++ [some ⟨[n + 1], some n⟩] := by
  simp [distinctEntries, List.range_succ]

theorem length_distinctEntries (n : Nat) : (distinctEntries n).length = n := by
  simp [distinctEntries]

theorem entries_distinctBlockStore (cells n : Nat) :
    (distinctBlockStore cells n).entries = distinctEntries n := by
  unfold Map.entries distinctBlockStore Map.block
  simp only [Option.getD_some]
  apply List.ext_getElem?
  intro i
  simp only [List.getElem?_map]
  by_cases hi : i < n
  · have h1 : (List.range n)[i]? = some i := by
      rw [List.getElem?_range hi]
    have h2 : (distinctEntries n)[i]? = some (some ⟨[i + 1], some i⟩) := by
      simp [distinctEntries, List.getElem?_map, h1]
    rw [h1, h2]
    simp only [Option.map_some']
    rw [List.getElem?_append_left (by rw [length_distinctEntries]; exact hi), h2]
    rfl
  · have h1 : (List.range n)[i]? = none := by
      rw [List.getElem?_eq_none_iff]
      simpa using hi
    have h2 : (distinctEntries n)[i]? = none := by
      rw [List.getElem?_eq_none_iff, length_distinctEntries]
      omega
    rw [h1, h2]
    rfl

theorem getElem?_distinctHeap {N i : Nat} (hi : i < N) :
    (distinctHeap N)[i]? = some (chapterOf [i + 1, 0, 45, 0, 45, 0, 0] 6) := by
  simp [distinctHeap, List.getElem?_map, List.getElem?_range hi]

theorem areEqual_distinctHeap {N i j : Nat} (hi : i < N) (hj : j < N) (hne : i ≠ j) :
    areEqual (distinctHeap N) (some i) (some j) = .ok 0 := by
  rw [areEqual_of_chapters (getElem?_distinctHeap hi) (getElem?_distinctHeap hj)]
  simp [areEqualChapters, chapterOf, strlen, strlenFrom, memcmp, Ass2.min, hne]

theorem getEqualChapterLoop_distinct {N m : Nat} (hm : m < N) :
    ∀ n, n ≤ m →
      getEqualChapterLoop (distinctHeap N) (some m) (distinctEntries n) = .ok none := by
  have key : ∀ (l : List Nat), (∀ i ∈ l, i < m) →
      getEqualChapterLoop (distinctHeap N) (some m)
        (l.map (fun i => some ⟨[i + 1], some i⟩)) = .ok none := by
    intro l
    induction l with
    | nil => intro _; rfl
    | cons a l ih =>
      intro hl
      have ha : a < m := hl a (List.mem_cons_self _ _)
      simp only [List.map_cons, getEqualChapterLoop,
        areEqual_distinctHeap (lt_trans ha hm) hm (Nat.ne_of_lt ha)]
      simp only [ne_eq, not_true_eq_false, if_false]
      exact ih (fun i hi => hl i (List.mem_cons_of_mem _ hi))
  intro n hn
  exact key (List.range n) (fun i hi => lt_of_lt_of_le (List.mem_range.mp hi) hn)

theorem set_distinctEntries (cells n : Nat) (hn : n < cells) (x : MapEntry) :
    (distinctEntries n ++ List.replicate (cells - n) none).set n (some x) =
      distinctEntries n ++ [some x] ++ List.replicate (cells - (n + 1)) none := by
  have hrep : List.replicate (cells - n) (none : Option MapEntry) =
      none :: List.replicate (cells - (n + 1)) none := by
    have : cells - n = (cells - (n + 1)) + 1 := by omega
    rw [this, List.replicate_succ]
  rw [hrep]
  have hlen := length_distinctEntries n
  rw [List.set_append_right _ _ (by rw [hlen])]
  simp [hlen]

/-- The write of entry `n` into a block with room for it. -/
theorem insertChapterIntoMapEntry_distinct {N cells n : Nat} (hN : n < N) (hn : n < cells) :
    insertChapterIntoMapEntry (distinctHeap N) (distinctBlockStore cells n) [n + 1]
        (some n) 0 =
      .ok (some n, distinctBlockStore cells (n + 1), 0) := by
  unfold insertChapterIntoMapEntry getEqualChapter
  rw [entries_distinctBlockStore, getEqualChapterLoop_distinct hN n (le_refl n)]
  have hlen : n < (distinctEntries n ++ List.replicate (cells - n) none).length := by
    rw [List.length_append, length_distinctEntries, List.length_replicate]
    omega
  simp only [distinctBlockStore, hlen, if_true]
  rw [set_distinctEntries cells n hn, distinctEntries_succ]

/-- The write of entry `n` into a block without room for it. -/
theorem insertChapterIntoMapEntry_distinct_full {N n : Nat} (hN : n < N) :
    insertChapterIntoMapEntry (distinctHeap N) (distinctBlockStore n n) [n + 1]
        (some n) 0 = .error .outOfBlock := by
  unfold insertChapterIntoMapEntry getEqualChapter
  rw [entries_distinctBlockStore, getEqualChapterLoop_distinct hN n (le_refl n)]
  have hlen : ¬ n < (distinctEntries n ++ List.replicate (n - n) none).length := by
    rw [List.length_append, length_distinctEntries, List.length_replicate]
    omega
  simp only [distinctBlockStore, hlen, if_false]

theorem resizeMap_allocAlways (map : Map) :
    resizeMap allocAlways map MAP_MALLOC_INTERVALL 0 =
      .ok (MAP_MALLOC_INTERVALL,
        { map with
          start_entry_ := some (realloc map.block (map.length_ + MAP_MALLOC_INTERVALL)) },
        0) := by
  simp [resizeMap, resizeMapLoop, allocAlways, MAP_MALLOC_INTERVALL]

theorem realloc_distinctBlockStore (cells n : Nat) (hn : n ≤ cells) (hc : cells ≤ 128) :
    ({ distinctBlockStore cells n with
        start_entry_ := some (realloc (distinctBlockStore cells n).block
          ((distinctBlockStore cells n).length_ + MAP_MALLOC_INTERVALL)) } : Map) =
      distinctBlockStore 128 n := by
  have hlen : (distinctEntries n ++ List.replicate (cells - n) (none : Option MapEntry)).length
      = cells := by
    rw [List.length_append, length_distinctEntries, List.length_replicate]
    omega
  simp only [distinctBlockStore, Map.block, Option.getD_some, realloc, MAP_MALLOC_INTERVALL,
    hlen]
  have htake : List.take (64 + 64)
      (distinctEntries n ++ List.replicate (cells - n) (none : Option MapEntry)) =
      distinctEntries n ++ List.replicate (cells - n) none := by
    apply List.take_of_length_le
    rw [hlen]
    omega
  rw [htake, List.append_assoc, ← List.replicate_add]
  congr 4
  omega

/-- The insert of chapter `n` into the store that holds the chapters before it. -/
theorem insertChapterIntoMap_distinct {N n : Nat} (hN : n < N) (hn : n < 128) :
    insertChapterIntoMap allocAlways (distinctHeap N) (distinctStore n) [n + 1] (some n) 0 =
      .ok (some n, distinctStore (n + 1), 0) := by
  unfold insertChapterIntoMap
  simp only [ne_eq, not_true_eq_false, if_false]
  by_cases h64 : n < 64
  · have h1 : (if n ≤ 64 then 64 else 128) = 64 := by
      rw [if_pos (by omega)]
    have h2 : (if n + 1 ≤ 64 then 64 else 128) = 64 := by
      rw [if_pos (by omega)]
    have hfull : ¬ (distinctStore n).count_ ≥ (distinctStore n).length_ := by
      simp [distinctStore, distinctBlockStore, MAP_MALLOC_INTERVALL]
      omega
    simp only [hfull, if_false]
    unfold distinctStore
    rw [h1, h2]
    exact insertChapterIntoMapEntry_distinct hN h64
  · have h2 : (if n + 1 ≤ 64 then 64 else 128) = 128 := by
      rw [if_neg (by omega)]
    have hfull : (distinctStore n).count_ ≥ (distinctStore n).length_ := by
      simp [distinctStore, distinctBlockStore, MAP_MALLOC_INTERVALL]
      omega
    simp only [hfull, if_true, resizeMap_allocAlways]
    have hsz : ¬ MAP_MALLOC_INTERVALL = 0 := by decide
    simp only [hsz, if_false]
    unfold distinctStore
    rw [h2, realloc_distinctBlockStore _ n (by split <;> omega) (by split <;> omega)]
    exact insertChapterIntoMapEntry_distinct hN hn

/-- The insert of chapter 128 into the store that holds the 128 chapters before it. -/
theorem insertChapterIntoMap_distinct_full {N : Nat} (hN : 128 < N) :
    insertChapterIntoMap allocAlways (distinctHeap N) (distinctStore 128) [129] (some 128) 0 =
      .error .outOfBlock := by
  unfold insertChapterIntoMap
  simp only [ne_eq, not_true_eq_false, if_false]
  have hfull : (distinctStore 128).count_ ≥ (distinctStore 128).length_ := by
    simp [distinctStore, distinctBlockStore, MAP_MALLOC_INTERVALL]
  simp only [hfull, if_true, resizeMap_allocAlways]
  have hsz : ¬ MAP_MALLOC_INTERVALL = 0 := by decide
  simp only [hsz, if_false]
  have h1 : (if 128 ≤ 64 then 64 else 128) = 128 := by decide
  unfold distinctStore
  rw [h1, realloc_distinctBlockStore _ 128 (le_refl _) (le_refl _)]
  exact insertChapterIntoMapEntry_distinct_full hN

theorem insertAll_cons_ok {alloc : Nat → Bool} {h : Heap} {map map1 : Map}
    {filename : List Nat} {chapter : Option Nat} {p error1 : Nat}
    (rest : List (List Nat × Option Nat))
    (he : insertChapterIntoMap alloc h map filename chapter 0 = .ok (some p, map1, error1)) :
    insertAll alloc h map ((filename, chapter) :: rest) = insertAll alloc h map1 rest := by
  simp [insertAll, he]

theorem insertAll_distinct {N : Nat} :
    ∀ (m k : Nat) (rest : List (List Nat × Option Nat)), k + m ≤ 128 → k + m ≤ N →
      insertAll allocAlways (distinctHeap N) (distinctStore k)
          ((List.range' k m).map (fun i => ([i + 1], some i)) ++ rest) =
        insertAll allocAlways (distinctHeap N) (distinctStore (k + m)) rest := by
  intro m
  induction m with
  | zero => intro k rest _ _; rfl
  | succ m ih =>
    intro k rest h1 h2
    rw [List.range'_succ, List.map_cons, List.cons_append,
      insertAll_cons_ok _ (insertChapterIntoMap_distinct (by omega) (by omega)),
      ih (k + 1) rest (by omega) (by omega)]
    congr 2
    omega

theorem distinctItems_eq (n : Nat) :
    distinctItems n = (List.range' 0 n).map (fun i => ([i + 1], some i)) := by
  simp [distinctItems, List.range_eq_range']

theorem insertAll_distinctItems {N n : Nat} (hn : n ≤ 128) (hN : n ≤ N) :
    insertAll allocAlways (distinctHeap N) (distinctStore 0) (distinctItems n) =
      .ok (some (distinctStore n)) := by
  have := insertAll_distinct n 0 [] (by omega) (by omega) (N := N)
  rw [List.append_nil, Nat.zero_add] at this
  rw [distinctItems_eq, this]
  rfl

/-- C12, evaluated where it fails: `initializeMap` yields a store with `length_` 64; 65
inserts of pairwise different chapters under pairwise different keys, with every
allocation granted, all succeed and leave `count_` 65 and `length_` 64.  In every store
reached from the initial one by `n` successful inserts, `length_` is 64 and `count_` is
`n`. -/
theorem insertChapterIntoMap_count_exceeds_length :
    initializeMap allocAlways mainMap 0 = .ok (distinctStore 0, 0) ∧
    insertAll allocAlways (distinctHeap 65) (distinctStore 0) (distinctItems 65) =
      .ok (some (distinctStore 65)) ∧
    (distinctStore 65).length_ = 64 ∧ (distinctStore 65).count_ = 65 ∧
    (∀ (h : Heap) (n : Nat) (map : Map), Reached h (distinctStore 0) n map →
      map.length_ = 64 ∧ map.count_ = n) := by
  refine ⟨rfl, insertAll_distinctItems (by decide) (by decide), rfl, rfl, ?_⟩
  intro h n map hr
  obtain ⟨hl, hc, _, _⟩ := hr.shape
  refine ⟨hl, ?_⟩
  rw [hc]
  simp [distinctStore, distinctBlockStore]

/-- C11, evaluated where it fails: from the store of `initializeMap`, 128 inserts of
pairwise different chapters under pairwise different keys succeed, with every
allocation granted; the 129th insert grows the block to `length_ + 64` = 128 cells once
more and writes cell 128, outside the block.  No store is reached from the initial one
by more than 128 successful inserts, whatever the heap, the keys and the allocator. -/
theorem insertChapterIntoMap_overflow :
    insertAll allocAlways (distinctHeap 129) (distinctStore 0) (distinctItems 128) =
      .ok (some (distinctStore 128)) ∧
    insertChapterIntoMap allocAlways (distinctHeap 129) (distinctStore 128) [129]
      (some 128) 0 = .error .outOfBlock ∧
    insertAll allocAlways (distinctHeap 129) (distinctStore 0) (distinctItems 129) =
      .error .outOfBlock ∧
    (∀ (h : Heap) (n : Nat) (map : Map), Reached h (distinctStore 0) n map → n ≤ 128) := by
  refine ⟨insertAll_distinctItems (by decide) (by decide),
    insertChapterIntoMap_distinct_full (by decide), ?_, ?_⟩
  · have h129 : distinctItems 129 =
        (List.range' 0 128).map (fun i => ([i + 1], some i)) ++ [([129], some 128)] := by
      rw [distinctItems_eq]
      rfl
    rw [h129, insertAll_distinct 128 0 _ (by decide) (by decide)]
    simp only [insertAll, Nat.zero_add]
    rw [insertChapterIntoMap_distinct_full (by decide)]
  · intro h n map hr
    obtain ⟨_, hc, hb, hle⟩ := hr.shape
    by_cases hn : n = 0
    · omega
    · have h1 := hle (by omega)
      have hmax : Nat.max (distinctStore 0).block.length
          ((distinctStore 0).length_ + MAP_MALLOC_INTERVALL) = 128 := by decide
      rw [hmax] at hb
      have hc0 : (distinctStore 0).count_ = 0 := rfl
      omega

/-! ## The claims about the release of the store -/

theorem clearSameChapterPointerLoop_ok (value : Option Nat) :
    ∀ (es : List (Option MapEntry)), (∀ e ∈ es, e.isSome = true) →
      ∃ es1, clearSameChapterPointerLoop value es = .ok es1 ∧
        (∀ e ∈ es1, e.isSome = true) ∧ es1.length = es.length ∧
        ∀ q, q ∈ es1.filterMap (fun e => e.bind (fun entry => entry.value_)) ↔
          (q ∈ es.filterMap (fun e => e.bind (fun entry => entry.value_)) ∧ some q ≠ value) := by
  intro es
  induction es with
  | nil => intro _; exact ⟨[], rfl, by simp, rfl, by simp⟩
  | cons e es ih =>
    intro hr
    have he := hr e (List.mem_cons_self _ _)
    obtain ⟨es1, h1, hr1, hl1, hq1⟩ := ih (fun e he' => hr e (List.mem_cons_of_mem _ he'))
    cases e with
    | none => simp at he
    | some entry =>
      simp only [clearSameChapterPointerLoop, h1]
      refine ⟨_, rfl, ?_, by simp [hl1], ?_⟩
      · intro e he'
        rcases List.mem_cons.mp he' with rfl | he'
        · rfl
        · exact hr1 e he'
      · intro q
        by_cases hv : entry.value_ = value
        · simp only [hv, if_true, List.filterMap_cons, Option.some_bind]
          rw [hq1 q]
          cases hval : value with
          | none => simp
          | some v =>
            simp only [List.mem_cons]
            constructor
            · rintro ⟨hm, hne⟩
              exact ⟨Or.inr hm, hne⟩
            · rintro ⟨hm | hm, hne⟩
              · subst hm; exact absurd rfl hne
              · exact ⟨hm, hne⟩
        · simp only [hv, if_false, List.filterMap_cons, Option.some_bind]
          cases hval : entry.value_ with
          | none =>
            simp only []
            exact hq1 q
          | some v =>
            simp only [List.mem_cons]
            rw [hq1 q]
            constructor
            · rintro (hm | ⟨hm, hne⟩)
              · subst hm
                exact ⟨Or.inl rfl, by rw [← hval]; exact hv⟩
              · exact ⟨Or.inr hm, hne⟩
            · rintro ⟨hm | hm, hne⟩
              · exact Or.inl hm
              · exact Or.inr ⟨hm, hne⟩

theorem freeMapLoop_ok :
    ∀ (count : Nat) (es : List (Option MapEntry)) (log : List Nat),
      (∀ e ∈ es, e.isSome = true) → es.length ≤ count →
      ∃ released, freeMapLoop count es log = .ok (log ++ released) ∧ released.Nodup ∧
        ∀ q, q ∈ released ↔ q ∈ es.filterMap (fun e => e.bind (fun entry => entry.value_)) := by
  intro count
  induction count with
  | zero =>
    intro es log _ hl
    have : es = [] := List.length_eq_zero.mp (Nat.le_zero.mp hl)
    subst this
    exact ⟨[], by simp [freeMapLoop], List.nodup_nil, by simp⟩
  | succ count ih =>
    intro es log hr hl
    cases es with
    | nil => exact ⟨[], by simp [freeMapLoop], List.nodup_nil, by simp⟩
    | cons e es =>
      have he := hr e (List.mem_cons_self _ _)
      cases e with
      | none => simp at he
      | some entry =>
        obtain ⟨es1, h1, hr1, hl1, hq1⟩ := clearSameChapterPointerLoop_ok entry.value_ es
          (fun e he' => hr e (List.mem_cons_of_mem _ he'))
        obtain ⟨rel, hrel, hnd, hmem⟩ := ih es1 (freeEntry log entry) hr1
          (by rw [hl1]; simpa using hl)
        simp only [freeMapLoop, h1, hrel]
        cases hv : entry.value_ with
        | none =>
          refine ⟨rel, by simp [freeEntry, freeChapter, hv], hnd, ?_⟩
          intro q
          rw [hmem q, hq1 q]
          simp [hv]
        | some p =>
          refine ⟨p :: rel, by simp [freeEntry, freeChapter, hv], ?_, ?_⟩
          · refine List.nodup_cons.mpr ⟨?_, hnd⟩
            intro hp
            have := ((hq1 p).mp ((hmem p).mp hp)).2
            exact this hv.symm
          · intro q
            simp only [List.mem_cons, List.filterMap_cons, Option.some_bind, hv]
            rw [hmem q, hq1 q, hv]
            constructor
            · rintro (hq | ⟨hq, _⟩)
              · exact Or.inl hq
              · exact Or.inr hq
            · rintro (hq | hq)
              · exact Or.inl hq
              · by_cases e : q = p
                · exact Or.inl e
                · exact Or.inr ⟨hq, by simpa using e⟩

/-- C14: for every store whose entries can be read, also one in which several entries
hold the same record, `freeMap` releases each distinct stored record exactly once: the
release log has no duplicates and holds exactly the records of the store. -/
theorem freeMap_releases_once (map : Map) (hr : Readable map) :
    ∃ log, freeMap map [] = .ok log ∧ log.Nodup ∧ ∀ p, p ∈ log ↔ p ∈ storedPtrs map := by
  unfold freeMap
  cases hs : map.start_entry_ with
  | none =>
    refine ⟨[], rfl, List.nodup_nil, ?_⟩
    intro p
    have hnone : ∀ e ∈ map.entries, e = none := by
      intro e he
      unfold Map.entries Map.block at he
      rw [hs] at he
      obtain ⟨i, _, hi⟩ := List.mem_map.mp he
      rw [← hi]
      simp
    have hempty : map.entries = [] := by
      cases hes : map.entries with
      | nil => rfl
      | cons e es =>
        have h1 := hnone e (by rw [hes]; exact List.mem_cons_self _ _)
        have h2 := hr e (by rw [hes]; exact List.mem_cons_self _ _)
        rw [h1] at h2
        cases h2
    simp [storedPtrs, hempty]
  | some block =>
    obtain ⟨rel, hrel, hnd, hmem⟩ := freeMapLoop_ok map.count_ map.entries [] hr
      (by simp [Map.entries])
    exact ⟨rel, by simpa using hrel, hnd, hmem⟩

/-- The statement of C14 at a store in which two of three entries hold the same
record. -/
theorem freeMap_releases_once_witness :
    Readable (storeWith [⟨[1], some 0⟩, ⟨[2], some 0⟩, ⟨[3], some 2⟩]) ∧
    freeMap (storeWith [⟨[1], some 0⟩, ⟨[2], some 0⟩, ⟨[3], some 2⟩]) [] = .ok [0, 2] ∧
    ∃ log, freeMap (storeWith [⟨[1], some 0⟩, ⟨[2], some 0⟩, ⟨[3], some 2⟩]) [] = .ok log ∧
      log.Nodup ∧
      ∀ p, p ∈ log ↔ p ∈ storedPtrs (storeWith [⟨[1], some 0⟩, ⟨[2], some 0⟩, ⟨[3], some 2⟩]) :=
  ⟨by decide, rfl, freeMap_releases_once _ (by decide)⟩

/-- The statement of C16 at a call with the flag `ERR_IO` and at a call on a full store
with an allocator that refuses every request. -/
theorem insertChapterIntoMap_fails_witness :
    insertChapterIntoMap allocAlways dupHeap (storeWith []) [1] (some 0) ERR_IO =
      .ok (none, storeWith [], ERR_IO) ∧
    insertChapterIntoMap allocNever dupHeap fullStore [2] (some 1) 0 =
      .ok (none, fullStore, ERR_OUT_OF_MEMORY) :=
  ⟨insertChapterIntoMap_fails.1 allocAlways dupHeap (storeWith []) [1] (some 0) ERR_IO
      (by decide),
    insertChapterIntoMap_fails.2 allocNever dupHeap fullStore [2] (some 1) (by decide)
      (fun _ _ => rfl)⟩

/-- The statement of C18 at the choice lines `"-"` and `"-"`. -/
theorem validateOptions_spec_witness :
    validateOptions ([45], [45]) 0 = 0 ∧ validateOptions ([45], [65]) 0 = ERR_IO :=
  ⟨((validateOptions_spec [45] [45]).1).mpr (by decide), by decide⟩

/-! ## The text of a chapter: `findAndReplaceNewLine` -/

theorem strchrFrom_found (c : Nat) (r : List Nat) :
    ∀ (a : List Nat) (off : Nat), c ∉ a → 0 ∉ a →
      strchrFrom c (a ++ c :: r) off = .ok (some (off + a.length)) := by
  intro a
  induction a with
  | nil => intro off _ _; simp [strchrFrom]
  | cons x a ih =>
    intro off hc h0
    have hxc : ¬ x = c := fun e => hc (by simp [e])
    have hx0 : ¬ x = 0 := fun e => h0 (by simp [e])
    have e := ih (off + 1) (fun h => hc (List.mem_cons_of_mem _ h))
      (fun h => h0 (List.mem_cons_of_mem _ h))
    simp only [List.cons_append, strchrFrom, hxc, hx0, if_false]
    refine e.trans ?_
    simp only [List.length_cons]
    congr 2
    omega

theorem strchrFrom_none (c : Nat) (hc0 : c ≠ 0) (r : List Nat) :
    ∀ (a : List Nat) (off : Nat), c ∉ a → 0 ∉ a →
      strchrFrom c (a ++ 0 :: r) off = .ok none := by
  intro a
  induction a with
  | nil =>
    intro off _ _
    have : ¬ (0 = c) := fun e => hc0 e.symm
    simp [strchrFrom, this]
  | cons x a ih =>
    intro off hc h0
    have hxc : ¬ x = c := fun e => hc (by simp [e])
    have hx0 : ¬ x = 0 := fun e => h0 (by simp [e])
    simp only [List.cons_append, strchrFrom, hxc, hx0, if_false]
    exact ih (off + 1) (fun h => hc (List.mem_cons_of_mem _ h))
      (fun h => h0 (List.mem_cons_of_mem _ h))

/-- On a string with a line feed, `findAndReplaceNewLine` overwrites the first one with
a terminator and moves the pointer behind it. -/
theorem findAndReplaceNewLine_found (pre a r : List Nat) (h10 : 10 ∉ a) (h0 : 0 ∉ a) :
    findAndReplaceNewLine (pre ++ (a ++ 10 :: r)) (some pre.length) 0 =
      .ok (pre ++ (a ++ 0 :: r), some (pre.length + a.length + 1), 0) := by
  unfold findAndReplaceNewLine strchr
  simp only [ne_eq, not_true_eq_false, if_false, List.drop_left]
  rw [strchrFrom_found 10 r a pre.length h10 h0]
  simp only []
  rw [List.set_append_right _ _ (by omega), List.set_append_right _ _ (by omega)]
  simp

/-- On a string without line feed, `findAndReplaceNewLine` sets `ERR_IO` and the pointer
to null. -/
theorem findAndReplaceNewLine_none (pre a r : List Nat) (h10 : 10 ∉ a) (h0 : 0 ∉ a) :
    findAndReplaceNewLine (pre ++ (a ++ 0 :: r)) (some pre.length) 0 =
      .ok (pre ++ (a ++ 0 :: r), none, ERR_IO) := by
  unfold findAndReplaceNewLine strchr
  simp only [ne_eq, not_true_eq_false, if_false, List.drop_left]
  rw [strchrFrom_none 10 (by decide) r a pre.length h10 h0]

/-- A list splits at the first occurrence of a value, or does not contain it. -/
theorem split_first (c : Nat) (l : List Nat) :
    c ∉ l ∨ ∃ a r, l = a ++ c :: r ∧ c ∉ a := by
  by_cases h : c ∈ l
  · right
    exact List.eq_append_cons_of_mem h
  · left
    exact h

/-- The split at the first occurrence of a value is unique. -/
theorem split_first_unique (c : Nat) :
    ∀ (a1 a2 r1 r2 : List Nat), c ∉ a1 → c ∉ a2 → a1 ++ c :: r1 = a2 ++ c :: r2 →
      a1 = a2 ∧ r1 = r2 := by
  intro a1
  induction a1 with
  | nil =>
    intro a2 r1 r2 _ h2 he
    cases a2 with
    | nil => simpa using he
    | cons y a2 =>
      exfalso
      simp only [List.nil_append, List.cons_append, List.cons.injEq] at he
      exact h2 (by simp [he.1])
  | cons x a1 ih =>
    intro a2 r1 r2 h1 h2 he
    cases a2 with
    | nil =>
      exfalso
      simp only [List.nil_append, List.cons_append, List.cons.injEq] at he
      exact h1 (by simp [he.1])
    | cons y a2 =>
      simp only [List.cons_append, List.cons.injEq] at he
      obtain ⟨hxy, hrest⟩ := he
      obtain ⟨ha, hr⟩ := ih a2 r1 r2 (fun h => h1 (List.mem_cons_of_mem _ h))
        (fun h => h2 (List.mem_cons_of_mem _ h)) hrest
      exact ⟨by rw [hxy, ha], hr⟩

/-- The two outcomes of `getChapterPropertiesFromText` on the block of a raw text
without terminator inside: the text has three line feeds, and the block afterwards has
terminators in their place, `text` points behind the third and the options behind the
first and the second; or the error flag is `ERR_IO`. -/
theorem getChapterPropertiesFromText_cases (raw : List Nat) (h0 : 0 ∉ raw)
    (title text : Option Nat) (options : Option Nat × Option Nat) :
    (∃ t o1 o2 body, raw = t ++ 10 :: (o1 ++ 10 :: (o2 ++ 10 :: body)) ∧
      10 ∉ t ∧ 10 ∉ o1 ∧ 10 ∉ o2 ∧
      getChapterPropertiesFromText (raw ++ [0]) (some 0) title text options 0 =
        .ok (t ++ 0 :: (o1 ++ 0 :: (o2 ++ 0 :: (body ++ [0]))), some 0,
          some (t.length + o1.length + o2.length + 3),
          (some (t.length + 1), some (t.length + o1.length + 2)), 0)) ∨
    (∃ mem x o, getChapterPropertiesFromText (raw ++ [0]) (some 0) title text options 0 =
      .ok (mem, some 0, x, o, ERR_IO)) := by
  have hio : ¬ ERR_IO = 0 := by decide
  rcases split_first 10 raw with hn | ⟨t, r1, hraw, ht⟩
  · right
    have := findAndReplaceNewLine_none [] raw [] hn h0
    simp only [List.nil_append, List.length_nil] at this
    refine ⟨raw ++ [0], none, options, ?_⟩
    unfold getChapterPropertiesFromText
    simp only [ne_eq, not_true_eq_false, if_false, this, hio, not_false_eq_true, if_true]
  · subst hraw
    have h0t : 0 ∉ t := fun h => h0 (by simp [h])
    have h0r1 : 0 ∉ r1 := fun h => h0 (by simp [h])
    have e1 := findAndReplaceNewLine_found [] t (r1 ++ [0]) ht h0t
    simp only [List.nil_append, List.length_nil, Nat.zero_add] at e1
    have hmem1 : t ++ 10 :: r1 ++ [0] = t ++ 10 :: (r1 ++ [0]) := by simp
    rcases split_first 10 r1 with hn | ⟨o1, r2, hr1, ho1⟩
    · right
      have e2 := findAndReplaceNewLine_none (t ++ [0]) r1 [] hn h0r1
      simp only [List.append_assoc, List.singleton_append, List.length_append,
        List.length_singleton] at e2
      refine ⟨t ++ 0 :: (r1 ++ [0]), none, (some (t.length + 1), options.2), ?_⟩
      unfold getChapterPropertiesFromText
      simp only [ne_eq, not_true_eq_false, if_false, hmem1, e1, e2, hio, not_false_eq_true,
        if_true]
    · subst hr1
      have h0o1 : 0 ∉ o1 := fun h => h0r1 (by simp [h])
      have h0r2 : 0 ∉ r2 := fun h => h0r1 (by simp [h])
      have e2 := findAndReplaceNewLine_found (t ++ [0]) o1 (r2 ++ [0]) ho1 h0o1
      simp only [List.append_assoc, List.singleton_append, List.length_append,
        List.length_singleton] at e2
      have hmem2 : t ++ 0 :: (o1 ++ 10 :: r2 ++ [0]) = t ++ 0 :: (o1 ++ 10 :: (r2 ++ [0])) := by
        simp
      rcases split_first 10 r2 with hn | ⟨o2, body, hr2, ho2⟩
      · right
        have e3 := findAndReplaceNewLine_none (t ++ 0 :: (o1 ++ [0])) r2 [] hn h0r2
        simp only [List.append_assoc, List.singleton_append, List.length_append,
          List.length_singleton, List.cons_append, List.length_cons, List.nil_append,
          List.length_nil, Nat.zero_add] at e3
        refine ⟨t ++ 0 :: (o1 ++ 0 :: (r2 ++ [0])), none,
          (some (t.length + 1), some (t.length + 1 + o1.length + 1)), ?_⟩
        unfold getChapterPropertiesFromText
        simp only [ne_eq, not_true_eq_false, if_false, hmem1, e1, hmem2, e2, hio,
          not_false_eq_true, if_true]
        have hoff : t.length + 1 + o1.length + 1 = t.length + (o1.length + 1 + 1) := by omega
        rw [hoff, e3]
      · subst hr2
        left
        have h0o2 : 0 ∉ o2 := fun h => h0r2 (by simp [h])
        have e3 := findAndReplaceNewLine_found (t ++ 0 :: (o1 ++ [0])) o2 (body ++ [0]) ho2 h0o2
        simp only [List.append_assoc, List.singleton_append, List.length_append,
          List.length_singleton, List.cons_append, List.length_cons, List.nil_append,
          List.length_nil, Nat.zero_add] at e3
        refine ⟨t, o1, o2, body, rfl, ht, ho1, ho2, ?_⟩
        unfold getChapterPropertiesFromText
        have hmem3 : t ++ 0 :: (o1 ++ 0 :: (o2 ++ 10 :: body ++ [0])) =
            t ++ 0 :: (o1 ++ 0 :: (o2 ++ 10 :: (body ++ [0]))) := by simp
        have hmem0 : t ++ 10 :: (o1 ++ 10 :: (o2 ++ 10 :: body)) ++ [0] =
            t ++ 10 :: (o1 ++ 10 :: (o2 ++ 10 :: body) ++ [0]) := by simp
        have hmem1' : t ++ 0 :: (o1 ++ 10 :: (o2 ++ 10 :: body) ++ [0]) =
            t ++ 0 :: (o1 ++ 10 :: (o2 ++ 10 :: body ++ [0])) := by simp
        simp only [ne_eq, not_true_eq_false, if_false, hmem0, e1, hmem1', e2]
        have hoff : t.length + 1 + o1.length + 1 = t.length + (o1.length + 1 + 1) := by omega
        rw [hoff, hmem3, e3]
        simp only [Except.ok.injEq, Prod.mk.injEq, Option.some.injEq, and_true, true_and]
        refine ⟨?_, ?_⟩ <;> omega

/-! ## Content equality of parsed chapters -/

theorem strlenFrom_append (r : List Nat) :
    ∀ body : List Nat, 0 ∉ body → strlenFrom (body ++ 0 :: r) = .ok body.length := by
  intro body
  induction body with
  | nil => intro _; simp [strlenFrom]
  | cons x body ih =>
    intro h0
    have hx0 : ¬ x = 0 := fun e => h0 (by simp [e])
    have e := ih (fun h => h0 (List.mem_cons_of_mem _ h))
    simp only [List.cons_append, strlenFrom, hx0, if_false]
    have e2 : strlenFrom (body.append (0 :: r)) = .ok body.length := e
    rw [e2]
    rfl

/-- Two strings that agree on a prefix reaching behind the terminator of the first have
the same bytes before the terminator and agree on the rest of the prefix. -/
theorem take_split_zero (ra rb : List Nat) (k : Nat) :
    ∀ (ta tb : List Nat), 0 ∉ ta → 0 ∉ tb →
      (ta ++ 0 :: ra).take (ta.length + 1 + k) = (tb ++ 0 :: rb).take (ta.length + 1 + k) →
      ta = tb ∧ ra.take k = rb.take k := by
  intro ta
  induction ta with
  | nil =>
    intro tb _ hb he
    cases tb with
    | nil =>
      simp only [List.length_nil, Nat.zero_add, List.nil_append] at he
      rw [Nat.add_comm 1 k, List.take_succ_cons, List.take_succ_cons] at he
      exact ⟨rfl, (List.cons.inj he).2⟩
    | cons y tb =>
      exfalso
      simp only [List.length_nil, Nat.zero_add, List.nil_append, List.cons_append] at he
      rw [Nat.add_comm 1 k, List.take_succ_cons, List.take_succ_cons] at he
      exact hb (by simp [(List.cons.inj he).1])
  | cons x ta ih =>
    intro tb ha hb he
    have hlen : (x :: ta).length + 1 + k = (ta.length + 1 + k) + 1 := by
      simp only [List.length_cons]; omega
    rw [hlen] at he
    cases tb with
    | nil =>
      exfalso
      simp only [List.nil_append, List.cons_append, List.take_succ_cons] at he
      exact ha (by simp [(List.cons.inj he).1])
    | cons y tb =>
      simp only [List.cons_append, List.take_succ_cons] at he
      obtain ⟨hxy, hrest⟩ := List.cons.inj he
      obtain ⟨h1, h2⟩ := ih tb (fun h => ha (List.mem_cons_of_mem _ h))
        (fun h => hb (List.mem_cons_of_mem _ h)) hrest
      exact ⟨by rw [hxy, h1], h2⟩

/-- The block of a parsed chapter behind the offset of its body is the body. -/
theorem drop_layout (t o1 o2 r : List Nat) :
    (t ++ 0 :: (o1 ++ 0 :: (o2 ++ 0 :: r))).drop (t.length + o1.length + o2.length + 3) = r := by
  have e : t ++ 0 :: (o1 ++ 0 :: (o2 ++ 0 :: r)) = (t ++ 0 :: (o1 ++ 0 :: (o2 ++ [0]))) ++ r := by
    simp
  have hl : t.length + o1.length + o2.length + 3 = (t ++ 0 :: (o1 ++ 0 :: (o2 ++ [0]))).length := by
    simp; omega
  rw [e, hl, List.drop_left]

/-- The span of a parsed chapter is its block without the last terminator. -/
theorem take_layout (t o1 o2 body : List Nat) :
    (t ++ 0 :: (o1 ++ 0 :: (o2 ++ 0 :: (body ++ [0])))).take
        (t.length + o1.length + o2.length + 3 + body.length) =
      t ++ 0 :: (o1 ++ 0 :: (o2 ++ 0 :: body)) := by
  have e : t ++ 0 :: (o1 ++ 0 :: (o2 ++ 0 :: (body ++ [0]))) =
      (t ++ 0 :: (o1 ++ 0 :: (o2 ++ 0 :: body))) ++ [0] := by simp
  have hl : t.length + o1.length + o2.length + 3 + body.length =
      (t ++ 0 :: (o1 ++ 0 :: (o2 ++ 0 :: body))).length := by
    simp; omega
  rw [e, hl, List.take_left]

/-- Parsed blocks that agree on the span of the first, with bodies of one length, have the
same fields. -/
theorem fields_of_take (ta o1a o2a ba tb o1b o2b bb : List Nat)
    (hta : 0 ∉ ta) (ho1a : 0 ∉ o1a) (ho2a : 0 ∉ o2a)
    (htb : 0 ∉ tb) (ho1b : 0 ∉ o1b) (ho2b : 0 ∉ o2b) (hlen : ba.length = bb.length)
    (he : (ta ++ 0 :: (o1a ++ 0 :: (o2a ++ 0 :: (ba ++ [0])))).take
        (ta.length + o1a.length + o2a.length + 3 + ba.length) =
      (tb ++ 0 :: (o1b ++ 0 :: (o2b ++ 0 :: (bb ++ [0])))).take
        (ta.length + o1a.length + o2a.length + 3 + ba.length)) :
    ta = tb ∧ o1a = o1b ∧ o2a = o2b ∧ ba = bb := by
  have l1 : ta.length + o1a.length + o2a.length + 3 + ba.length =
      ta.length + 1 + (o1a.length + 1 + (o2a.length + 1 + ba.length)) := by omega
  rw [l1] at he
  obtain ⟨e1, he⟩ := take_split_zero _ _ _ ta tb hta htb he
  obtain ⟨e2, he⟩ := take_split_zero _ _ _ o1a o1b ho1a ho1b he
  obtain ⟨e3, he⟩ := take_split_zero _ _ _ o2a o2b ho2a ho2b he
  refine ⟨e1, e2, e3, ?_⟩
  rw [List.take_left] at he
  rw [hlen, List.take_left] at he
  exact he

/-- The fields of a parsed chapter: the raw text is title, two choice lines and body, each
of the first three closed by a line feed, and the block has terminators in place of
these line feeds. -/
theorem parsed_layout (raw : List Nat) (h0 : 0 ∉ raw) (c : Chapter)
    (title text : Option Nat) (options options1 : Option Nat × Option Nat)
    (hc : getChapterPropertiesFromText (raw ++ [0]) (some 0) title text options 0 =
      .ok (c.title_, some 0, some c.text_, options1, 0)) :
    ∃ t o1 o2 body, raw = t ++ 10 :: (o1 ++ 10 :: (o2 ++ 10 :: body)) ∧
      (10 ∉ t ∧ 10 ∉ o1 ∧ 10 ∉ o2) ∧ (0 ∉ t ∧ 0 ∉ o1 ∧ 0 ∉ o2 ∧ 0 ∉ body) ∧
      c.title_ = t ++ 0 :: (o1 ++ 0 :: (o2 ++ 0 :: (body ++ [0]))) ∧
      c.text_ = t.length + o1.length + o2.length + 3 := by
  rcases getChapterPropertiesFromText_cases raw h0 title text options with
    ⟨t, o1, o2, body, hraw, ht, ho1, ho2, hres⟩ | ⟨mem, x, o, hres⟩
  · rw [hres] at hc
    simp only [Except.ok.injEq, Prod.mk.injEq, Option.some.injEq, and_true, true_and] at hc
    refine ⟨t, o1, o2, body, hraw, ⟨ht, ho1, ho2⟩, ?_, hc.1.symm, hc.2.1.symm⟩
    subst hraw
    refine ⟨fun h => h0 (by simp [h]), fun h => h0 (by simp [h]), fun h => h0 (by simp [h]),
      fun h => h0 (by simp [h])⟩
  · exfalso
    rw [hres] at hc
    simp only [Except.ok.injEq, Prod.mk.injEq] at hc
    exact absurd hc.2.2.2.2 (by decide)

/-- Two texts of three fields closed by a separator and a rest are equal exactly if
their fields and rests are. -/
theorem join_eq_iff (c : Nat) (ta o1a o2a ba tb o1b o2b bb : List Nat)
    (hta : c ∉ ta) (ho1a : c ∉ o1a) (ho2a : c ∉ o2a)
    (htb : c ∉ tb) (ho1b : c ∉ o1b) (ho2b : c ∉ o2b) :
    ta ++ c :: (o1a ++ c :: (o2a ++ c :: ba)) = tb ++ c :: (o1b ++ c :: (o2b ++ c :: bb)) ↔
      ta = tb ∧ o1a = o1b ∧ o2a = o2b ∧ ba = bb := by
  constructor
  · intro he
    obtain ⟨e1, he⟩ := split_first_unique c _ _ _ _ hta htb he
    obtain ⟨e2, he⟩ := split_first_unique c _ _ _ _ ho1a ho1b he
    obtain ⟨e3, he⟩ := split_first_unique c _ _ _ _ ho2a ho2b he
    exact ⟨e1, e2, e3, he⟩
  · rintro ⟨e1, e2, e3, e4⟩
    rw [e1, e2, e3, e4]

/-- The length and span of a chapter with the layout of a parsed one. -/
theorem span_layout (c : Chapter) (t o1 o2 body : List Nat) (h0 : 0 ∉ body)
    (hmem : c.title_ = t ++ 0 :: (o1 ++ 0 :: (o2 ++ 0 :: (body ++ [0]))))
    (htext : c.text_ = t.length + o1.length + o2.length + 3) :
    strlen c.title_ c.text_ = .ok body.length ∧
      span c = .ok (t ++ 0 :: (o1 ++ 0 :: (o2 ++ 0 :: body))) := by
  have hs : strlen c.title_ c.text_ = .ok body.length := by
    unfold strlen
    rw [hmem, htext, drop_layout]
    exact strlenFrom_append [] body h0
  refine ⟨hs, ?_⟩
  unfold span
  rw [hs]
  simp only []
  rw [hmem, htext, take_layout]

/-- C15: for two chapters that `getChapterPropertiesFromText` produced from raw texts
without terminator inside, `areEqual` compares the lengths of the bodies and the first
`min` of the two span lengths bytes of the blocks, and it returns 1 exactly if the
title-through-body spans are the same bytes, which is exactly if the raw texts are the
same. -/
theorem areEqual_parsed (h : Heap) (p q : Nat) (a b : Chapter) (raw_a raw_b : List Nat)
    (title_a text_a title_b text_b : Option Nat)
    (options_a options_b parsed_a parsed_b : Option Nat × Option Nat)
    (hp : h[p]? = some a) (hq : h[q]? = some b) (h0a : 0 ∉ raw_a) (h0b : 0 ∉ raw_b)
    (ha : getChapterPropertiesFromText (raw_a ++ [0]) (some 0) title_a text_a options_a 0 =
      .ok (a.title_, some 0, some a.text_, parsed_a, 0))
    (hb : getChapterPropertiesFromText (raw_b ++ [0]) (some 0) title_b text_b options_b 0 =
      .ok (b.title_, some 0, some b.text_, parsed_b, 0)) :
    ∃ span_a span_b length_a length_b,
      span a = .ok span_a ∧ span b = .ok span_b ∧
      strlen a.title_ a.text_ = .ok length_a ∧ strlen b.title_ b.text_ = .ok length_b ∧
      areEqual h (some p) (some q) =
        .ok (if length_a = length_b ∧
            memcmp a.title_ b.title_ (min span_a.length span_b.length) = 0 then 1 else 0) ∧
      (areEqual h (some p) (some q) = .ok 1 ↔ span_a = span_b) ∧
      (span_a = span_b ↔ raw_a = raw_b) := by
  obtain ⟨ta, o1a, o2a, ba, hrawa, ⟨nta, no1a, no2a⟩, ⟨zta, zo1a, zo2a, zba⟩, hma, hxa⟩ :=
    parsed_layout raw_a h0a a title_a text_a options_a parsed_a ha
  obtain ⟨tb, o1b, o2b, bb, hrawb, ⟨ntb, no1b, no2b⟩, ⟨ztb, zo1b, zo2b, zbb⟩, hmb, hxb⟩ :=
    parsed_layout raw_b h0b b title_b text_b options_b parsed_b hb
  obtain ⟨hsa, hspa⟩ := span_layout a ta o1a o2a ba zba hma hxa
  obtain ⟨hsb, hspb⟩ := span_layout b tb o1b o2b bb zbb hmb hxb
  have hla : (ta ++ 0 :: (o1a ++ 0 :: (o2a ++ 0 :: ba))).length = a.text_ + ba.length := by
    rw [hxa]; simp; omega
  have hlb : (tb ++ 0 :: (o1b ++ 0 :: (o2b ++ 0 :: bb))).length = b.text_ + bb.length := by
    rw [hxb]; simp; omega
  have hval : areEqual h (some p) (some q) =
      .ok (if ba.length = bb.length ∧
        memcmp a.title_ b.title_ (min (ta ++ 0 :: (o1a ++ 0 :: (o2a ++ 0 :: ba))).length
          (tb ++ 0 :: (o1b ++ 0 :: (o2b ++ 0 :: bb))).length) = 0 then 1 else 0) := by
    rw [areEqual_of_chapters hp hq, hla, hlb]
    unfold areEqualChapters
    rw [hsa, hsb]
  have hfields : (ba.length = bb.length ∧
        memcmp a.title_ b.title_ (min (ta ++ 0 :: (o1a ++ 0 :: (o2a ++ 0 :: ba))).length
          (tb ++ 0 :: (o1b ++ 0 :: (o2b ++ 0 :: bb))).length) = 0) ↔
      (ta = tb ∧ o1a = o1b ∧ o2a = o2b ∧ ba = bb) := by
    constructor
    · rintro ⟨hlen, hcmp⟩
      have htake : a.title_.take (min (ta ++ 0 :: (o1a ++ 0 :: (o2a ++ 0 :: ba))).length
          (tb ++ 0 :: (o1b ++ 0 :: (o2b ++ 0 :: bb))).length) =
          b.title_.take (min (ta ++ 0 :: (o1a ++ 0 :: (o2a ++ 0 :: ba))).length
          (tb ++ 0 :: (o1b ++ 0 :: (o2b ++ 0 :: bb))).length) := by
        unfold memcmp at hcmp
        by_contra hne
        rw [if_neg hne] at hcmp
        exact absurd hcmp (by decide)
      rw [hla, hlb, hma, hmb] at htake
      unfold Ass2.min at htake
      by_cases hlt : a.text_ + ba.length < b.text_ + bb.length
      · rw [if_pos hlt, hxa] at htake
        exact fields_of_take ta o1a o2a ba tb o1b o2b bb zta zo1a zo2a ztb zo1b zo2b hlen htake
      · rw [if_neg hlt, hxb] at htake
        obtain ⟨e1, e2, e3, e4⟩ :=
          fields_of_take tb o1b o2b bb ta o1a o2a ba ztb zo1b zo2b zta zo1a zo2a hlen.symm
            htake.symm
        exact ⟨e1.symm, e2.symm, e3.symm, e4.symm⟩
    · rintro ⟨e1, e2, e3, e4⟩
      subst e1 e2 e3 e4
      refine ⟨rfl, ?_⟩
      rw [hma, hmb]
      simp [memcmp]
  have hspan := join_eq_iff 0 ta o1a o2a ba tb o1b o2b bb zta zo1a zo2a ztb zo1b zo2b
  have hraw := join_eq_iff 10 ta o1a o2a ba tb o1b o2b bb nta no1a no2a ntb no1b no2b
  refine ⟨_, _, _, _, hspa, hspb, hsa, hsb, hval, ?_, ?_⟩
  · rw [hval, hspan, ← hfields]
    constructor
    · intro he
      by_contra hne
      rw [if_neg hne] at he
      exact absurd he (by simp)
    · intro hc
      rw [if_pos hc]
  · rw [hspan, hrawa, hrawb, hraw]

/-- The statement of C15 at the raw texts `"A\n-\n-\nx"` and `"A\n-\n-\ny"`. -/
theorem areEqual_parsed_witness :
    ∃ span_a span_b length_a length_b,
      span (chapterOf [65, 0, 45, 0, 45, 0, 120, 0] 6) = .ok span_a ∧
      span (chapterOf [65, 0, 45, 0, 45, 0, 121, 0] 6) = .ok span_b ∧
      strlen (chapterOf [65, 0, 45, 0, 45, 0, 120, 0] 6).title_
        (chapterOf [65, 0, 45, 0, 45, 0, 120, 0] 6).text_ = .ok length_a ∧
      strlen (chapterOf [65, 0, 45, 0, 45, 0, 121, 0] 6).title_
        (chapterOf [65, 0, 45, 0, 45, 0, 121, 0] 6).text_ = .ok length_b ∧
      areEqual [chapterOf [65, 0, 45, 0, 45, 0, 120, 0] 6,
          chapterOf [65, 0, 45, 0, 45, 0, 121, 0] 6] (some 0) (some 1) =
        .ok (if length_a = length_b ∧
            memcmp (chapterOf [65, 0, 45, 0, 45, 0, 120, 0] 6).title_
              (chapterOf [65, 0, 45, 0, 45, 0, 121, 0] 6).title_
              (min span_a.length span_b.length) = 0 then 1 else 0) ∧
      (areEqual [chapterOf [65, 0, 45, 0, 45, 0, 120, 0] 6,
          chapterOf [65, 0, 45, 0, 45, 0, 121, 0] 6] (some 0) (some 1) = .ok 1 ↔
        span_a = span_b) ∧
      (span_a = span_b ↔ [65, 10, 45, 10, 45, 10, 120] = [65, 10, 45, 10, 45, 10, 121]) :=
  areEqual_parsed [chapterOf [65, 0, 45, 0, 45, 0, 120, 0] 6,
      chapterOf [65, 0, 45, 0, 45, 0, 121, 0] 6] 0 1
    (chapterOf [65, 0, 45, 0, 45, 0, 120, 0] 6) (chapterOf [65, 0, 45, 0, 45, 0, 121, 0] 6)
    [65, 10, 45, 10, 45, 10, 120] [65, 10, 45, 10, 45, 10, 121] none none none none
    (none, none) (none, none) (some 2, some 4) (some 2, some 4) rfl rfl (by decide) (by decide)
    rfl rfl

/-! ## The events of a traversal -/

theorem TravT.toTrav {h : Heap} {p : Nat} {tr : List Event} {h' : Heap}
    (ht : TravT h p tr h') : Trav h p h' := by
  induction ht with
  | skip h p hs => exact Trav.skip h p hs
  | procEnd h p o hP ho h2 => exact Trav.procEnd h p o hP ho h2
  | procLeads h p o child hP ho h2 hc => exact Trav.procLeads h p o child hP ho h2 hc
  | procVisit h p o child tr h1 s hP ho h2 hc _ hev ih =>
    exact Trav.procVisit h p o child h1 s hP ho h2 hc ih hev
  | procEval h p o child t s hP ho h2 hc hL hU hev =>
    exact Trav.procEval h p o child t s hP ho h2 hc hL hU hev
  | newEnd0 h p o hU ho h1 => exact Trav.newEnd0 h p o hU ho h1
  | newEnd1 h p o child0 tr0 h1 o1 hU ho h0 _ ho1 h2 ih =>
    exact Trav.newEnd1 h p o child0 h1 o1 hU ho h0 ih ho1 h2
  | newFull h p o child0 tr0 h1 o1 child1 tr1 h2 s hU ho h0 _ ho1 ho2 _ hev ih0 ih1 =>
    exact Trav.newFull h p o child0 h1 o1 child1 h2 s hU ho h0 ih0 ho1 ho2 ih1 hev

theorem visitRemainingChildsLog_TravT (trav : Heap → Nat → Except Fault Heap)
    (travL : Heap → Nat → Except Fault (Heap × List Event))
    (htrav : ∀ h p h', trav h p = .ok h' → ∃ tr, travL h p = .ok (h', tr) ∧ TravT h p tr h')
    (h : Heap) (p : Nat) (h' : Heap) (hP : tag h p = some .PROCESSING)
    (he : visitRemainingChilds trav h p = .ok h') :
    ∃ tr, visitRemainingChildsLog travL h p = .ok (h', tr) ∧ TravT h p tr h' := by
  unfold visitRemainingChilds at he
  unfold visitRemainingChildsLog
  cases hp : h[p]? with
  | none => simp [hp] at he
  | some r =>
    simp only [hp] at he ⊢
    have ho : opts h p = some r.options_ := by simp [opts, hp]
    cases h2 : r.options_.2 with
    | none =>
      simp only [h2] at he ⊢
      cases he
      exact ⟨_, rfl, TravT.procEnd h p r.options_ hP ho h2⟩
    | some child =>
      simp only [h2] at he ⊢
      cases hc : h[child]? with
      | none => simp [hc] at he
      | some c =>
        simp only [hc] at he ⊢
        have htc : tag h child = some c.graph_analyze_state_ := by simp [tag, hc]
        by_cases hL : c.graph_analyze_state_ = .LEADS_TO_END
        · simp only [hL, if_true] at he ⊢
          cases he
          exact ⟨_, rfl, TravT.procLeads h p r.options_ child hP ho h2 (by rw [htc, hL])⟩
        · simp only [hL, if_false] at he ⊢
          by_cases hU : c.graph_analyze_state_ = .UNVISITED
          · simp only [hU, if_true] at he ⊢
            cases ht : trav h child with
            | error e => simp [ht] at he
            | ok h1 =>
              simp only [ht] at he
              obtain ⟨tr, hl, htt⟩ := htrav _ _ _ ht
              cases hev : evaluateGraphNode h1 p with
              | error e => simp [hev] at he
              | ok s =>
                simp only [hev] at he
                cases he
                refine ⟨_, ?_, TravT.procVisit h p r.options_ child tr h1 s hP ho h2
                  (by rw [htc, hU]) htt hev⟩
                rw [hl]
                simp only [hev]
          · simp only [hU, if_false] at he ⊢
            cases hev : evaluateGraphNode h p with
            | error e => simp [hev] at he
            | ok s =>
              simp only [hev] at he
              cases he
              refine ⟨_, ?_, TravT.procEval h p r.options_ child c.graph_analyze_state_ s hP ho
                h2 htc hL hU hev⟩
              simp only [hev, List.nil_append]

theorem visitGraphChildsLog_TravT (trav : Heap → Nat → Except Fault Heap)
    (travL : Heap → Nat → Except Fault (Heap × List Event))
    (htrav : ∀ h p h', trav h p = .ok h' → ∃ tr, travL h p = .ok (h', tr) ∧ TravT h p tr h')
    (h : Heap) (p : Nat) (h' : Heap) (hU : tag h p = some .UNVISITED)
    (he : visitGraphChilds trav (setState h p .PROCESSING) p = .ok h') :
    ∃ tr, visitGraphChildsLog travL (setState h p .PROCESSING) p = .ok (h', tr) ∧
      TravT h p (.assign p .PROCESSING :: tr) h' := by
  unfold visitGraphChilds at he
  unfold visitGraphChildsLog
  obtain ⟨o, ho⟩ : ∃ o, opts h p = some o :=
    (opts_isSome_iff h p).mpr ((tag_isSome_iff h p).mp ⟨_, hU⟩)
  have ho0 : opts (setState h p .PROCESSING) p = some o := by rw [opts_setState]; exact ho
  cases hp : (setState h p .PROCESSING)[p]? with
  | none => simp [opts, hp] at ho0
  | some r =>
    simp only [hp] at he ⊢
    have hr : r.options_ = o := by simpa [opts, hp] using ho0
    cases h1 : r.options_.1 with
    | none =>
      simp only [h1] at he ⊢
      cases he
      exact ⟨_, rfl, TravT.newEnd0 h p o hU ho (by rw [← hr]; exact h1)⟩
    | some child0 =>
      simp only [h1] at he ⊢
      cases ht : trav (setState h p .PROCESSING) child0 with
      | error e => simp [ht] at he
      | ok h1' =>
        simp only [ht] at he
        obtain ⟨tr0, hl0, htt0⟩ := htrav _ _ _ ht
        rw [hl0]
        simp only []
        cases hp1 : h1'[p]? with
        | none => simp [hp1] at he
        | some r1 =>
          simp only [hp1] at he ⊢
          have ho1 : opts h1' p = some r1.options_ := by simp [opts, hp1]
          cases h2 : r1.options_.2 with
          | none =>
            simp only [h2] at he ⊢
            cases he
            exact ⟨_, rfl, TravT.newEnd1 h p o child0 tr0 h1' r1.options_ hU ho
              (by rw [← hr]; exact h1) htt0 ho1 h2⟩
          | some child1 =>
            simp only [h2] at he ⊢
            cases ht2 : trav h1' child1 with
            | error e => simp [ht2] at he
            | ok h2' =>
              simp only [ht2] at he
              obtain ⟨tr1, hl1, htt1⟩ := htrav _ _ _ ht2
              rw [hl1]
              simp only []
              cases hev : evaluateGraphNode h2' p with
              | error e => simp [hev] at he
              | ok s =>
                simp only [hev] at he ⊢
                cases he
                exact ⟨_, rfl, TravT.newFull h p o child0 tr0 h1' r1.options_ child1 tr1 h2' s
                  hU ho (by rw [← hr]; exact h1) htt0 ho1 h2 htt1 hev⟩

/-- The function with events returns the heap that `traverseGraph` returns, and its
events follow the big-step rules. -/
theorem traverseGraphLog_TravT :
    ∀ (fuel : Nat) (h : Heap) (p : Nat) (h' : Heap),
      traverseGraph fuel h p = .ok h' →
      ∃ tr, traverseGraphLog fuel h p = .ok (h', tr) ∧ TravT h p tr h' := by
  intro fuel
  induction fuel with
  | zero => intro h p h' he; simp [traverseGraph] at he
  | succ fuel ih =>
    intro h p h' he
    unfold traverseGraph at he
    unfold traverseGraphLog
    cases hp : h[p]? with
    | none => simp [hp] at he
    | some r =>
      simp only [hp] at he ⊢
      have ht : tag h p = some r.graph_analyze_state_ := by simp [tag, hp]
      cases hs : r.graph_analyze_state_ with
      | LEADS_TO_END =>
        simp only [hs] at he ⊢
        cases he
        exact ⟨_, rfl, TravT.skip h p (Or.inl (by rw [ht, hs]))⟩
      | DEAD_END =>
        simp only [hs] at he ⊢
        cases he
        exact ⟨_, rfl, TravT.skip h p (Or.inr (by rw [ht, hs]))⟩
      | PROCESSING =>
        simp only [hs] at he ⊢
        exact visitRemainingChildsLog_TravT _ _ ih h p h' (by rw [ht, hs]) he
      | UNVISITED =>
        simp only [hs] at he ⊢
        obtain ⟨tr, hl, htt⟩ := visitGraphChildsLog_TravT _ _ ih h p h' (by rw [ht, hs]) he
        rw [hl]
        exact ⟨_, rfl, htt⟩

theorem visitRemainingChildsLog_mono
    (trav trav' : Heap → Nat → Except Fault (Heap × List Event))
    (hm : ∀ h p r, trav h p = .ok r → trav' h p = .ok r)
    (h : Heap) (p : Nat) (r : Heap × List Event)
    (he : visitRemainingChildsLog trav h p = .ok r) :
    visitRemainingChildsLog trav' h p = .ok r := by
  unfold visitRemainingChildsLog at he ⊢
  cases hp : h[p]? with
  | none => simp [hp] at he
  | some c0 =>
    simp only [hp] at he ⊢
    cases h2 : c0.options_.2 with
    | none => simpa [h2] using he
    | some child =>
      simp only [h2] at he ⊢
      cases hc : h[child]? with
      | none => simp [hc] at he
      | some c =>
        simp only [hc] at he ⊢
        by_cases hL : c.graph_analyze_state_ = .LEADS_TO_END
        · simpa [hL] using he
        · simp only [hL, if_false] at he ⊢
          by_cases hU : c.graph_analyze_state_ = .UNVISITED
          · simp only [hU, if_true] at he ⊢
            cases ht : trav h child with
            | error e => simp [ht] at he
            | ok r1 =>
              rw [hm _ _ _ ht]
              simpa [ht] using he
          · simpa [hU] using he

theorem visitGraphChildsLog_mono
    (trav trav' : Heap → Nat → Except Fault (Heap × List Event))
    (hm : ∀ h p r, trav h p = .ok r → trav' h p = .ok r)
    (h : Heap) (p : Nat) (r : Heap × List Event)
    (he : visitGraphChildsLog trav h p = .ok r) :
    visitGraphChildsLog trav' h p = .ok r := by
  unfold visitGraphChildsLog at he ⊢
  cases hp : h[p]? with
  | none => simp [hp] at he
  | some c0 =>
    simp only [hp] at he ⊢
    cases h1 : c0.options_.1 with
    | none => simpa [h1] using he
    | some child0 =>
      simp only [h1] at he ⊢
      cases ht : trav h child0 with
      | error e => simp [ht] at he
      | ok r1 =>
        rw [hm _ _ _ ht]
        obtain ⟨h1', tr0⟩ := r1
        simp only [ht] at he ⊢
        cases hp1 : h1'[p]? with
        | none => simp [hp1] at he
        | some c1 =>
          simp only [hp1] at he ⊢
          cases h2 : c1.options_.2 with
          | none => simpa [h2] using he
          | some child1 =>
            simp only [h2] at he ⊢
            cases ht2 : trav h1' child1 with
            | error e => simp [ht2] at he
            | ok r2 =>
              rw [hm _ _ _ ht2]
              simpa [ht2] using he

theorem traverseGraphLog_succ :
    ∀ (fuel : Nat) (h : Heap) (p : Nat) (r : Heap × List Event),
      traverseGraphLog fuel h p = .ok r → traverseGraphLog (fuel + 1) h p = .ok r := by
  intro fuel
  induction fuel with
  | zero => intro h p r he; simp [traverseGraphLog] at he
  | succ fuel ih =>
    intro h p r he
    unfold traverseGraphLog at he ⊢
    cases hp : h[p]? with
    | none => simp [hp] at he
    | some c =>
      simp only [hp] at he ⊢
      cases hs : c.graph_analyze_state_ with
      | LEADS_TO_END => simpa [hs] using he
      | DEAD_END => simpa [hs] using he
      | PROCESSING =>
        simp only [hs] at he ⊢
        exact visitRemainingChildsLog_mono _ _ ih h p r he
      | UNVISITED =>
        simp only [hs] at he ⊢
        cases hv : visitGraphChildsLog (traverseGraphLog fuel) (setState h p .PROCESSING) p with
        | error e => simp [hv] at he
        | ok r1 =>
          rw [visitGraphChildsLog_mono _ _ ih _ p r1 hv]
          simpa [hv] using he

theorem traverseGraphLog_mono {fuel fuel' : Nat} (hle : fuel ≤ fuel') {h : Heap} {p : Nat}
    {r : Heap × List Event} (he : traverseGraphLog fuel h p = .ok r) :
    traverseGraphLog fuel' h p = .ok r := by
  induction hle with
  | refl => exact he
  | step _ ih => exact traverseGraphLog_succ _ _ _ _ ih

/-- On a graph whose choice slots point into the heap, started with all tags
`UNVISITED`, the traversal returns, with one heap and one list of events for every
bound of at least two nested calls per chapter and one more. -/
theorem traverseGraphLog_total (h : Heap) (root : Nat) (hv : ValidPtrs h)
    (hU : AllUnvisited h) (hroot : root < h.length) :
    ∃ h1 tr, TravT h root tr h1 ∧
      ∀ fuel, 2 * h.length + 1 ≤ fuel →
        traverseGraph fuel h root = .ok h1 ∧ traverseGraphLog fuel h root = .ok (h1, tr) := by
  have hun := unvisited_le_length h
  obtain ⟨h1, h1e⟩ := traverseGraph_total (2 * h.length + 1) h root
    (Step_lt_of_ValidPtrs hv) hroot (ProcOK_of_AllUnvisited hU) (Or.inl (by omega))
  obtain ⟨tr, hl, htt⟩ := traverseGraphLog_TravT _ _ _ _ h1e
  exact ⟨h1, tr, htt, fun fuel hf => ⟨traverseGraph_mono hf h1e, traverseGraphLog_mono hf hl⟩⟩

theorem run_append (h : Heap) (a b : List Event) : run h (a ++ b) = run (run h a) b := by
  simp [run, List.foldl_append]

theorem run_cons (h : Heap) (e : Event) (a : List Event) :
    run h (e :: a) = run (Event.effect h e) a := rfl

/-- The events of a call are a complete record of what it does to the heap. -/
theorem TravT.run_eq {h : Heap} {p : Nat} {tr : List Event} {h' : Heap}
    (ht : TravT h p tr h') : run h tr = h' := by
  induction ht with
  | skip h p hs => rfl
  | procEnd h p o hP ho h2 => rfl
  | procLeads h p o child hP ho h2 hc => rfl
  | procVisit h p o child tr h1 s hP ho h2 hc _ hev ih =>
    rw [run_append, ih]; rfl
  | procEval h p o child t s hP ho h2 hc hL hU hev => rfl
  | newEnd0 h p o hU ho h1 => rfl
  | newEnd1 h p o child0 tr0 h1 o1 hU ho h0 _ ho1 h2 ih =>
    rw [run_cons, run_append]
    simp only [Event.effect]
    rw [ih]; rfl
  | newFull h p o child0 tr0 h1 o1 child1 tr1 h2 s hU ho h0 _ ho1 ho2 _ hev ih0 ih1 =>
    rw [run_cons, run_append, run_append]
    simp only [Event.effect]
    rw [ih0, ih1]; rfl

/-- Every call of `evaluateGraphNode` in a run is for a chapter with two choices that
are not terminal. -/
theorem TravT.evaluate_opts {h : Heap} {p : Nat} {tr : List Event} {h' : Heap}
    (ht : TravT h p tr h') :
    ∀ q, Event.evaluate q ∈ tr → ∃ c0 c1, opts h q = some (some c0, some c1) := by
  induction ht with
  | skip h p hs => intro q hq; simp at hq
  | procEnd h p o hP ho h2 => intro q hq; simp at hq
  | procLeads h p o child hP ho h2 hc => intro q hq; simp at hq
  | procVisit h p o child tr h1 s hP ho h2 hc htt hev ih =>
    intro q hq
    simp only [List.mem_append, List.mem_cons, Event.evaluate.injEq, List.mem_singleton,
      reduceCtorEq, or_false, false_or, List.not_mem_nil] at hq
    rcases hq with hq | hq
    · exact ih q hq
    · subst hq
      obtain ⟨o1, c0, t0, ho1, h0, _⟩ := evaluateGraphNode_ok hev
      rw [htt.toTrav.opts_eq, ho] at ho1
      cases ho1
      exact ⟨c0, child, by rw [ho, ← h0, ← h2]⟩
  | procEval h p o child t s hP ho h2 hc hL hU hev =>
    intro q hq
    simp only [List.mem_cons, Event.evaluate.injEq, List.mem_singleton, reduceCtorEq,
      or_false, false_or, List.not_mem_nil] at hq
    subst hq
    obtain ⟨o1, c0, t0, ho1, h0, _⟩ := evaluateGraphNode_ok hev
    rw [ho] at ho1
    cases ho1
    exact ⟨c0, child, by rw [ho, ← h0, ← h2]⟩
  | newEnd0 h p o hU ho h1 => intro q hq; simp at hq
  | newEnd1 h p o child0 tr0 h1 o1 hU ho h0 htt ho1 h2 ih =>
    intro q hq
    simp only [List.mem_cons, List.mem_append, List.mem_singleton, reduceCtorEq, or_false,
      false_or, List.not_mem_nil] at hq
    obtain ⟨c0, c1, hc⟩ := ih q hq
    rw [opts_setState] at hc
    exact ⟨c0, c1, hc⟩
  | newFull h p o child0 tr0 h1 o1 child1 tr1 h2 s hU ho h0 htt0 ho1 ho2 htt1 hev ih0 ih1 =>
    intro q hq
    have hopts1 : opts h1 = opts h := by rw [htt0.toTrav.opts_eq, opts_setState]
    simp only [List.mem_cons, List.mem_append, List.mem_singleton, reduceCtorEq, or_false,
      false_or, Event.evaluate.injEq, List.not_mem_nil] at hq
    rcases hq with hq | hq | hq
    · obtain ⟨c0, c1, hc⟩ := ih0 q hq
      rw [opts_setState] at hc
      exact ⟨c0, c1, hc⟩
    · obtain ⟨c0, c1, hc⟩ := ih1 q hq
      rw [hopts1] at hc
      exact ⟨c0, c1, hc⟩
    · subst hq
      rw [hopts1, ho] at ho1
      cases ho1
      exact ⟨child0, child1, by rw [ho, ← h0, ← ho2]⟩

/-- C19: on every finite graph whose choice slots point into the heap, with a root that
is not null and all tags `UNVISITED` at the start, `traverseGraph` does not fail: it
returns a heap, and each call of `evaluateGraphNode` in the run is for a chapter whose
two choice slots are both not terminal, so no step reads the tag of a terminal slot. -/
theorem traverseGraph_never_fails (h : Heap) (root : Nat) (hv : ValidPtrs h)
    (hU : AllUnvisited h) (hroot : root < h.length) :
    ∃ h1 tr,
      (∀ fuel, 2 * h.length + 1 ≤ fuel →
        traverseGraph fuel h root = .ok h1 ∧ traverseGraphLog fuel h root = .ok (h1, tr)) ∧
      ∀ q, Event.evaluate q ∈ tr → ∃ c0 c1, opts h q = some (some c0, some c1) := by
  obtain ⟨h1, tr, htt, hf⟩ := traverseGraphLog_total h root hv hU hroot
  exact ⟨h1, tr, hf, htt.evaluate_opts⟩

/-- The statement of C19 at the graph `A = (A, B)`, `B = (C, D)`, `C` terminal,
`D = (A, A)`. -/
theorem traverseGraph_never_fails_witness :
    ValidPtrs staleGraph ∧ AllUnvisited staleGraph ∧ 0 < staleGraph.length ∧
    ∃ h1 tr,
      (∀ fuel, 2 * staleGraph.length + 1 ≤ fuel →
        traverseGraph fuel staleGraph 0 = .ok h1 ∧
          traverseGraphLog fuel staleGraph 0 = .ok (h1, tr)) ∧
      ∀ q, Event.evaluate q ∈ tr → ∃ c0 c1, opts staleGraph q = some (some c0, some c1) :=
  ⟨by decide, by decide, by decide,
    traverseGraph_never_fails staleGraph 0 (by decide) (by decide) (by decide)⟩

/-! ## The changes of a tag during a traversal -/

theorem changes_append :
    ∀ (a : List Event) (h : Heap) (b : List Event),
      changes h (a ++ b) = changes h a ++ changes (run h a) b := by
  intro a
  induction a with
  | nil => intro h b; rfl
  | cons e a ih =>
    intro h b
    cases e with
    | evaluate p =>
      simp only [List.cons_append, changes, run_cons, Event.effect]
      exact ih h b
    | assign p s =>
      simp only [List.cons_append, changes, run_cons, Event.effect]
      cases tag h p with
      | none => exact ih _ b
      | some t =>
        by_cases hts : t = s
        · simp only [hts, if_true]
          exact ih _ b
        · simp only [hts, if_false, List.cons_append]
          exact congrArg _ (ih _ b)

theorem changes_assign {h : Heap} {p : Nat} {s t : GraphNodeStatus}
    (ht : tag h p = some t) (hc : t = s ∨ Change t s) :
    ∀ c ∈ changes h [.assign p s], Change c.2.1 c.2.2 := by
  intro c hcm
  simp only [changes, ht] at hcm
  by_cases hts : t = s
  · simp [hts] at hcm
  · simp only [hts, if_false, List.mem_singleton] at hcm
    subst hcm
    rcases hc with hc | hc
    · exact absurd hc hts
    · exact hc

theorem changes_evaluate_assign {h : Heap} {p : Nat} {s t : GraphNodeStatus}
    (ht : tag h p = some t) (hc : t = s ∨ Change t s) :
    ∀ c ∈ changes h [.evaluate p, .assign p s], Change c.2.1 c.2.2 :=
  changes_assign ht hc

theorem changes_assign_PROCESSING {h : Heap} {p : Nat} (hU : tag h p = some .UNVISITED)
    (rest : List Event)
    (hrest : ∀ c ∈ changes (setState h p .PROCESSING) rest, Change c.2.1 c.2.2) :
    ∀ c ∈ changes h (.assign p .PROCESSING :: rest), Change c.2.1 c.2.2 := by
  intro c hcm
  simp only [changes, hU, reduceCtorEq, if_false, List.mem_cons] at hcm
  rcases hcm with hcm | hcm
  · subst hcm
    exact Or.inl ⟨rfl, rfl⟩
  · exact hrest c hcm

/-- The function `evaluateGraphNode` returns `LEADS_TO_END` or `DEAD_END`. -/
theorem evaluateGraphNode_cases {h : Heap} {p : Nat} {s : GraphNodeStatus}
    (he : evaluateGraphNode h p = .ok s) : s = .LEADS_TO_END ∨ s = .DEAD_END := by
  obtain ⟨o, c0, t0, _, _, _, hcase⟩ := evaluateGraphNode_ok he
  rcases hcase with ⟨_, hs⟩ | ⟨_, c1, t1, _, _, ⟨_, hs⟩ | ⟨_, hs⟩⟩
  · exact Or.inl hs
  · exact Or.inl hs
  · exact Or.inr hs

/-- For a chapter tagged `LEADS_TO_END`, `evaluateGraphNode` returns `LEADS_TO_END`. -/
theorem evaluateGraphNode_keeps_LEADS {h : Heap} {p : Nat} {s : GraphNodeStatus}
    (hj : Justified h) (hp : tag h p = some .LEADS_TO_END)
    (he : evaluateGraphNode h p = .ok s) : s = .LEADS_TO_END := by
  obtain ⟨o, c0, t0, ho, h0, ht0, hcase⟩ := evaluateGraphNode_ok he
  rcases hcase with ⟨_, hs⟩ | ⟨hn0, c1, t1, h1, ht1, ⟨_, hs⟩ | ⟨hn1, _⟩⟩
  · exact hs
  · exact hs
  · exfalso
    obtain ⟨o', ho', hj'⟩ := hj p hp
    rw [ho] at ho'
    cases ho'
    rcases hj' with e | e | ⟨c, hc, hcL⟩
    · rw [h0] at e; cases e
    · rw [h1] at e; cases e
    · rcases hc with hc | hc
      · rw [h0] at hc; cases hc
        rw [ht0] at hcL; cases hcL; exact hn0 rfl
      · rw [h1] at hc; cases hc
        rw [ht1] at hcL; cases hcL; exact hn1 rfl

theorem Change_or_eq (t s : GraphNodeStatus) (ht : t ≠ .UNVISITED)
    (hs : s = .LEADS_TO_END ∨ s = .DEAD_END) (hL : t = .LEADS_TO_END → s = .LEADS_TO_END) :
    t = s ∨ Change t s := by
  cases t <;> cases s <;> simp_all [Change]

/-- The assignment of the result of `evaluateGraphNode` to a chapter that is not
`UNVISITED` changes nothing or is one of the four changes. -/
theorem changes_evaluate {h : Heap} {p : Nat} {s : GraphNodeStatus} (hj : Justified h)
    (hnU : tag h p ≠ some .UNVISITED) (he : evaluateGraphNode h p = .ok s) :
    ∀ c ∈ changes h [.evaluate p, .assign p s], Change c.2.1 c.2.2 := by
  obtain ⟨o, _, _, ho, _⟩ := evaluateGraphNode_ok he
  obtain ⟨t, ht⟩ := (tag_isSome_iff h p).mpr ((opts_isSome_iff h p).mp ⟨o, ho⟩)
  refine changes_evaluate_assign ht (Change_or_eq t s ?_ (evaluateGraphNode_cases he) ?_)
  · intro e; exact hnU (by rw [ht, e])
  · intro e; exact evaluateGraphNode_keeps_LEADS hj (by rw [ht, e]) he

/-- The assignment of `LEADS_TO_END` to a chapter that is not `UNVISITED` changes
nothing or is one of the four changes. -/
theorem changes_LEADS {h : Heap} {p : Nat} {o : Option Nat × Option Nat}
    (ho : opts h p = some o) (hnU : tag h p ≠ some .UNVISITED) :
    ∀ c ∈ changes h [.assign p .LEADS_TO_END], Change c.2.1 c.2.2 := by
  obtain ⟨t, ht⟩ := (tag_isSome_iff h p).mpr ((opts_isSome_iff h p).mp ⟨o, ho⟩)
  refine changes_assign ht (Change_or_eq t _ ?_ (Or.inl rfl) (fun _ => rfl))
  intro e; exact hnU (by rw [ht, e])

/-- Every change of a tag in a run that starts from a heap in which each chapter
tagged `LEADS_TO_END` has a terminal slot or a child tagged so is one of the four
changes. -/
theorem TravT.changes_ok {h : Heap} {p : Nat} {tr : List Event} {h' : Heap}
    (ht : TravT h p tr h') :
    Justified h → ∀ c ∈ changes h tr, Change c.2.1 c.2.2 := by
  induction ht with
  | skip h p hs => intro _ c hc; simp [changes] at hc
  | procEnd h p o hP ho h2 =>
    intro _
    exact changes_assign hP (Or.inr (Or.inr (Or.inr (Or.inl ⟨rfl, rfl⟩))))
  | procLeads h p o child hP ho h2 hc =>
    intro _
    exact changes_assign hP (Or.inr (Or.inr (Or.inr (Or.inl ⟨rfl, rfl⟩))))
  | procVisit h p o child tr h1 s hP ho h2 hc htt hev ih =>
    intro hj c hcm
    rw [changes_append, htt.run_eq, List.mem_append] at hcm
    rcases hcm with hcm | hcm
    · exact ih hj c hcm
    · refine changes_evaluate (htt.toTrav.justified hj).1 ?_ hev c hcm
      intro e
      have := htt.toTrav.unvisited_of p e
      rw [hP] at this
      cases this
  | procEval h p o child t s hP ho h2 hc hL hU hev =>
    intro hj
    exact changes_evaluate hj (by rw [hP]; simp) hev
  | newEnd0 h p o hU ho h1 =>
    intro _
    refine changes_assign_PROCESSING hU _ ?_
    exact changes_assign (tag_setState_self h p _ _ hU)
      (Or.inr (Or.inr (Or.inr (Or.inl ⟨rfl, rfl⟩))))
  | newEnd1 h p o child0 tr0 h1 o1 hU ho h0 htt ho1 h2 ih =>
    intro hj
    have hj0 : Justified (setState h p .PROCESSING) :=
      (Justified_setState_other hj p _ (by simp) (by rw [hU]; simp)).1
    refine changes_assign_PROCESSING hU _ ?_
    intro c hcm
    rw [changes_append, htt.run_eq, List.mem_append] at hcm
    rcases hcm with hcm | hcm
    · exact ih hj0 c hcm
    · refine changes_LEADS ho1 ?_ c hcm
      intro e
      have := htt.toTrav.unvisited_of p e
      rw [tag_setState_self h p _ _ hU] at this
      cases this
  | newFull h p o child0 tr0 h1 o1 child1 tr1 h2 s hU ho h0 htt0 ho1 ho2 htt1 hev ih0 ih1 =>
    intro hj
    have hj0 : Justified (setState h p .PROCESSING) :=
      (Justified_setState_other hj p _ (by simp) (by rw [hU]; simp)).1
    have hj1 : Justified h1 := (htt0.toTrav.justified hj0).1
    have hj2 : Justified h2 := (htt1.toTrav.justified hj1).1
    refine changes_assign_PROCESSING hU _ ?_
    intro c hcm
    rw [changes_append, htt0.run_eq, List.mem_append, changes_append, htt1.run_eq,
      List.mem_append] at hcm
    rcases hcm with hcm | hcm | hcm
    · exact ih0 hj0 c hcm
    · exact ih1 hj1 c hcm
    · refine changes_evaluate hj2 ?_ hev c hcm
      intro e
      have := htt0.toTrav.unvisited_of p (htt1.toTrav.unvisited_of p e)
      rw [tag_setState_self h p _ _ hU] at this
      cases this

theorem Justified_of_AllUnvisited {h : Heap} (hU : AllUnvisited h) : Justified h := by
  intro p hp
  have hlt : p < h.length := (tag_isSome_iff h p).mp ⟨_, hp⟩
  rw [(AllUnvisited_iff_tag h).mp hU p hlt] at hp
  cases hp

/-- C20: in the run of `traverseGraph` from a heap with all tags `UNVISITED`, whose
events are a complete record of what the run does to the heap, every change of the tag
of a chapter is one of `UNVISITED` to `PROCESSING`, `PROCESSING` to `DEAD_END`,
`PROCESSING` to `LEADS_TO_END` and `DEAD_END` to `LEADS_TO_END`; so no tag
`LEADS_TO_END` is changed, no tag is changed to `UNVISITED`, and a tag is changed to
`PROCESSING` only from `UNVISITED`. -/
theorem traverseGraph_changes (h : Heap) (root : Nat) (hv : ValidPtrs h)
    (hU : AllUnvisited h) (hroot : root < h.length) :
    ∃ h1 tr,
      (∀ fuel, 2 * h.length + 1 ≤ fuel → traverseGraphLog fuel h root = .ok (h1, tr)) ∧
      run h tr = h1 ∧
      ∀ c ∈ changes h tr, Change c.2.1 c.2.2 ∧ c.2.1 ≠ .LEADS_TO_END ∧
        c.2.2 ≠ .UNVISITED ∧ (c.2.2 = .PROCESSING → c.2.1 = .UNVISITED) := by
  obtain ⟨h1, tr, htt, hf⟩ := traverseGraphLog_total h root hv hU hroot
  refine ⟨h1, tr, fun fuel hfuel => (hf fuel hfuel).2, htt.run_eq, ?_⟩
  intro c hc
  have hch := htt.changes_ok (Justified_of_AllUnvisited hU) c hc
  refine ⟨hch, ?_, ?_, ?_⟩
  · rintro e
    rcases hch with ⟨e1, _⟩ | ⟨e1, _⟩ | ⟨e1, _⟩ | ⟨e1, _⟩ <;> rw [e] at e1 <;> cases e1
  · rintro e
    rcases hch with ⟨_, e1⟩ | ⟨_, e1⟩ | ⟨_, e1⟩ | ⟨_, e1⟩ <;> rw [e] at e1 <;> cases e1
  · rintro e
    rcases hch with ⟨e0, _⟩ | ⟨_, e1⟩ | ⟨_, e1⟩ | ⟨_, e1⟩
    · exact e0
    all_goals rw [e] at e1; cases e1

/-- The statement of C20 at the graph `A = (A, B)`, `B = (C, D)`, `C` terminal,
`D = (A, A)`. -/
theorem traverseGraph_changes_witness :
    ValidPtrs staleGraph ∧ AllUnvisited staleGraph ∧ 0 < staleGraph.length ∧
    ∃ h1 tr,
      (∀ fuel, 2 * staleGraph.length + 1 ≤ fuel →
        traverseGraphLog fuel staleGraph 0 = .ok (h1, tr)) ∧
      run staleGraph tr = h1 ∧
      ∀ c ∈ changes staleGraph tr, Change c.2.1 c.2.2 ∧ c.2.1 ≠ .LEADS_TO_END ∧
        c.2.2 ≠ .UNVISITED ∧ (c.2.2 = .PROCESSING → c.2.1 = .UNVISITED) :=
  ⟨by decide, by decide, by decide,
    traverseGraph_changes staleGraph 0 (by decide) (by decide) (by decide)⟩

/-! ## The tags of the reachable chapters after a traversal -/

/-- C21: when `traverseGraph(root)` returns on a finite well-formed graph that it was
started on with all tags `UNVISITED`, every chapter that can be reached from the root is
tagged `DEAD_END` or `LEADS_TO_END`; none is left `UNVISITED` or `PROCESSING`. -/
theorem traverseGraph_reachable_final (h : Heap) (root : Nat) (hw : WellFormed h)
    (hU : AllUnvisited h) (hroot : root < h.length) :
    ∃ h1, (∀ fuel, 2 * h.length + 1 ≤ fuel → traverseGraph fuel h root = .ok h1) ∧
      ∀ m, Relation.ReflTransGen (Step (opts h)) root m →
        tag h1 m = some .DEAD_END ∨ tag h1 m = some .LEADS_TO_END := by
  have hun := unvisited_le_length h
  obtain ⟨h1, h1e⟩ := traverseGraph_total (2 * h.length + 1) h root
    (Step_lt_of_ValidPtrs hw.1) hroot (ProcOK_of_AllUnvisited hU) (Or.inl (by omega))
  refine ⟨h1, fun fuel hf => traverseGraph_mono hf h1e, ?_⟩
  intro m hm
  have ht := traverseGraph_Trav _ _ _ _ h1e
  obtain ⟨hlt, hnU⟩ := ht.reach_visited hU (Paired_of_BothOrNone hw.2)
    (Step_lt_of_ValidPtrs hw.1) hroot m hm
  obtain ⟨t, htag⟩ := (tag_isSome_iff h1 m).mpr (by rw [ht.length_eq]; exact hlt)
  have hnP : tag h1 m ≠ some .PROCESSING := by
    intro hP
    have h0 := ht.processing_of m hP
    rw [(AllUnvisited_iff_tag h).mp hU m hlt] at h0
    cases h0
  rw [htag] at hnU hnP ⊢
  cases t
  · exact Or.inl rfl
  · exact absurd rfl hnU
  · exact absurd rfl hnP
  · exact Or.inr rfl

/-- The statement of C21 at the graph `A = (A, B)`, `B = (C, D)`, `C` terminal,
`D = (A, A)`. -/
theorem traverseGraph_reachable_final_witness :
    WellFormed staleGraph ∧ AllUnvisited staleGraph ∧ 0 < staleGraph.length ∧
    ∃ h1, (∀ fuel, 2 * staleGraph.length + 1 ≤ fuel →
        traverseGraph fuel staleGraph 0 = .ok h1) ∧
      ∀ m, Relation.ReflTransGen (Step (opts staleGraph)) 0 m →
        tag h1 m = some .DEAD_END ∨ tag h1 m = some .LEADS_TO_END :=
  ⟨by decide, by decide, by decide,
    traverseGraph_reachable_final staleGraph 0 (by decide) (by decide) (by decide)⟩

/-! ## The order of the two choices -/

/-- C22: the verdict depends on the order of the two choice slots of a chapter.  The
graphs `orderGraph` and `swappedGraph` are well-formed, have the same root and differ
only in the order of the two choices of `A`; the analysis pass classifies the first as
`POSSIBLE` and the second as `HAS_MAZE`. -/
theorem analysisPass_order_dependent :
    WellFormed orderGraph ∧ WellFormed swappedGraph ∧
    (∀ p, opts swappedGraph p =
      if p = 0 then (opts orderGraph p).map Prod.swap else opts orderGraph p) ∧
    ∃ h1 h2, ∀ fuel, 11 ≤ fuel →
      analysisPass fuel (storeOf 5) orderGraph = .ok (h1, .POSSIBLE) ∧
      analysisPass fuel (storeOf 5) swappedGraph = .ok (h2, .HAS_MAZE) := by
  have e1 : ∃ h1, analysisPass 11 (storeOf 5) orderGraph = .ok (h1, .POSSIBLE) := ⟨_, rfl⟩
  have e2 : ∃ h2, analysisPass 11 (storeOf 5) swappedGraph = .ok (h2, .HAS_MAZE) := ⟨_, rfl⟩
  obtain ⟨h1, e1⟩ := e1
  obtain ⟨h2, e2⟩ := e2
  refine ⟨by decide, by decide, ?_, h1, h2, fun fuel hf =>
    ⟨analysisPass_mono hf e1, analysisPass_mono hf e2⟩⟩
  intro p
  match p with
  | 0 => rfl
  | 1 => rfl
  | 2 => rfl
  | 3 => rfl
  | 4 => rfl
  | n + 5 => rfl

/-! ## A line feed at the end of the text -/

/-- C27, evaluated at the text `"a\n"`: the line feed is the last character of the
text, and `findAndReplaceNewLine` returns with the error flag 0 and the pointer on the
terminator behind the text, because the test after the increment compares the pointer,
not the character it points to. -/
theorem findAndReplaceNewLine_last_character :
    findAndReplaceNewLine [97, 10, 0] (some 0) 0 = .ok ([97, 0, 0], some 2, 0) ∧
    stringAt [97, 0, 0] (some 2) = .ok [] :=
  ⟨rfl, rfl⟩

/-! ## The lines of a raw chapter text -/

theorem stringAt_append (pre a r : List Nat) (h0 : 0 ∉ a) :
    stringAt (pre ++ (a ++ 0 :: r)) (some pre.length) = .ok a := by
  unfold stringAt strlen
  simp only [List.drop_left]
  rw [strlenFrom_append r a h0]
  simp only [List.take_left]

theorem count_split (c : Nat) (a r : List Nat) (hc : c ∉ a) :
    (a ++ c :: r).count c = r.count c + 1 := by
  rw [List.count_append, List.count_eq_zero_of_not_mem hc, List.count_cons_self]
  omega

/-- A text without line feed: the first search fails. -/
theorem getChapterPropertiesFromText_none (raw rest : List Nat) (h10 : 10 ∉ raw)
    (h0 : 0 ∉ raw) (title text : Option Nat) (options : Option Nat × Option Nat) :
    getChapterPropertiesFromText (raw ++ 0 :: rest) (some 0) title text options 0 =
      .ok (raw ++ 0 :: rest, some 0, none, options, ERR_IO) := by
  have hio : ¬ ERR_IO = 0 := by decide
  have e1 := findAndReplaceNewLine_none [] raw rest h10 h0
  simp only [List.nil_append, List.length_nil] at e1
  unfold getChapterPropertiesFromText
  simp only [ne_eq, not_true_eq_false, if_false, e1, hio, not_false_eq_true, if_true]

/-- A text with one line feed: the second search fails. -/
theorem getChapterPropertiesFromText_one (t r1 rest : List Nat) (ht : 10 ∉ t) (h0t : 0 ∉ t)
    (hr1 : 10 ∉ r1) (h0r1 : 0 ∉ r1) (title text : Option Nat)
    (options : Option Nat × Option Nat) :
    getChapterPropertiesFromText (t ++ 10 :: (r1 ++ 0 :: rest)) (some 0) title text options 0 =
      .ok (t ++ 0 :: (r1 ++ 0 :: rest), some 0, none, (some (t.length + 1), options.2),
        ERR_IO) := by
  have hio : ¬ ERR_IO = 0 := by decide
  have e1 := findAndReplaceNewLine_found [] t (r1 ++ 0 :: rest) ht h0t
  simp only [List.nil_append, List.length_nil, Nat.zero_add] at e1
  have e2 := findAndReplaceNewLine_none (t ++ [0]) r1 rest hr1 h0r1
  simp only [List.append_assoc, List.singleton_append, List.length_append,
    List.length_singleton] at e2
  unfold getChapterPropertiesFromText
  simp only [ne_eq, not_true_eq_false, if_false, e1, e2, hio, not_false_eq_true, if_true]

/-- A text with two line feeds: the third search fails. -/
theorem getChapterPropertiesFromText_two (t o1 r2 rest : List Nat) (ht : 10 ∉ t)
    (h0t : 0 ∉ t) (ho1 : 10 ∉ o1) (h0o1 : 0 ∉ o1) (hr2 : 10 ∉ r2) (h0r2 : 0 ∉ r2)
    (title text : Option Nat) (options : Option Nat × Option Nat) :
    getChapterPropertiesFromText (t ++ 10 :: (o1 ++ 10 :: (r2 ++ 0 :: rest))) (some 0) title
        text options 0 =
      .ok (t ++ 0 :: (o1 ++ 0 :: (r2 ++ 0 :: rest)), some 0, none,
        (some (t.length + 1), some (t.length + 1 + o1.length + 1)), ERR_IO) := by
  have hio : ¬ ERR_IO = 0 := by decide
  have e1 := findAndReplaceNewLine_found [] t (o1 ++ 10 :: (r2 ++ 0 :: rest)) ht h0t
  simp only [List.nil_append, List.length_nil, Nat.zero_add] at e1
  have e2 := findAndReplaceNewLine_found (t ++ [0]) o1 (r2 ++ 0 :: rest) ho1 h0o1
  simp only [List.append_assoc, List.singleton_append, List.length_append,
    List.length_singleton] at e2
  have e3 := findAndReplaceNewLine_none (t ++ 0 :: (o1 ++ [0])) r2 rest hr2 h0r2
  simp only [List.append_assoc, List.singleton_append, List.length_append,
    List.length_singleton, List.cons_append, List.length_cons, List.nil_append,
    List.length_nil, Nat.zero_add] at e3
  have hoff : t.length + 1 + o1.length + 1 = t.length + (o1.length + 1 + 1) := by omega
  unfold getChapterPropertiesFromText
  simp only [ne_eq, not_true_eq_false, if_false, e1, e2, hio, not_false_eq_true, if_true]
  rw [hoff, e3]

/-- A text with three line feeds: the three searches succeed. -/
theorem getChapterPropertiesFromText_three (t o1 o2 r3 : List Nat) (ht : 10 ∉ t)
    (h0t : 0 ∉ t) (ho1 : 10 ∉ o1) (h0o1 : 0 ∉ o1) (ho2 : 10 ∉ o2) (h0o2 : 0 ∉ o2)
    (title text : Option Nat) (options : Option Nat × Option Nat) :
    getChapterPropertiesFromText (t ++ 10 :: (o1 ++ 10 :: (o2 ++ 10 :: r3))) (some 0) title
        text options 0 =
      .ok (t ++ 0 :: (o1 ++ 0 :: (o2 ++ 0 :: r3)), some 0,
        some (t.length + 1 + o1.length + 1 + o2.length + 1),
        (some (t.length + 1), some (t.length + 1 + o1.length + 1)), 0) := by
  have e1 := findAndReplaceNewLine_found [] t (o1 ++ 10 :: (o2 ++ 10 :: r3)) ht h0t
  simp only [List.nil_append, List.length_nil, Nat.zero_add] at e1
  have e2 := findAndReplaceNewLine_found (t ++ [0]) o1 (o2 ++ 10 :: r3) ho1 h0o1
  simp only [List.append_assoc, List.singleton_append, List.length_append,
    List.length_singleton] at e2
  have e3 := findAndReplaceNewLine_found (t ++ 0 :: (o1 ++ [0])) o2 r3 ho2 h0o2
  simp only [List.append_assoc, List.singleton_append, List.length_append,
    List.length_singleton, List.cons_append, List.length_cons, List.nil_append,
    List.length_nil, Nat.zero_add] at e3
  have hoff : t.length + 1 + o1.length + 1 = t.length + (o1.length + 1 + 1) := by omega
  unfold getChapterPropertiesFromText
  simp only [ne_eq, not_true_eq_false, if_false, e1, e2]
  rw [hoff, e3]

/-- The strings of a block in which three fields are closed by terminators. -/
theorem stringAt_layout (t o1 o2 body rest : List Nat) (h0t : 0 ∉ t) (h0o1 : 0 ∉ o1)
    (h0o2 : 0 ∉ o2) (h0b : 0 ∉ body) :
    stringAt (t ++ 0 :: (o1 ++ 0 :: (o2 ++ 0 :: (body ++ 0 :: rest)))) (some 0) = .ok t ∧
    stringAt (t ++ 0 :: (o1 ++ 0 :: (o2 ++ 0 :: (body ++ 0 :: rest))))
      (some (t.length + 1)) = .ok o1 ∧
    stringAt (t ++ 0 :: (o1 ++ 0 :: (o2 ++ 0 :: (body ++ 0 :: rest))))
      (some (t.length + 1 + o1.length + 1)) = .ok o2 ∧
    stringAt (t ++ 0 :: (o1 ++ 0 :: (o2 ++ 0 :: (body ++ 0 :: rest))))
      (some (t.length + 1 + o1.length + 1 + o2.length + 1)) = .ok body := by
  refine ⟨?_, ?_, ?_, ?_⟩
  · exact stringAt_append [] t _ h0t
  · have := stringAt_append (t ++ [0]) o1 (o2 ++ 0 :: (body ++ 0 :: rest)) h0o1
    simpa using this
  · have := stringAt_append (t ++ 0 :: (o1 ++ [0])) o2 (body ++ 0 :: rest) h0o2
    simp only [List.append_assoc, List.singleton_append, List.length_append,
      List.length_singleton, List.cons_append, List.length_cons] at this
    have hoff : t.length + 1 + o1.length + 1 = t.length + (o1.length + 1 + 1) := by omega
    rw [hoff]
    exact this
  · have := stringAt_append (t ++ 0 :: (o1 ++ 0 :: (o2 ++ [0]))) body rest h0b
    simp only [List.append_assoc, List.singleton_append, List.length_append,
      List.length_singleton, List.cons_append, List.length_cons] at this
    have hoff : t.length + 1 + o1.length + 1 + o2.length + 1 =
        t.length + (o1.length + (o2.length + 1 + 1) + 1) := by omega
    rw [hoff]
    exact this

/-- C23: for a raw chapter text (the string at the start of the block: its bytes up to
the first terminator) with at least three line feeds, `getChapterPropertiesFromText`
leaves the error flag 0, and afterwards `title` is the string before the first line
feed, `options[0]` and `options[1]` are the second and the third line and `text` is all
that follows the third line feed; for a raw text with fewer than three line feeds it
sets the error flag to `ERR_IO`. -/
theorem getChapterPropertiesFromText_lines (raw rest : List Nat) (h0 : 0 ∉ raw)
    (title text : Option Nat) (options : Option Nat × Option Nat) :
    (3 ≤ raw.count 10 →
      ∃ t o1 o2 body mem x p1 p2,
        raw = t ++ 10 :: (o1 ++ 10 :: (o2 ++ 10 :: body)) ∧
        10 ∉ t ∧ 10 ∉ o1 ∧ 10 ∉ o2 ∧
        getChapterPropertiesFromText (raw ++ 0 :: rest) (some 0) title text options 0 =
          .ok (mem, some 0, some x, (some p1, some p2), 0) ∧
        stringAt mem (some 0) = .ok t ∧ stringAt mem (some p1) = .ok o1 ∧
        stringAt mem (some p2) = .ok o2 ∧ stringAt mem (some x) = .ok body) ∧
    (raw.count 10 < 3 →
      ∃ mem t x o,
        getChapterPropertiesFromText (raw ++ 0 :: rest) (some 0) title text options 0 =
          .ok (mem, t, x, o, ERR_IO)) := by
  rcases split_first 10 raw with hn | ⟨t, r1, hraw, ht⟩
  · refine ⟨fun h3 => ?_, fun _ => ⟨_, _, _, _,
      getChapterPropertiesFromText_none raw rest hn h0 title text options⟩⟩
    rw [List.count_eq_zero_of_not_mem hn] at h3
    omega
  · subst hraw
    have h0t : 0 ∉ t := fun h => h0 (by simp [h])
    have h0r1 : 0 ∉ r1 := fun h => h0 (by simp [h])
    rw [count_split 10 t r1 ht]
    have hm1 : (t ++ 10 :: r1) ++ 0 :: rest = t ++ 10 :: (r1 ++ 0 :: rest) := by simp
    rw [hm1]
    rcases split_first 10 r1 with hn | ⟨o1, r2, hr1, ho1⟩
    · refine ⟨fun h3 => ?_, fun _ => ⟨_, _, _, _,
        getChapterPropertiesFromText_one t r1 rest ht h0t hn h0r1 title text options⟩⟩
      rw [List.count_eq_zero_of_not_mem hn] at h3
      omega
    · subst hr1
      have h0o1 : 0 ∉ o1 := fun h => h0r1 (by simp [h])
      have h0r2 : 0 ∉ r2 := fun h => h0r1 (by simp [h])
      rw [count_split 10 o1 r2 ho1]
      have hm2 : (o1 ++ 10 :: r2) ++ 0 :: rest = o1 ++ 10 :: (r2 ++ 0 :: rest) := by simp
      rw [hm2]
      rcases split_first 10 r2 with hn | ⟨o2, body, hr2, ho2⟩
      · refine ⟨fun h3 => ?_, fun _ => ⟨_, _, _, _,
          getChapterPropertiesFromText_two t o1 r2 rest ht h0t ho1 h0o1 hn h0r2 title text
            options⟩⟩
        rw [List.count_eq_zero_of_not_mem hn] at h3
        omega
      · subst hr2
        have h0o2 : 0 ∉ o2 := fun h => h0r2 (by simp [h])
        have h0b : 0 ∉ body := fun h => h0r2 (by simp [h])
        rw [count_split 10 o2 body ho2]
        have hm3 : (o2 ++ 10 :: body) ++ 0 :: rest = o2 ++ 10 :: (body ++ 0 :: rest) := by
          simp
        rw [hm3]
        refine ⟨fun _ => ?_, fun h3 => by omega⟩
        obtain ⟨s0, s1, s2, s3⟩ := stringAt_layout t o1 o2 body rest h0t h0o1 h0o2 h0b
        exact ⟨t, o1, o2, body, _, _, _, _, rfl, ht, ho1, ho2,
          getChapterPropertiesFromText_three t o1 o2 (body ++ 0 :: rest) ht h0t ho1 h0o1 ho2
            h0o2 title text options, s0, s1, s2, s3⟩

/-- The statement of C23 at the raw texts `"T\nA\nB\nxy"` and `"T\nA"`. -/
theorem getChapterPropertiesFromText_lines_witness :
    (∃ t o1 o2 body mem x p1 p2,
      [84, 10, 65, 10, 66, 10, 120, 121] = t ++ 10 :: (o1 ++ 10 :: (o2 ++ 10 :: body)) ∧
      10 ∉ t ∧ 10 ∉ o1 ∧ 10 ∉ o2 ∧
      getChapterPropertiesFromText ([84, 10, 65, 10, 66, 10, 120, 121] ++ 0 :: [])
          (some 0) none none (none, none) 0 =
        .ok (mem, some 0, some x, (some p1, some p2), 0) ∧
      stringAt mem (some 0) = .ok t ∧ stringAt mem (some p1) = .ok o1 ∧
      stringAt mem (some p2) = .ok o2 ∧ stringAt mem (some x) = .ok body) ∧
    (∃ mem t x o,
      getChapterPropertiesFromText ([84, 10, 65] ++ 0 :: []) (some 0) none none
          (none, none) 0 =
        .ok (mem, t, x, o, ERR_IO)) :=
  ⟨(getChapterPropertiesFromText_lines [84, 10, 65, 10, 66, 10, 120, 121] [] (by decide)
      none none (none, none)).1 (by decide),
    (getChapterPropertiesFromText_lines [84, 10, 65] [] (by decide) none none
      (none, none)).2 (by decide)⟩

/-! ## The choice of the player -/

theorem getChoiceLoop_invalid (rest : List Int) :
    ∀ line : List Int, (∀ c ∈ line, 0 ≤ c ∧ c ≠ 10) →
      getChoiceLoop S_INVALID (line ++ 10 :: rest) = (S_INVALID, rest) := by
  intro line
  induction line with
  | nil => intro _; simp [getChoiceLoop]
  | cons c line ih =>
    intro hl
    have hc := hl c (by simp)
    have h1 : ¬ c < 0 := by omega
    have hS : ¬ S_INVALID = S_BEGIN := by decide
    simp only [List.cons_append, getChoiceLoop, h1, hc.2, hS, if_false]
    exact ih (fun x hx => hl x (List.mem_cons_of_mem _ hx))

theorem getChoiceLoop_eof (state : Int) :
    ∀ line : List Int, (∀ c ∈ line, 0 ≤ c ∧ c ≠ 10) →
      getChoiceLoop state line = (EOF, []) ∧
      ∀ (e : Int) (rest : List Int), e < 0 →
        getChoiceLoop state (line ++ e :: rest) = (EOF, rest) := by
  intro line
  induction line generalizing state with
  | nil =>
    intro _
    refine ⟨rfl, fun e rest he => ?_⟩
    simp [getChoiceLoop, he]
  | cons c line ih =>
    intro hl
    have hc := hl c (by simp)
    have h1 : ¬ c < 0 := by omega
    have hl2 : ∀ x ∈ line, 0 ≤ x ∧ x ≠ 10 := fun x hx => hl x (List.mem_cons_of_mem _ hx)
    refine ⟨?_, fun e rest he => ?_⟩
    · simp only [getChoiceLoop, h1, hc.2, if_false]
      split
      · exact (ih _ hl2).1
      · exact (ih _ hl2).1
    · simp only [List.cons_append, getChoiceLoop, h1, hc.2, if_false]
      split
      · exact (ih _ hl2).2 e rest he
      · exact (ih _ hl2).2 e rest he

/-- The value that `getChoice` returns for a line. -/
theorem getChoice_line (line rest : List Int) (hl : ∀ c ∈ line, 0 ≤ c ∧ c ≠ 10) :
    getChoice (line ++ 10 :: rest) =
      (if line = [65] then 0 else if line = [66] then 1
        else if line = [] then S_BEGIN else S_INVALID, rest) := by
  unfold getChoice
  cases line with
  | nil => simp [getChoiceLoop]
  | cons c line =>
    have hc := hl c (by simp)
    have h1 : ¬ c < 0 := by omega
    have hl2 : ∀ x ∈ line, 0 ≤ x ∧ x ≠ 10 := fun x hx => hl x (List.mem_cons_of_mem _ hx)
    simp only [List.cons_append, getChoiceLoop, h1, hc.2, if_false, if_true]
    cases line with
    | nil =>
      simp only [List.nil_append, getChoiceLoop]
      by_cases h65 : c = 65
      · subst h65; simp [S_CHOICE_A]
      · by_cases h66 : c = 66
        · subst h66; simp [S_CHOICE_B]
        · simp [h65, h66]
    | cons d line =>
      have hd := hl2 d (by simp)
      have h2 : ¬ d < 0 := by omega
      have hl3 : ∀ x ∈ line, 0 ≤ x ∧ x ≠ 10 :=
        fun x hx => hl2 x (List.mem_cons_of_mem _ hx)
      have hstate : ∀ s : Int, s ≠ S_BEGIN →
          getChoiceLoop s ((d :: line) ++ 10 :: rest) = (S_INVALID, rest) := by
        intro s hs
        simp only [List.cons_append, getChoiceLoop, h2, hd.2, hs, if_false]
        exact getChoiceLoop_invalid rest line hl3
      show getChoiceLoop _ ((d :: line) ++ 10 :: rest) = _
      rw [hstate]
      · simp
      · split
        · decide
        · split <;> decide

/-- C24: `getChoice` reads the input up to and including the first line feed and
returns 0 exactly if the line before it is `"A"`, 1 exactly if it is `"B"`, and for
every other line a negative value that is not `EOF`; it returns `EOF` if the input
ends before a line feed. -/
theorem getChoice_spec (line rest : List Int) (hl : ∀ c ∈ line, 0 ≤ c ∧ c ≠ 10) :
    (∃ v, getChoice (line ++ 10 :: rest) = (v, rest) ∧
      (v = 0 ↔ line = [65]) ∧ (v = 1 ↔ line = [66]) ∧
      (line ≠ [65] → line ≠ [66] → v < 0 ∧ v ≠ EOF)) ∧
    getChoice line = (EOF, []) ∧
    ∀ (e : Int), e < 0 → getChoice (line ++ e :: rest) = (EOF, rest) := by
  refine ⟨⟨_, getChoice_line line rest hl, ?_, ?_, ?_⟩, (getChoiceLoop_eof _ line hl).1,
    fun e he => (getChoiceLoop_eof _ line hl).2 e rest he⟩
  · by_cases h65 : line = [65]
    · simp [h65]
    · by_cases h66 : line = [66]
      · simp [h66]
      · by_cases hn : line = []
        · simp [h65, hn, S_BEGIN]
        · simp [h65, h66, hn, S_INVALID]
  · by_cases h65 : line = [65]
    · simp [h65]
    · by_cases h66 : line = [66]
      · simp [h66]
      · by_cases hn : line = []
        · simp [h66, hn, S_BEGIN]
        · simp [h65, h66, hn, S_INVALID]
  · intro h65 h66
    by_cases hn : line = []
    · simp [h65, h66, hn, S_BEGIN, EOF]
    · simp [h65, h66, hn, S_INVALID, EOF]

/-- The statement of C24 at the line `"AB"`. -/
theorem getChoice_spec_witness :
    (∃ v, getChoice ([65, 66] ++ 10 :: [66, 10]) = (v, [66, 10]) ∧
      (v = 0 ↔ ([65, 66] : List Int) = [65]) ∧ (v = 1 ↔ ([65, 66] : List Int) = [66]) ∧
      (([65, 66] : List Int) ≠ [65] → ([65, 66] : List Int) ≠ [66] → v < 0 ∧ v ≠ EOF)) ∧
    getChoice [65, 66] = (EOF, []) ∧
    ∀ (e : Int), e < 0 → getChoice ([65, 66] ++ e :: [66, 10]) = (EOF, [66, 10]) :=
  getChoice_spec [65, 66] [66, 10] (by decide)

/-! ## Loading the chapters -/

theorem getChapterFromMapLoop_found_append (filename : List Nat) (q : Nat)
    (rest : List (Option MapEntry)) :
    ∀ es : List (Option MapEntry), getChapterFromMapLoop filename es = .ok (some q) →
      getChapterFromMapLoop filename (es ++ rest) = .ok (some q) := by
  intro es
  induction es with
  | nil => intro he; simp [getChapterFromMapLoop] at he
  | cons e es ih =>
    intro he
    cases e with
    | none => simp [getChapterFromMapLoop] at he
    | some entry =>
      simp only [List.cons_append, getChapterFromMapLoop] at he ⊢
      by_cases hk : strcmp entry.key_ filename = 0
      · simpa [hk] using he
      · simp only [hk, if_false] at he ⊢
        exact ih he

theorem keyDiffers_of_absent (filename : List Nat) :
    ∀ es : List (Option MapEntry), (∀ e ∈ es, holdsRecord e = true) →
      getChapterFromMapLoop filename es = .ok none →
      ∀ e ∈ es, keyDiffers filename e = true := by
  intro es
  induction es with
  | nil => intro _ _ e he; simp at he
  | cons e es ih =>
    intro hv he
    cases e with
    | none => simp [getChapterFromMapLoop] at he
    | some entry =>
      simp only [getChapterFromMapLoop] at he
      have hrec := hv (some entry) (by simp)
      by_cases hk : strcmp entry.key_ filename = 0
      · simp only [hk, if_true] at he
        have hnone : entry.value_ = none := Except.ok.inj he
        simp [holdsRecord, hnone] at hrec
      · simp only [hk, if_false] at he
        intro e2 he2
        rcases List.mem_cons.mp he2 with h1 | h1
        · subst h1
          simp [keyDiffers, hk]
        · exact ih (fun e he3 => hv e (List.mem_cons_of_mem _ he3)) he e2 h1

theorem KeyAbsent_of_lookup {map : Map} {filename : List Nat} (hok : EntriesOK map)
    (he : getChapterFromMap map filename = .ok none) : KeyAbsent map filename :=
  keyDiffers_of_absent filename map.entries hok he

/-- A failure before the parse is kept by the parse. -/
theorem parseRawChapter_error {raw : Option (List Nat)} {error : Nat} (he : error ≠ 0)
    {r : Option (List Nat) × Option Nat × Option Nat × (Option Nat × Option Nat) × Nat}
    (hp : parseRawChapter raw error = .ok r) : r.2.2.2.2 = error := by
  unfold parseRawChapter at hp
  cases raw with
  | none =>
    simp only [he, ne_eq, not_false_eq_true, if_true] at hp
    cases hp
    rfl
  | some mem =>
    simp only [getChapterPropertiesFromText, he, ne_eq, not_false_eq_true, if_true] at hp
    cases hp
    rfl

theorem validateOptionsAt_error {mem : Option (List Nat)}
    {option_files : Option Nat × Option Nat} {error : Nat} (he : error ≠ 0) :
    validateOptionsAt mem option_files error = .ok error := by
  unfold validateOptionsAt
  simp [he]

/-- When the part of `loadChapterFromFile` before the insert leaves the error flag 0,
the chapter was created. -/
theorem readChapter_chapter {env : Environment} {h : Heap} {filename : List Nat}
    {chapter : Option Nat} {h1 : Heap} {chapter1 : Option Nat} {mem : Option (List Nat)}
    {option_files : Option Nat × Option Nat}
    (he : readChapter env h filename chapter 0 = .ok (h1, chapter1, mem, option_files, 0)) :
    ∃ p, chapter1 = some p := by
  unfold readChapter at he
  cases hl : loadChapterText env.files filename none 0 with
  | mk raw_chapter error1 =>
    cases hc : createChapter env.allocChapter env.fresh h chapter error1 with
    | mk h2 rest =>
      obtain ⟨chapter2, error2⟩ := rest
      simp only [hl, hc] at he
      cases hp : parseRawChapter raw_chapter error2 with
      | error e => simp [hp] at he
      | ok r =>
        obtain ⟨mem1, title, text, o, error3⟩ := r
        simp only [hp] at he
        cases ha : assignText h2 chapter2 mem1 title text with
        | error e => simp [ha] at he
        | ok h3 =>
          simp only [ha] at he
          cases hv : validateOptionsAt mem1 o error3 with
          | error e => simp [hv] at he
          | ok error4 =>
            simp only [hv, Except.ok.injEq, Prod.mk.injEq] at he
            obtain ⟨_, hch, _, _, he4⟩ := he
            subst he4 hch
            by_cases hflag : error2 = 0
            · subst hflag
              unfold createChapter at hc
              by_cases h1z : error1 = 0
              · simp only [h1z, ne_eq, not_true_eq_false, if_false] at hc
                by_cases hal : env.allocChapter h.length = true
                · simp only [hal, if_true, Prod.mk.injEq] at hc
                  exact ⟨_, hc.2.1.symm⟩
                · simp only [hal, Bool.false_eq_true, if_false, Prod.mk.injEq] at hc
                  exact absurd hc.2.2 (by decide)
              · simp only [h1z, ne_eq, not_false_eq_true, if_true, Prod.mk.injEq] at hc
                exact hc.2.2.elim
            · have e1 := parseRawChapter_error hflag hp
              simp only at e1
              rw [e1, validateOptionsAt_error hflag] at hv
              exact absurd (Except.ok.inj hv) hflag

/-- What an insert that leaves the error flag 0 has done: the flag was 0, and the entry
for the file name, with a record if the chapter is not null, is the new last entry. -/
theorem insertChapterIntoMap_flag {alloc : Nat → Bool} {h : Heap} {map : Map}
    {filename : List Nat} {chapter : Option Nat} {error : Nat} {r : Option Nat} {map1 : Map}
    (he : insertChapterIntoMap alloc h map filename chapter error = .ok (r, map1, 0)) :
    error = 0 ∧ map1.entries = map.entries ++ [some ⟨filename, r⟩] ∧
      (chapter ≠ none → r ≠ none) := by
  unfold insertChapterIntoMap at he
  by_cases hz : error = 0
  · subst hz
    simp only [ne_eq, not_true_eq_false, if_false] at he
    have hvalue : ∀ m : Map,
        insertChapterIntoMapEntry h m filename chapter 0 = .ok (r, map1, 0) →
        (chapter ≠ none → r ≠ none) := by
      intro m hm hc
      obtain ⟨_, _, _, dup, _, hr⟩ := insertChapterIntoMapEntry_ok hm
      cases dup with
      | none => simpa [hr] using hc
      | some d => simp [hr]
    by_cases hfull : map.count_ ≥ map.length_
    · simp only [hfull, if_true] at he
      unfold resizeMap at he
      rcases resizeMapLoop_spec alloc map 0 (MAP_MALLOC_INTERVALL + 1) MAP_MALLOC_INTERVALL
        (by decide) (by decide) with ⟨k, hk1, _, _, hres⟩ | ⟨_, hres⟩
      · rw [hres] at he
        have hs : ¬ MAP_MALLOC_INTERVALL / 2 ^ k = 0 := by omega
        simp only [hs, if_false] at he
        obtain ⟨_, ⟨block, hblock, hlt⟩, hent, _⟩ := insertChapterIntoMapEntry_ok he
        simp only [Option.some.injEq] at hblock
        subst hblock
        rw [length_realloc] at hlt
        rw [entries_realloc map _ (Nat.le_of_lt hlt)] at hent
        exact ⟨rfl, hent, hvalue _ he⟩
      · rw [hres] at he
        simp only [if_true, Except.ok.injEq, Prod.mk.injEq] at he
        exact absurd he.2.2 (by decide)
    · simp only [hfull, if_false] at he
      obtain ⟨_, _, hent, _⟩ := insertChapterIntoMapEntry_ok he
      exact ⟨rfl, hent, hvalue _ he⟩
  · simp only [hz, ne_eq, not_false_eq_true, if_true, Except.ok.injEq, Prod.mk.injEq] at he
    exact he.2.2.elim

/-- An insert that sets or keeps an error flag leaves the entries as they are. -/
theorem insertChapterIntoMap_entries {alloc : Nat → Bool} {h : Heap} {map : Map}
    {filename : List Nat} {chapter : Option Nat} {error : Nat} {r : Option Nat} {map1 : Map}
    {error1 : Nat}
    (he : insertChapterIntoMap alloc h map filename chapter error = .ok (r, map1, error1))
    (hne : error1 ≠ 0) : map1.entries = map.entries := by
  unfold insertChapterIntoMap at he
  by_cases hz : error = 0
  · subst hz
    simp only [ne_eq, not_true_eq_false, if_false] at he
    by_cases hfull : map.count_ ≥ map.length_
    · simp only [hfull, if_true] at he
      unfold resizeMap at he
      rcases resizeMapLoop_spec alloc map 0 (MAP_MALLOC_INTERVALL + 1) MAP_MALLOC_INTERVALL
        (by decide) (by decide) with ⟨k, hk1, _, _, hres⟩ | ⟨_, hres⟩
      · rw [hres] at he
        have hs : ¬ MAP_MALLOC_INTERVALL / 2 ^ k = 0 := by omega
        simp only [hs, if_false] at he
        obtain ⟨herr, _⟩ := insertChapterIntoMapEntry_ok he
        exact absurd herr hne
      · rw [hres] at he
        simp only [if_true, Except.ok.injEq, Prod.mk.injEq] at he
        rw [← he.2.1]
    · simp only [hfull, if_false] at he
      obtain ⟨herr, _⟩ := insertChapterIntoMapEntry_ok he
      exact absurd herr hne
  · simp only [hz, ne_eq, not_false_eq_true, if_true, Except.ok.injEq, Prod.mk.injEq] at he
    rw [← he.2.1]

theorem EntriesOK_append {map map1 : Map} {filename : List Nat} {r : Option Nat}
    (hok : EntriesOK map) (hent : map1.entries = map.entries ++ [some ⟨filename, r⟩])
    (hr : r ≠ none) : EntriesOK map1 := by
  intro e he
  rw [hent, List.mem_append, List.mem_singleton] at he
  rcases he with he | he
  · exact hok e he
  · subst he
    cases r with
    | none => exact absurd rfl hr
    | some p => rfl

/-- One round of the loop of `loadAndAssignOptions` keeps `LoadedOnce`, if the call it
makes does. -/
theorem loadAndAssignOption_LoadedOnce
    (load : Load → List Nat → Option Nat → Except Fault (Load × Option Nat))
    (hload : ∀ st name chapter st1 c, LoadedOnce st →
      (st.error = 0 → getChapterFromMap st.map name = .ok none) →
      load st name chapter = .ok (st1, c) → LoadedOnce st1)
    (st : Load) (chapter : Option Nat) (mem : Option (List Nat)) (option_file : Option Nat)
    (option_index : Nat) (st1 : Load) (hinv : LoadedOnce st)
    (he : loadAndAssignOption load st chapter mem option_file option_index = .ok st1) :
    LoadedOnce st1 := by
  unfold loadAndAssignOption at he
  by_cases herr : st.error = 0
  · simp only [herr, ne_eq, not_true_eq_false, if_false] at he
    cases mem with
    | none => simp at he
    | some m =>
      simp only at he
      cases hs : stringAt m option_file with
      | error e => simp [hs] at he
      | ok name =>
        simp only [hs] at he
        by_cases hend : isEndOption name = 0
        · simp only [hend, ne_eq, not_true_eq_false, if_false] at he
          cases hl : getChapterFromMap st.map name with
          | error e => simp [hl] at he
          | ok found =>
            cases found with
            | some subchapter =>
              simp only [hl] at he
              cases hset : setOption st.heap chapter option_index (some subchapter) with
              | error e => simp [hset] at he
              | ok h1 =>
                simp only [hset, Except.ok.injEq] at he
                subst he
                exact ⟨hinv.1, hinv.2.1, fun _ => hinv.2.2 herr⟩
            | none =>
              simp only [hl] at he
              cases hld : load st name none with
              | error e => simp [hld] at he
              | ok res =>
                obtain ⟨st2, subchapter⟩ := res
                simp only [hld] at he
                have hinv2 := hload st name none st2 subchapter hinv (fun _ => hl) hld
                cases hset : setOption st2.heap chapter option_index subchapter with
                | error e => simp [hset] at he
                | ok h1 =>
                  simp only [hset, Except.ok.injEq] at he
                  subst he
                  exact hinv2
        · simp only [hend, ne_eq, not_false_eq_true, if_true] at he
          cases hset : setOption st.heap chapter option_index none with
          | error e => simp [hset] at he
          | ok h1 =>
            simp only [hset, Except.ok.injEq] at he
            subst he
            exact ⟨hinv.1, hinv.2.1, fun _ => hinv.2.2 herr⟩
  · simp only [herr, ne_eq, not_false_eq_true, if_true, Except.ok.injEq] at he
    subst he
    exact hinv

/-- The state after the insert in `loadChapterFromFile` satisfies `LoadedOnce`. -/
theorem LoadedOnce_insert {env : Environment} {st : Load} {filename : List Nat}
    {chapter : Option Nat} {h1 : Heap} {chapter1 : Option Nat} {mem : Option (List Nat)}
    {option_files : Option Nat × Option Nat} {error1 : Nat} {r : Option Nat} {map1 : Map}
    {error2 : Nat} (released : List Nat) (hinv : LoadedOnce st) (herr : st.error = 0)
    (habs : getChapterFromMap st.map filename = .ok none)
    (hread : readChapter env st.heap filename chapter st.error =
      .ok (h1, chapter1, mem, option_files, error1))
    (hins : insertChapterIntoMap env.alloc h1 st.map filename chapter1 error1 =
      .ok (r, map1, error2)) :
    LoadedOnce { heap := h1, map := map1, error := error2,
                 loaded := st.loaded ++ [filename], released := released } := by
  have hnew : filename ∉ st.loaded := by
    intro hmem
    obtain ⟨p, hp⟩ := hinv.2.2 herr filename hmem
    rw [habs] at hp
    cases hp
  have hnodup : (st.loaded ++ [filename]).Nodup := by
    rw [List.nodup_append]
    refine ⟨hinv.1, List.nodup_singleton _, ?_⟩
    intro a ha hb
    rw [List.mem_singleton] at hb
    subst hb
    exact hnew ha
  by_cases hz : error2 = 0
  · subst hz
    obtain ⟨he1, hent, hr⟩ := insertChapterIntoMap_flag hins
    subst he1
    rw [herr] at hread
    obtain ⟨p, hp⟩ := readChapter_chapter hread
    have hrn : r ≠ none := hr (by rw [hp]; simp)
    obtain ⟨q, hq⟩ : ∃ q, r = some q := by
      cases r with
      | none => exact absurd rfl hrn
      | some q => exact ⟨q, rfl⟩
    refine ⟨hnodup, EntriesOK_append hinv.2.1 hent hrn, fun _ name hname => ?_⟩
    rw [List.mem_append, List.mem_singleton] at hname
    rcases hname with hname | hname
    · obtain ⟨p2, hp2⟩ := hinv.2.2 herr name hname
      refine ⟨p2, ?_⟩
      show getChapterFromMapLoop name map1.entries = .ok (some p2)
      rw [hent]
      exact getChapterFromMapLoop_found_append name p2 _ _ hp2
    · subst hname
      refine ⟨q, ?_⟩
      rw [← hq]
      exact getChapterFromMap_after_insert hent (KeyAbsent_of_lookup hinv.2.1 habs)
  · have hent := insertChapterIntoMap_entries hins hz
    refine ⟨hnodup, ?_, fun h0 => absurd h0 hz⟩
    intro e he
    exact hinv.2.1 e (by rw [← hent]; exact he)

/-- A call of `loadChapterFromFile` for a file name that is not a key of the store keeps
`LoadedOnce`. -/
theorem loadChapterFromFile_LoadedOnce (env : Environment) :
    ∀ (fuel : Nat) (st : Load) (filename : List Nat) (chapter : Option Nat) (st1 : Load)
      (c : Option Nat), LoadedOnce st →
      (st.error = 0 → getChapterFromMap st.map filename = .ok none) →
      loadChapterFromFile env fuel st filename chapter = .ok (st1, c) → LoadedOnce st1 := by
  intro fuel
  induction fuel with
  | zero => intro st filename chapter st1 c _ _ he; simp [loadChapterFromFile] at he
  | succ fuel ih =>
    intro st filename chapter st1 c hinv habs he
    unfold loadChapterFromFile at he
    by_cases herr : st.error = 0
    · simp only [herr, ne_eq, not_true_eq_false, if_false] at he
      have hread0 : ∀ x, readChapter env st.heap filename chapter 0 = x →
          readChapter env st.heap filename chapter st.error = x := by
        intro x hx; rw [herr]; exact hx
      cases hread : readChapter env st.heap filename chapter 0 with
      | error e => simp [hread] at he
      | ok res =>
        obtain ⟨h1, chapter1, mem, option_files, error1⟩ := res
        simp only [hread] at he
        by_cases hio : error1 = ERR_IO
        · simp [hio] at he
        · simp only [hio, if_false] at he
          cases hins : insertChapterIntoMap env.alloc h1 st.map filename chapter1 error1 with
          | error e => simp [hins] at he
          | ok res2 =>
            obtain ⟨r, map1, error2⟩ := res2
            simp only [hins] at he
            by_cases hdup : r = chapter1
            · simp only [hdup, ne_eq, not_true_eq_false, if_false] at he
              have hst := LoadedOnce_insert st.released hinv herr (habs herr)
                (hread0 _ hread) hins
              unfold loadAndAssignOptions at he
              cases hr0 : loadAndAssignOption (loadChapterFromFile env fuel)
                  { heap := h1, map := map1, error := error2,
                    loaded := st.loaded ++ [filename], released := st.released }
                  chapter1 mem option_files.1 0 with
              | error e => simp [hr0] at he
              | ok st2 =>
                simp only [hr0] at he
                have hst2 := loadAndAssignOption_LoadedOnce _ ih _ _ _ _ _ _ hst hr0
                cases hr1 : loadAndAssignOption (loadChapterFromFile env fuel) st2 chapter1
                    mem option_files.2 1 with
                | error e => simp [hr1] at he
                | ok st3 =>
                  simp only [hr1, Except.ok.injEq, Prod.mk.injEq] at he
                  have hst3 := loadAndAssignOption_LoadedOnce _ ih _ _ _ _ _ _ hst2 hr1
                  rw [← he.1]
                  exact hst3
            · simp only [hdup, ne_eq, not_false_eq_true, if_true, Except.ok.injEq,
                Prod.mk.injEq] at he
              rw [← he.1]
              exact LoadedOnce_insert _ hinv herr (habs herr) (hread0 _ hread) hins
    · simp only [herr, ne_eq, not_false_eq_true, if_true, Except.ok.injEq,
        Prod.mk.injEq] at he
      rw [← he.1]
      exact hinv

theorem isEndOption_eq_zero {name : List Nat} (hn : name ≠ [45]) : isEndOption name = 0 := by
  unfold isEndOption
  rw [if_neg]
  rintro ⟨hlen, h0⟩
  apply hn
  cases name with
  | nil => simp at hlen
  | cons a l =>
    cases l with
    | nil =>
      simp only [List.getElem?_cons_zero, Option.some.injEq] at h0
      rw [h0]
    | cons b l => simp at hlen

/-- C25: during a load that `loadChapterFromFile` starts on an empty store no file name
is loaded twice: the file names that `loadChapterText` was called for are pairwise
different.  In each round `loadAndAssignOptions` sets the slot to null for the choice
`"-"` whatever the store holds and without a load, assigns the stored record for a
choice that `getChapterFromMap` finds, and calls `loadChapterFromFile` only for a
choice that `getChapterFromMap` does not find. -/
theorem loadChapterFromFile_loads_once (env : Environment) (fuel : Nat) (st : Load)
    (filename : List Nat) (chapter : Option Nat) (st1 : Load) (c : Option Nat)
    (hempty : st.map.count_ = 0) (hlog : st.loaded = [])
    (hrun : loadChapterFromFile env fuel st filename chapter = .ok (st1, c)) :
    st1.loaded.Nodup ∧
    ∀ (load : Load → List Nat → Option Nat → Except Fault (Load × Option Nat)) (s : Load)
      (parent : Option Nat) (mem : List Nat) (option_file : Option Nat) (option_index : Nat)
      (name : List Nat), s.error = 0 → stringAt mem option_file = .ok name →
      (name = [45] →
        loadAndAssignOption load s parent (some mem) option_file option_index =
          assignOption s parent option_index none) ∧
      (name ≠ [45] → ∀ subchapter, getChapterFromMap s.map name = .ok (some subchapter) →
        loadAndAssignOption load s parent (some mem) option_file option_index =
          assignOption s parent option_index (some subchapter)) ∧
      (name ≠ [45] → getChapterFromMap s.map name = .ok none →
        loadAndAssignOption load s parent (some mem) option_file option_index =
          match load s name none with
          | .error e => .error e
          | .ok (s1, subchapter) => assignOption s1 parent option_index subchapter) := by
  constructor
  · have hent := entries_of_count_zero hempty
    have hinv : LoadedOnce st := by
      refine ⟨by rw [hlog]; exact List.nodup_nil, ?_, ?_⟩
      · intro e he
        rw [hent] at he
        simp at he
      · intro _ name hname
        rw [hlog] at hname
        simp at hname
    have habs : st.error = 0 → getChapterFromMap st.map filename = .ok none := by
      intro _
      unfold getChapterFromMap
      rw [hent]
      rfl
    exact (loadChapterFromFile_LoadedOnce env fuel st filename chapter st1 c hinv habs hrun).1
  · intro load s parent mem option_file option_index name herr hname
    refine ⟨?_, ?_, ?_⟩
    · intro hn
      subst hn
      unfold loadAndAssignOption assignOption
      simp only [herr, ne_eq, not_true_eq_false, if_false, hname]
      rfl
    · intro hn subchapter hfound
      unfold loadAndAssignOption assignOption
      simp only [herr, ne_eq, not_true_eq_false, if_false, hname, isEndOption_eq_zero hn,
        hfound]
    · intro hn habs
      unfold loadAndAssignOption assignOption
      simp only [herr, ne_eq, not_true_eq_false, if_false, hname, isEndOption_eq_zero hn,
        habs]

/-- The statement of C25 at the load of the story `a = (b, c)`, `b = (a, c)`, `c`
terminal: the files `a`, `b` and `c` are loaded once each. -/
theorem loadChapterFromFile_loads_once_witness :
    startLoad.map.count_ = 0 ∧ startLoad.loaded = [] ∧
    ∃ st1 c, loadChapterFromFile storyEnvironment 4 startLoad [97] none = .ok (st1, c) ∧
      st1.loaded = [[97], [98], [99]] ∧ st1.loaded.Nodup :=
  ⟨rfl, rfl, _, _, rfl, rfl,
    (loadChapterFromFile_loads_once storyEnvironment 4 startLoad [97] none _ _ rfl rfl
      rfl).1⟩

/-! ## Invalid content -/

/-- C26, evaluated at three files with invalid content (fewer than three lines, an empty
choice line, one terminal and one non-terminal choice): the part of
`loadChapterFromFile` before the insert sets the error flag `ERR_IO` and does not touch
the store, and the call then faults in `free(filename)`, for a start file and for a
file that a chapter names, instead of returning. -/
theorem loadChapterFromFile_invalid_content :
    (∃ h c mem o, readChapter storyEnvironment [] [100] none 0 = .ok (h, c, mem, o, ERR_IO)) ∧
    (∃ h c mem o, readChapter storyEnvironment [] [101] none 0 = .ok (h, c, mem, o, ERR_IO)) ∧
    (∃ h c mem o, readChapter storyEnvironment [] [102] none 0 = .ok (h, c, mem, o, ERR_IO)) ∧
    (∀ fuel, loadChapterFromFile storyEnvironment (fuel + 1) startLoad [100] none =
      .error .badPointer) ∧
    (∀ fuel, loadChapterFromFile storyEnvironment (fuel + 1) startLoad [101] none =
      .error .badPointer) ∧
    (∀ fuel, loadChapterFromFile storyEnvironment (fuel + 1) startLoad [102] none =
      .error .badPointer) ∧
    (∀ fuel, loadChapterFromFile invalidChildEnvironment (fuel + 2) startLoad [97] none =
      .error .badPointer) :=
  ⟨⟨_, _, _, _, rfl⟩, ⟨_, _, _, _, rfl⟩, ⟨_, _, _, _, rfl⟩, fun _ => rfl, fun _ => rfl,
    fun _ => rfl, fun _ => rfl⟩

end Ass2
